import Mathlib

/-!
Verification of the OpenAPI splitter/merger core (src/core.py, src/splitter.py,
src/merger.py) via a shallow embedding.  JSON/YAML values are modelled by the
inductive type `J`; Python dictionaries are association lists over `String`
keys, kept in insertion order, with the usual Python semantics: lookup returns
the value of the (unique) matching key, assignment replaces an existing key in
place and appends a fresh key at the end.  Code that can raise a Python
exception is modelled in `Option` (a generic crash) or `Except String`
(when the raised message matters, or when the mutated state at raise time
matters: the error value then also carries that state).
-/

namespace OpenAPI

/-- A parsed JSON/YAML value (floats do not occur in the modelled data paths;
numeric scalars are modelled as integers). -/
inductive J where
  | s (v : String)
  | i (v : Int)
  | b (v : Bool)
  | null
  | arr (xs : List J)
  | obj (kvs : List (String × J))

abbrev Obj := List (String × J)

/-- Python `key in d` for a dict. -/
def jHas (kvs : Obj) (k : String) : Bool :=
  kvs.any (fun kv => kv.1 = k)

/-- Python `d[key]` / `d.get(key)` for a dict (first matching entry; keys of a
Python dict are unique). -/
def jFind? (kvs : Obj) (k : String) : Option J :=
  (kvs.find? (fun kv => kv.1 = k)).map (·.2)

/-- Python `d[key] = v`: replace the existing entry in place, else append. -/
def jSet (kvs : Obj) (k : String) (v : J) : Obj :=
  match kvs with
  | [] => [(k, v)]
  | kv :: rest => if kv.1 = k then (k, v) :: rest else kv :: jSet rest k v

/-- Python `del d[key]` (keys are unique, so deleting the first occurrence). -/
def jDel (kvs : Obj) (k : String) : Obj :=
  match kvs with
  | [] => []
  | kv :: rest => if kv.1 = k then rest else kv :: jDel rest k

/-- Python truthiness of a JSON value. -/
def jTruthy : J → Bool
  | J.s v => v != ""
  | J.i v => v != 0
  | J.b v => v
  | J.null => false
  | J.arr xs => !xs.isEmpty
  | J.obj kvs => !kvs.isEmpty

-- Structural (Python `==`) equality of JSON values, as a boolean.
mutual
def jbeq : J → J → Bool
  | J.s a, J.s c => a == c
  | J.i a, J.i c => a == c
  | J.b a, J.b c => a == c
  | J.null, J.null => true
  | J.arr a, J.arr c => jbeqL a c
  | J.obj a, J.obj c => jbeqKV a c
  | _, _ => false
def jbeqL : List J → List J → Bool
  | [], [] => true
  | x :: xs, y :: ys => jbeq x y && jbeqL xs ys
  | _, _ => false
def jbeqKV : List (String × J) → List (String × J) → Bool
  | [], [] => true
  | (k, v) :: xs, (k2, v2) :: ys => k == k2 && jbeq v v2 && jbeqKV xs ys
  | _, _ => false
end

/-- Insertion of a key/value pair into a key-sorted association list
(used to model `json.dumps(..., sort_keys=True)`: keys compared by
code-point order, as Python string `<` does). -/
def insKV (kv : String × J) : List (String × J) → List (String × J)
  | [] => [kv]
  | x :: xs => if kv.1 ≤ x.1 then kv :: x :: xs else x :: insKV kv xs

/-- Insertion sort of an association list by key. -/
def sortKV : List (String × J) → List (String × J)
  | [] => []
  | x :: xs => insKV x (sortKV xs)

-- Canonical form of a JSON value: every object has its keys sorted.  Two
-- values have `jbeq`-equal canonical forms exactly when their
-- `json.dumps(..., sort_keys=True)` serializations coincide, which is the
-- comparison `ComponentExtractor.merge_components` performs.
mutual
def canon : J → J
  | J.s v => J.s v
  | J.i v => J.i v
  | J.b v => J.b v
  | J.null => J.null
  | J.arr xs => J.arr (canonL xs)
  | J.obj kvs => J.obj (sortKV (canonKV kvs))
def canonL : List J → List J
  | [] => []
  | x :: xs => canon x :: canonL xs
def canonKV : List (String × J) → List (String × J)
  | [] => []
  | (k, v) :: xs => (k, canon v) :: canonKV xs
end

/-- The `json.dumps(x, sort_keys=True) == json.dumps(y, sort_keys=True)` test. -/
def dumpsEq (x y : J) : Bool :=
  jbeq (canon x) (canon y)

/-- Substring test on character lists (Python `needle in haystack` for `str`). -/
def containsSub (pat : List Char) : List Char → Bool
  | [] => pat.isEmpty
  | c :: rest => pat.isPrefixOf (c :: rest) || containsSub pat rest

/-- Python `k in x` for an arbitrary value `x`: key test on dicts, membership
on lists, substring test on strings, `TypeError` (`none`) otherwise. -/
def pyHasKey (k : String) : J → Option Bool
  | J.obj kvs => some (jHas kvs k)
  | J.arr xs => some (xs.any (fun x => jbeq x (J.s k)))
  | J.s v => some (containsSub k.data v.data)
  | _ => none

/-- Python iteration `for x in v`: elements of a list, keys of a dict,
one-character strings of a string, `TypeError` (`none`) otherwise. -/
def pyIter : J → Option (List J)
  | J.arr xs => some xs
  | J.obj kvs => some (kvs.map (fun kv => J.s kv.1))
  | J.s v => some (v.data.map (fun c => J.s (String.singleton c)))
  | _ => none

/-! ## core.py: `ComponentExtractor` -/

def COMPONENT_TYPES : List String :=
  ["schemas", "responses", "parameters", "examples",
   "requestBodies", "headers", "securitySchemes", "links", "callbacks"]

/-- `{comp_type: 0 for comp_type in COMPONENT_TYPES}` -/
def zeroConflicts : List (String × Nat) := COMPONENT_TYPES.map (fun t => (t, 0))

/-- `counts[k] += 1` on a counter dict (the key is always present at call
sites; an absent key, which would raise `KeyError`, leaves the dict alone). -/
def bumpCount : List (String × Nat) → String → List (String × Nat)
  | [], _ => []
  | (k, n) :: rest, m => if k = m then (k, n + 1) :: rest else (k, n) :: bumpCount rest m

/-- First-occurrence lookup in a counter dict, defaulting to 0. -/
def lookupCount (counts : List (String × Nat)) (k : String) : Nat :=
  ((counts.find? (fun kv => kv.1 = k)).map (·.2)).getD 0

/-- The message of the `ValueError` raised on a component conflict
(`Conflicting {comp_type} '{name}'`; the quote character is U+0027). -/
def conflictMsg (t n : String) : String :=
  let q := String.singleton (Char.ofNat 39)
  "Conflicting " ++ t ++ " " ++ q ++ n ++ q

/-- One `(name, definition)` step of `ComponentExtractor.merge_components`:
the body of the inner `for name, definition in source[comp_type].items()`
loop.  State is the mutated `target` dict together with the running conflict
counters; a raise carries the message and the target state at raise time. -/
def mergeCompEntry (strategy : String) (t : String)
    (st : Obj × List (String × Nat)) (entry : String × J) :
    Except (String × Obj) (Obj × List (String × Nat)) :=
  let (target, conflicts) := st
  let (name, defn) := entry
  match jFind? target t with
  | some (J.obj tobj) =>
    if jHas tobj name then
      let existing := (jFind? tobj name).getD J.null
      if dumpsEq existing defn then
        .ok (target, conflicts)
      else
        let conflicts := bumpCount conflicts t
        if strategy = "error" then
          .error (conflictMsg t name, target)
        else if strategy = "keep_last" then
          .ok (jSet target t (J.obj (jSet tobj name defn)), conflicts)
        else
          .ok (target, conflicts)
    else
      .ok (jSet target t (J.obj (jSet tobj name defn)), conflicts)
  | some _ => .error ("TypeError", target)
  | none => .error ("KeyError", target)

/-- One component type of `ComponentExtractor.merge_components`: the body of
the outer `for comp_type in cls.COMPONENT_TYPES` loop. -/
def mergeCompType (source : J) (strategy : String)
    (st : Obj × List (String × Nat)) (t : String) :
    Except (String × Obj) (Obj × List (String × Nat)) :=
  let (target, conflicts) := st
  match pyHasKey t source with
  | none => .error ("TypeError", target)
  | some false => .ok (target, conflicts)
  | some true =>
    match source with
    | J.obj src =>
      match (jFind? src t).getD J.null with
      | J.obj entries =>
        let target := if jHas target t then target else jSet target t (J.obj [])
        entries.foldlM (mergeCompEntry strategy t) (target, conflicts)
      | _ => .error ("TypeError", target)
    | _ => .error ("TypeError", target)

/-- `ComponentExtractor.merge_components(target, source, conflict_strategy)`.
`target` is a dict at every call site; `source` is an arbitrary loaded value
(`spec['components']` in the merger).  On success returns the new target and
the per-type conflict counts; a raise carries the target state at raise
time (the Python function mutates `target` in place). -/
def merge_components (target : Obj) (source : J) (strategy : String) :
    Except (String × Obj) (Obj × List (String × Nat)) :=
  COMPONENT_TYPES.foldlM (mergeCompType source strategy) (target, zeroConflicts)

/-- `ComponentExtractor.extract_components(spec)`: for each of the nine fixed
component types, the value under `spec['components']` if present, else `{}`.
Crashes (`none`) mirror the Python `TypeError`s on weird `components` values;
a stored non-copyable value (scalar under a type key) also crashes on
`.copy()`. -/
def extract_components (spec : Obj) : Option (List (String × J)) :=
  match jFind? spec "components" with
  | none => some (COMPONENT_TYPES.map (fun t => (t, J.obj [])))
  | some comps =>
    COMPONENT_TYPES.mapM (fun t =>
      match pyHasKey t comps with
      | none => none
      | some false => some (t, J.obj [])
      | some true =>
        match comps with
        | J.obj ckvs =>
          match (jFind? ckvs t).getD J.null with
          | J.obj o => some (t, J.obj o)
          | J.arr xs => some (t, J.arr xs)
          | _ => none
        | _ => none)

/-! ## core.py: `OperationCounter` -/

def HTTP_METHODS : List String :=
  ["get", "post", "put", "delete", "patch", "options", "head", "trace"]

/-- `spec.get('paths', {})` followed by `.items()`: absent means `{}`, a
non-dict value raises (`none`). -/
def getPathsOpt (spec : Obj) : Option (List (String × J)) :=
  match jFind? spec "paths" with
  | none => some []
  | some (J.obj ps) => some ps
  | some _ => none

/-- The `(path, method, operation)` triples contributed by one path item, in
the fixed canonical method order; non-dict path items contribute nothing. -/
def opsOfPathItem (p : String) : J → List (String × String × J)
  | J.obj pi => HTTP_METHODS.filterMap (fun m => (jFind? pi m).map (fun op => (p, m, op)))
  | _ => []

/-- `OperationCounter.get_operations(spec)`. -/
def get_operations (spec : Obj) : Option (List (String × String × J)) :=
  (getPathsOpt spec).map (fun ps => ps.flatMap (fun q => opsOfPathItem q.1 q.2))

/-- The initial counter dict of `count_operations`: one zero per method,
then `'total'`. -/
def initCounts : List (String × Nat) := HTTP_METHODS.map (fun m => (m, 0)) ++ [("total", 0)]

/-- The inner method loop of `count_operations` over a method list. -/
def innerFold (pi : Obj) (c : List (String × Nat)) (ms : List String) :
    List (String × Nat) :=
  ms.foldl (fun c m => if jHas pi m then bumpCount (bumpCount c m) "total" else c) c

/-- The body of the per-path loop of `count_operations`: for each method key
present in a dict path item, `counts[method] += 1; counts['total'] += 1`. -/
def countItem (counts : List (String × Nat)) : J → List (String × Nat)
  | J.obj pi => innerFold pi counts HTTP_METHODS
  | _ => counts

/-- `OperationCounter.count_operations(spec)`: the per-method counter dict
(method keys in canonical order, then `'total'`). -/
def count_operations (spec : Obj) : Option (List (String × Nat)) :=
  (getPathsOpt spec).map (fun ps => ps.foldl (fun c q => countItem c q.2) initCounts)

/-- The `(path, method)` pairs over the 8 HTTP methods present in a `paths`
dict — the multiset the round-trip property speaks about. -/
def opPairs (ps : List (String × J)) : List (String × String) :=
  ps.flatMap (fun q =>
    match q.2 with
    | J.obj pi => (HTTP_METHODS.filter (fun m => jHas pi m)).map (fun m => (q.1, m))
    | _ => [])

/-! ## splitter.py: `OpenAPISplitter` -/

-- Python `s.split(sep)` for a non-empty separator `s0 :: srest`, on
-- character lists: left-to-right, non-overlapping, empty segments kept.
-- The fuel argument only drives the recursion (every step consumes at least
-- one character, so `l.length` fuel is never exhausted, see
-- `pySplitF_irrel`); it makes the definition structurally recursive.
def pySplitF (s0 : Char) (srest : List Char) : Nat → List Char → List (List Char)
  | _, [] => [[]]
  | 0, l => [l]
  | fuel + 1, c :: rest =>
    if (s0 :: srest).isPrefixOf (c :: rest) then
      [] :: pySplitF s0 srest fuel (rest.drop srest.length)
    else
      match pySplitF s0 srest fuel rest with
      | seg :: segs => (c :: seg) :: segs
      | [] => [[c]]

def pySplit (s0 : Char) (srest : List Char) (l : List Char) : List (List Char) :=
  pySplitF s0 srest l.length l

/-- Python `s.strip(ch)` for a single strip character. -/
def stripChar (ch : Char) (l : List Char) : List Char :=
  ((l.dropWhile (fun c => c = ch)).reverse.dropWhile (fun c => c = ch)).reverse

/-- The group label of a path in `group_endpoints_by_path_prefix`:
`parts = path.strip('/').split('/')`; the first part if non-empty, else
`root`; with all `{`/`}` characters removed. -/
def pfxOf (p : String) : String :=
  let parts := pySplit '/' [] (stripChar '/' p.data)
  let first := parts.headD []
  let base := if first.isEmpty then "root".data else first
  String.mk (base.filter (fun c => c != Char.ofNat 123 && c != Char.ofNat 125))

/-- The splitter state: the loaded source document and the source file's
modification time (`Path(self.spec_path).stat().st_mtime`, an opaque
scalar stamped into every mini-spec). -/
structure Splitter where
  spec : Obj
  mtime : J

/-- The fallback `info` when the source has none. -/
def defaultInfo : Obj := [("title", J.s "API"), ("version", J.s "1.0.0")]

/-- `str()` of a scalar (the `f"{title} - {name}"` interpolation);
`str()` of containers is not reached by any modelled scenario and is
treated as a crash. -/
def pyStrScalar : J → Option String
  | J.s v => some v
  | J.i v => some (toString v)
  | J.b true => some "True"
  | J.b false => some "False"
  | J.null => some "None"
  | _ => none

/-- The `used_tags` set of `create_mini_spec`: union of `operation['tags']`
over the endpoints whose operation has a `tags` key (kept as a list; it is
only ever tested for membership and emptiness). -/
def usedTagsOfEndpoints (eps : List (String × String × J)) : Option (List J) :=
  eps.foldlM (fun acc e =>
    let op := e.2.2
    match pyHasKey "tags" op with
    | none => none
    | some false => some acc
    | some true =>
      match op with
      | J.obj okvs =>
        match pyIter ((jFind? okvs "tags").getD J.null) with
        | none => none
        | some ts => some (acc ++ ts)
      | _ => none) []

/-- `[tag for tag in self.spec['tags'] if tag.get('name') in used_tags]`. -/
def filterSpecTags (specTags : J) (used : List J) : Option (List J) :=
  match pyIter specTags with
  | none => none
  | some ts =>
    ts.foldlM (fun acc tag =>
      match tag with
      | J.obj tkvs =>
        let nm := (jFind? tkvs "name").getD J.null
        if used.any (fun u => jbeq u nm) then some (acc ++ [tag]) else some acc
      | _ => none) []

/-- The endpoint-population loop of `create_mini_spec` (and step 6 of the
spec): `paths[path][method] = operation`, creating the path entry first when
absent.  Stored path items are always dicts here (they start as `{}`), so
the non-dict branch is unreachable; Python would raise there. -/
def addEndpoints : List (String × String × J) → List (String × J) → Option (List (String × J))
  | [], ps => some ps
  | (p, m, op) :: rest, ps =>
    let ps1 := if jHas ps p then ps else jSet ps p (J.obj [])
    match jFind? ps1 p with
    | some (J.obj pi) => addEndpoints rest (jSet ps1 p (J.obj (jSet pi m op)))
    | _ => none

-- `OpenAPISplitter.create_mini_spec(endpoints, name, include_components)`
-- follows, split into its successive parts.  Python fills the dict in the
-- key order `openapi, info, paths, components?, servers?, security?,
-- tags?`; the later in-place updates of `paths` and `info` do not move
-- those keys, so the final dict is assembled directly in that order.
-- `self.common_components` is re-derived from the spec (its extraction
-- happened in `__init__`; had it crashed, no splitter would exist).

/-- The base `info` of a mini-spec: the source info (a dict, or the
function crashes later on it) or the default. -/
def miniInfoBase (spec : Obj) : Option Obj :=
  match jFind? spec "info" with
  | none => some defaultInfo
  | some (J.obj ikvs) => some ikvs
  | some _ => none

/-- The optional `components` entry of a mini-spec: the common components,
per type, skipping empty types.  The `include_components and
self.common_components` guard reduces to `include_components` because the
extracted dict always has 9 entries. -/
def miniCompsPart (spec : Obj) (ic : Bool) : Option Obj :=
  if ic then
    match extract_components spec with
    | none => none
    | some cc => some [("components", J.obj (cc.filter (fun tc => jTruthy tc.2)))]
  else some []

/-- An optional verbatim-copied entry (`servers`, `security`):
`.copy()` succeeds on dicts and lists, raises on scalars. -/
def miniCopyPart (spec : Obj) (key : String) : Option Obj :=
  match jFind? spec key with
  | none => some []
  | some (J.arr xs) => some [(key, J.arr xs)]
  | some (J.obj kvs) => some [(key, J.obj kvs)]
  | some _ => none

/-- The optional filtered `tags` entry of a mini-spec. -/
def miniTagsPart (spec : Obj) (endpoints : List (String × String × J)) : Option Obj :=
  match jFind? spec "tags" with
  | none => some []
  | some specTags => do
    let used ← usedTagsOfEndpoints endpoints
    if used.isEmpty then some []
    else do
      let kept ← filterSpecTags specTags used
      some [("tags", J.arr kept)]

def create_mini_spec (sp : Splitter) (endpoints : List (String × String × J))
    (name : String) (include_components : Bool) : Option Obj := do
  let info0 ← miniInfoBase sp.spec
  let compsPart ← miniCompsPart sp.spec include_components
  let serversPart ← miniCopyPart sp.spec "servers"
  let securityPart ← miniCopyPart sp.spec "security"
  let tagsPart ← miniTagsPart sp.spec endpoints
  let pathsFilled ← addEndpoints endpoints []
  let titleStr ← pyStrScalar ((jFind? info0 "title").getD (J.s "API"))
  let info1 := jSet info0 "title" (J.s (titleStr ++ " - " ++ name))
  let info2 := jSet info1 "x-split-part" (J.s name)
  let info3 := jSet info2 "x-split-timestamp" sp.mtime
  some ([("openapi", (jFind? sp.spec "openapi").getD (J.s "3.1.0")),
         ("info", J.obj info3), ("paths", J.obj pathsFilled)]
        ++ compsPart ++ serversPart ++ securityPart ++ tagsPart)

/-- Recursion core of `chunks`.  The first `Nat` is fuel: every step
consumes at least one list element, so `l.length` fuel is never exhausted
(`chunksF_irrel` below); fuel only makes the definition structurally
recursive. -/
def chunksF (n : Nat) : Nat → List α → List (List α)
  | 0, _ => []
  | _, [] => []
  | fuel + 1, x :: xs => (x :: xs.take (n - 1)) :: chunksF n fuel (xs.drop (n - 1))

/-- Consecutive chunks `lst[i:i+n]` for `i in range(0, len(lst), n)`.
For `n ≥ 1` this is exactly Python's slicing loop (`n = 0` raises there and
is guarded at the call sites). -/
def chunks (n : Nat) (l : List α) : List (List α) := chunksF n l.length l

/-- `f"{part_num:03d}"`. -/
def pad3 (k : Nat) : String :=
  if k < 10 then "00" ++ toString k
  else if k < 100 then "0" ++ toString k
  else toString k

/-- One produced split file: output name, group label, the manifest counts,
and the mini-spec written to it. -/
structure SplitFile where
  name : String
  label : String
  endpoint_count : Nat
  path_count : Nat
  mini : Obj

/-- `OpenAPISplitter.split_by_size(operations_per_file)`, modelled up to the
file system: the produced mini-specs with their manifest entries, in order.
`range(0, len, 0)` raises `ValueError`, hence the zero guard (it is only
reached when there are endpoints). -/
def split_by_size (sp : Splitter) (operations_per_file : Nat) : Option (List SplitFile) := do
  let ops ← get_operations sp.spec
  if ops.isEmpty then some []
  else if operations_per_file = 0 then none
  else
    (chunks operations_per_file ops).enum.mapM (fun jc =>
      let partNum := jc.1 + 1
      (create_mini_spec sp jc.2 ("Part " ++ toString partNum) true).map (fun mini =>
        { name := "spec_part" ++ pad3 partNum ++ ".json",
          label := "Part " ++ toString partNum,
          endpoint_count := jc.2.length,
          path_count := (jc.2.map (fun t => t.1)).dedup.length,
          mini := mini }))

/-- `defaultdict(list)`: append to the group of key `k`, creating it at the
end on first use. -/
def addToGroup (gs : List (String × List α)) (k : String) (x : α) : List (String × List α) :=
  match gs with
  | [] => [(k, [x])]
  | g :: rest => if g.1 = k then (k, g.2 ++ [x]) :: rest else g :: addToGroup rest k x

/-- Python `d[key] = v` on a generic dict. -/
def assocSet : List (String × α) → String → α → List (String × α)
  | [], k, v => [(k, v)]
  | g :: rest, k, v => if g.1 = k then (k, v) :: rest else g :: assocSet rest k v

/-- The grouping loop of `group_endpoints_by_path_prefix`: non-dict path
items and non-dict operations are skipped. -/
def groupByPfx (ps : List (String × J)) : List (String × List (String × String × J)) :=
  ps.foldl (fun gs q =>
    match q.2 with
    | J.obj pi =>
      HTTP_METHODS.foldl (fun gs m =>
        match jFind? pi m with
        | some (J.obj okvs) => addToGroup gs (pfxOf q.1) (q.1, m, J.obj okvs)
        | _ => gs) gs
    | _ => gs) []

/-- The re-chunking pass of `group_endpoints_by_path_prefix`: groups larger
than `max_per_file` are cut into chunks named `{prefix}_part{K}`; note the
plain dict assignment, which silently overwrites an equally-named group. -/
def finalGroups (maxPerFile : Nat) (grouped : List (String × List α)) : List (String × List α) :=
  grouped.foldl (fun fg g =>
    if g.2.length > maxPerFile then
      ((chunks maxPerFile g.2).enum).foldl (fun fg jc =>
        assocSet fg (g.1 ++ "_part" ++ toString (jc.1 + 1)) jc.2) fg
    else assocSet fg g.1 g.2) []

/-- `OpenAPISplitter.group_endpoints_by_path_prefix(max_per_file)`.  The
`range(0, len, 0)` `ValueError` for `max_per_file = 0` is modelled by the
guard (it fires exactly when some group must be re-chunked). -/
def group_endpoints_by_path_prefix (sp : Splitter) (maxPerFile : Nat) :
    Option (List (String × List (String × String × J))) := do
  let ps ← getPathsOpt sp.spec
  let grouped := groupByPfx ps
  if maxPerFile == 0 && grouped.any (fun g => g.2.length > 0) then none
  else some (finalGroups maxPerFile grouped)

/-- `OpenAPISplitter.split_by_path_prefix(max_per_file)`, modelled up to the
file system, like `split_by_size`. -/
def split_by_path_prefix (sp : Splitter) (maxPerFile : Nat) : Option (List SplitFile) := do
  let grouped ← group_endpoints_by_path_prefix sp maxPerFile
  if grouped.isEmpty then some []
  else grouped.mapM (fun g =>
    (create_mini_spec sp g.2 g.1 true).map (fun mini =>
      { name := "spec_" ++ g.1 ++ ".json",
        label := g.1,
        endpoint_count := g.2.length,
        path_count := (g.2.map (fun t => t.1)).dedup.length,
        mini := mini }))

/-! ## merger.py: `OpenAPIMerger`

The merged spec is a dict whose keys are drawn from a fixed set (`openapi`,
`swagger`, `info`, `paths`, `components`, `servers`, `security`, `tags`,
`externalDocs`); it is modelled as a structure with one field per key, a key
that may be absent (only these can be) as an `Option`.  A fatal exception
inside the merge loop aborts `merge_all` before anything is returned, so an
`Except.error` carries only the message. -/

structure MergedSpec where
  openapi : J
  swagger : Option J
  info : J
  paths : List (String × J)
  components : Option Obj
  servers : Option J
  security : Option J
  tags : Option J
  externalDocs : Option J

structure Stats where
  files_processed : Nat
  paths_merged : Nat
  operations_merged : Nat
  component_conflicts : List (String × Nat)
  path_conflicts : Nat

/-- The skeleton `self.merged_spec` built in `OpenAPIMerger.__init__`. -/
def initMerged : MergedSpec :=
  { openapi := J.s "3.1.0", swagger := none,
    info := J.obj [("title", J.s "Merged API"), ("version", J.s "1.0.0")],
    paths := [], components := some [],
    servers := none, security := none, tags := none, externalDocs := none }

/-- The initial `self.stats`. -/
def initStats : Stats :=
  { files_processed := 0, paths_merged := 0, operations_merged := 0,
    component_conflicts := [], path_conflicts := 0 }

abbrev MState := MergedSpec × Stats

/-- The title truncation of `OpenAPIMerger.merge_info`: cut the title
before the first `" - "`.  The non-string title branches mirror what Python
`' - ' in title` / `title.split` would do there. -/
def stripTitleCore (info : Obj) : Except String Obj :=
  match (jFind? info "title").getD (J.s "") with
  | J.s t =>
    if containsSub (" - ".data) t.data then
      .ok (jSet info "title" (J.s (String.mk ((pySplit ' ' ['-', ' '] t.data).headD []))))
    else .ok info
  | J.arr xs => if xs.any (fun x => jbeq x (J.s " - ")) then .error "AttributeError" else .ok info
  | J.obj kvs => if jHas kvs " - " then .error "AttributeError" else .ok info
  | _ => .error "TypeError"

/-- The first-file info cleanup of `OpenAPIMerger.merge_info`: drop the two
`x-split-*` keys, then truncate the title before the first `" - "`. -/
def stripSplitTitle (info : Obj) : Except String Obj :=
  stripTitleCore (jDel (jDel info "x-split-part") "x-split-timestamp")

/-- `OpenAPIMerger.merge_info(spec)`. -/
def merge_info (spec : Obj) (st : MState) : Except String MState :=
  match jFind? spec "info" with
  | none => .ok st
  | some srcInfo =>
    if st.2.files_processed = 0 then
      match srcInfo with
      | J.obj si =>
        match stripSplitTitle si with
        | .error e => .error e
        | .ok info2 => .ok ({st.1 with info := J.obj info2}, st.2)
      | _ => .error "AttributeError"
    else
      match st.1.info, srcInfo with
      | J.obj mi, J.obj si =>
        let mi1 :=
          if jHas si "description" && !jHas mi "description" then
            jSet mi "description" ((jFind? si "description").getD J.null)
          else mi
        let mi2 := si.foldl (fun mi kv =>
          if kv.1.startsWith "x-" && kv.1 != "x-split-part" &&
             kv.1 != "x-split-timestamp" && !jHas mi kv.1 then
            jSet mi kv.1 kv.2
          else mi) mi1
        .ok ({st.1 with info := J.obj mi2}, st.2)
      | _, _ => .error "AttributeError"

/-- `spec[prop].copy()`: dicts and lists copy, scalars raise. -/
def copyVal : J → Except String J
  | J.arr xs => .ok (J.arr xs)
  | J.obj kvs => .ok (J.obj kvs)
  | _ => .error "AttributeError"

/-- The de-duplicating server merge of `merge_root_properties`: fingerprints
are `json.dumps(..., sort_keys=True)` values, the set is extended as servers
are appended. -/
def mergeServers (mv : J) (incoming : List J) : Except String J :=
  match pyIter mv with
  | none => .error "TypeError"
  | some existing =>
    (incoming.foldlM (fun (acc : List J × J) server =>
      if acc.1.any (fun f => jbeq f (canon server)) then Except.ok acc
      else
        match acc.2 with
        | J.arr l => Except.ok (acc.1 ++ [canon server], J.arr (l ++ [server]))
        | _ => Except.error "AttributeError") (existing.map canon, mv)).map (fun acc => acc.2)

/-- `tag['name']` as used to key the `existing_tags` dict: raises on a
non-dict tag, a missing name, or an unhashable (container) name. -/
def tagName? (tag : J) : Except String J :=
  match tag with
  | J.obj tkvs =>
    match jFind? tkvs "name" with
    | some (J.s v) => .ok (J.s v)
    | some (J.i v) => .ok (J.i v)
    | some (J.b v) => .ok (J.b v)
    | some J.null => .ok J.null
    | some _ => .error "TypeError"
    | none => .error "KeyError"
  | _ => .error "TypeError"

/-- The `name` value of a tag object (for locating the snapshot alias). -/
def tagNameVal : J → J
  | J.obj tkvs => (jFind? tkvs "name").getD J.null
  | _ => J.null

/-- `existing_tags[name]` aliases the last tag with that name among the
first `origLen` elements (the snapshot taken before the loop); backfill its
`description` unless it already has one. -/
def backfillDesc (l : List J) (origLen : Nat) (nm desc : J) : List J :=
  match ((l.take origLen).enum.filter (fun iv => jbeq (tagNameVal iv.2) nm)).getLast? with
  | none => l
  | some iv =>
    match iv.2 with
    | J.obj tkvs =>
      if jHas tkvs "description" then l
      else l.set iv.1 (J.obj (jSet tkvs "description" desc))
    | _ => l

/-- The name-keyed tag merge of `merge_root_properties`. -/
def mergeTags (mv : J) (incoming : List J) : Except String J :=
  match pyIter mv with
  | none => .error "TypeError"
  | some existingList => do
    let names ← existingList.mapM tagName?
    incoming.foldlM (fun cur tag => do
      let nm ← tagName? tag
      if names.any (fun n => jbeq n nm) then
        match tag with
        | J.obj tkvs =>
          if jHas tkvs "description" then
            match cur with
            | J.arr l =>
              .ok (J.arr (backfillDesc l existingList.length nm
                    ((jFind? tkvs "description").getD J.null)))
            | _ => .ok cur
          else .ok cur
        | _ => .ok cur
      else
        match cur with
        | J.arr l => .ok (J.arr (l ++ [tag]))
        | _ => .error "AttributeError") mv

/-- The `servers` step of `merge_root_properties`. -/
def mrpServers (spec : Obj) (m : MergedSpec) : Except String (Option J) :=
  match jFind? spec "servers", m.servers with
  | none, cur => .ok cur
  | some v, none => (copyVal v).map some
  | some v, some mv =>
    match pyIter v with
    | none => .error "TypeError"
    | some incoming => (mergeServers mv incoming).map some

/-- The `security` step of `merge_root_properties`. -/
def mrpSecurity (spec : Obj) (m : MergedSpec) : Except String (Option J) :=
  match jFind? spec "security", m.security with
  | none, cur => .ok cur
  | some v, none => (copyVal v).map some
  | some _, some mv => .ok (some mv)

/-- The `tags` step of `merge_root_properties`. -/
def mrpTags (spec : Obj) (m : MergedSpec) : Except String (Option J) :=
  match jFind? spec "tags", m.tags with
  | none, cur => .ok cur
  | some v, none => (copyVal v).map some
  | some v, some mv =>
    match pyIter v with
    | none => .error "TypeError"
    | some incoming => (mergeTags mv incoming).map some

/-- The `externalDocs` step of `merge_root_properties`. -/
def mrpExternalDocs (spec : Obj) (m : MergedSpec) : Except String (Option J) :=
  match jFind? spec "externalDocs", m.externalDocs with
  | none, cur => .ok cur
  | some v, none => (copyVal v).map some
  | some _, some mv => .ok (some mv)

/-- `OpenAPIMerger.merge_root_properties(spec)`: `servers`, `security`,
`tags`, `externalDocs`, in that order; first sight copies, `servers` and
`tags` have re-merge rules, the other two do not; a raise in any step
aborts. -/
def merge_root_properties (spec : Obj) (st : MState) : Except String MState :=
  match mrpServers spec st.1 with
  | .error e => .error e
  | .ok sv =>
    match mrpSecurity spec st.1 with
    | .error e => .error e
    | .ok sec =>
      match mrpTags spec st.1 with
      | .error e => .error e
      | .ok tg =>
        match mrpExternalDocs spec st.1 with
        | .error e => .error e
        | .ok ed =>
          .ok ({st.1 with
                  servers := sv
                  security := sec
                  tags := tg
                  externalDocs := ed}, st.2)

/-- Accumulate one per-type conflict count into
`self.stats['component_conflicts']` (only when positive). -/
def addConflict (cc : List (String × Nat)) (t : String) (n : Nat) : List (String × Nat) :=
  if cc.any (fun kv => kv.1 = t) then
    cc.map (fun kv => if kv.1 = t then (kv.1, kv.2 + n) else kv)
  else cc ++ [(t, n)]

/-- `OpenAPIMerger.merge_components(spec, conflict_strategy)`: delegates to
`ComponentExtractor.merge_components` and folds the returned counts into the
statistics.  The `ValueError` of the `error` policy propagates and aborts
the merge, so only its message survives here. -/
def merger_merge_components (spec : Obj) (strategy : String) (st : MState) :
    Except String MState :=
  match jFind? spec "components" with
  | none => .ok st
  | some src =>
    match merge_components (st.1.components.getD []) src strategy with
    | .error e => .error e.1
    | .ok tc =>
      .ok ({st.1 with components := some tc.1},
        {st.2 with component_conflicts :=
          tc.2.foldl (fun cc kv =>
            if kv.2 > 0 then addConflict cc kv.1 kv.2 else cc) st.2.component_conflicts})

/-- One `merged_spec['paths'][path][method] = operation` write, with its
conflict and operation counting.  The looked-up path item is always a dict
(entries start as `{}`); Python would raise on the other branch. -/
def writeMethod (st : MState) (p m : String) (op : J) : Except String MState :=
  match jFind? st.1.paths p with
  | some (J.obj e) =>
    let stats :=
      if jHas e m then {st.2 with path_conflicts := st.2.path_conflicts + 1} else st.2
    let newPaths := jSet st.1.paths p (J.obj (jSet e m op))
    let stats :=
      if HTTP_METHODS.contains m then
        {stats with operations_merged := stats.operations_merged + 1}
      else stats
    .ok ({st.1 with paths := newPaths}, stats)
  | _ => .error "TypeError"

/-- The body of the per-path loop of `OpenAPIMerger.merge_paths`: non-dict
path items are skipped; an absent path entry is created (counting toward
`paths_merged`); then every key of the item is written in order. -/
def mergePathItem (st : MState) (p : String) (item : J) : Except String MState :=
  match item with
  | J.obj pi =>
    let st1 :=
      if jHas st.1.paths p then st
      else ({st.1 with paths := jSet st.1.paths p (J.obj [])},
            {st.2 with paths_merged := st.2.paths_merged + 1})
    pi.foldlM (fun st e => writeMethod st p e.1 e.2) st1
  | _ => .ok st

/-- `OpenAPIMerger.merge_paths(spec)`. -/
def merge_paths (spec : Obj) (st : MState) : Except String MState :=
  match jFind? spec "paths" with
  | none => .ok st
  | some (J.obj ps) => ps.foldlM (fun st q => mergePathItem st q.1 q.2) st
  | some _ => .error "AttributeError"

/-- `OpenAPIMerger.clean_merged_spec()`: drop empty component type entries,
then the `components` key itself when nothing is left. -/
def clean_merged_spec (m : MergedSpec) : MergedSpec :=
  match m.components with
  | none => m
  | some comps =>
    let comps := comps.filter (fun tc => jTruthy tc.2)
    if comps.isEmpty then {m with components := none} else {m with components := some comps}

/-- The version-copy step at the top of the per-file body of
`OpenAPIMerger.merge_all`: on the first successfully loaded file, take its
`openapi` (or else `swagger`) version. -/
def versionCopy (st : MState) (spec : Obj) : MState :=
  if st.2.files_processed = 0 then
    if jHas spec "openapi" then
      ({st.1 with openapi := (jFind? spec "openapi").getD J.null}, st.2)
    else if jHas spec "swagger" then
      ({st.1 with swagger := some ((jFind? spec "swagger").getD J.null)}, st.2)
    else st
  else st

/-- The per-file body of `OpenAPIMerger.merge_all`: version copy on the
first successfully loaded file, then info, root properties, components and
paths, then the processed-files counter; a raise in any step aborts. -/
def processSpec (strategy : String) (st : MState) (spec : Obj) : Except String MState :=
  match merge_info spec (versionCopy st spec) with
  | .error e => .error e
  | .ok st1 =>
    match merge_root_properties spec st1 with
    | .error e => .error e
    | .ok st2 =>
      match merger_merge_components spec strategy st2 with
      | .error e => .error e
      | .ok st3 =>
        match merge_paths spec st3 with
        | .error e => .error e
        | .ok st4 => .ok (st4.1, {st4.2 with files_processed := st4.2.files_processed + 1})

/-- `OpenAPIMerger.merge_all(conflict_strategy)`, modelled up to the file
system: `loads` is the list of per-file load outcomes for the resolved spec
files, in processing order; a load failure is logged and skipped, any other
exception aborts the merge.  Returns the cleaned merged document and the
statistics. -/
def merge_all_specs (loads : List (Except String Obj)) (strategy : String) :
    Except String (MergedSpec × Stats) := do
  if loads.isEmpty then .error "No spec files found to merge!"
  else do
    let st ← loads.foldlM (fun st load =>
      match load with
      | .error _ => .ok st
      | .ok spec => processSpec strategy st spec) (initMerged, initStats)
    .ok (clean_merged_spec st.1, st.2)

/-! ## Derived notions used by the statements -/

/-- The `(path, method)` pairs of a whole spec (what
`count_operations` counts and the round-trip property compares). -/
def opPairsOfSpec (spec : Obj) : List (String × String) :=
  ((getPathsOpt spec).map opPairs).getD []

/-- Well-formedness of a paths dict as produced by the merger: unique path
keys and every stored path item a dict. -/
def WFPaths (ps : List (String × J)) : Prop :=
  (ps.map Prod.fst).Nodup ∧ ∀ q ∈ ps, ∃ o, q.2 = J.obj o

/-- Well-formedness of a component mapping (what any Python dict of dicts
satisfies): every value under one of the nine component types is a dict
with unique keys. -/
def WFComponents (c : Obj) : Prop :=
  ∀ t ∈ COMPONENT_TYPES, ∀ v, jFind? c t = some v →
    ∃ o, v = J.obj o ∧ (o.map Prod.fst).Nodup

/-- A `paths` dict carries the pair `(q, r)`: some entry keyed `q` is a
dict holding the key `r`.  Membership in `opPairs` is exactly this plus
`r ∈ HTTP_METHODS`. -/
def hasPair (ps : List (String × J)) (q r : String) : Prop :=
  ∃ pi, (q, J.obj pi) ∈ ps ∧ jHas pi r = true

/-- The `(path, method)` projections of an endpoints list. -/
def epPairs (eps : List (String × String × J)) : List (String × String) :=
  eps.map (fun t => (t.1, t.2.1))

/-- Well-formedness of a `paths` dict as built by `addEndpoints` and as
maintained by the merger: unique path keys and every path item a dict with
unique keys. -/
def WFItems (ps : List (String × J)) : Prop :=
  (ps.map Prod.fst).Nodup ∧
    ∀ q ∈ ps, ∃ pi, q.2 = J.obj pi ∧ (pi.map Prod.fst).Nodup

/-- The group list the re-chunking pass of
`group_endpoints_by_path_prefix` writes, in generation order; the pass's
dict assignment collapses equal labels, so `finalGroups` equals this list
exactly when the generated labels are pairwise distinct. -/
def genEntries (maxPerFile : Nat) (grouped : List (String × List α)) :
    List (String × List α) :=
  grouped.flatMap (fun g =>
    if g.2.length > maxPerFile then
      ((chunks maxPerFile g.2).enum).map (fun jc =>
        (g.1 ++ "_part" ++ toString (jc.1 + 1), jc.2))
    else [g])

/-! ## Concrete documents used as witnesses and counterexamples -/

/-- A path item carrying all eight HTTP methods. -/
def full8Item : J := J.obj (HTTP_METHODS.map (fun m => (m, J.obj [])))

/-- A Pet Store document (title round-trip witness). -/
def spPet : Splitter :=
  ⟨[("openapi", J.s "3.0.0"),
    ("info", J.obj [("title", J.s "Pet Store"), ("version", J.s "1.0")]),
    ("paths", J.obj [])], J.i 0⟩

/-- A source document with exactly 75 operations (9 × 8 + 3). -/
def sp75 : Splitter :=
  ⟨[("openapi", J.s "3.0.0"),
    ("info", J.obj [("title", J.s "T"), ("version", J.s "1.0")]),
    ("paths", J.obj
      [("/a", full8Item), ("/b", full8Item), ("/c", full8Item),
       ("/d", full8Item), ("/e", full8Item), ("/f", full8Item),
       ("/g", full8Item), ("/h", full8Item), ("/i", full8Item),
       ("/j", J.obj [("get", J.obj []), ("post", J.obj []), ("put", J.obj [])])])],
   J.i 0⟩

/-! ## Basic dictionary lemmas -/

theorem jHas_eq_isSome (l : Obj) (k : String) : jHas l k = (jFind? l k).isSome := by
  induction l with
  | nil => rfl
  | cons kv rest ih =>
    by_cases h : kv.1 = k
    · simp [jHas, jFind?, List.find?_cons, h]
    · simpa [jHas, jFind?, List.find?_cons, h] using ih

theorem jFind?_cons (kv : String × J) (l : Obj) (k : String) :
    jFind? (kv :: l) k = if kv.1 = k then some kv.2 else jFind? l k := by
  by_cases h : kv.1 = k <;> simp [jFind?, List.find?_cons, h]

theorem jFind?_jSet_self (l : Obj) (k : String) (v : J) :
    jFind? (jSet l k v) k = some v := by
  induction l with
  | nil => simp [jSet, jFind?_cons]
  | cons kv rest ih =>
    by_cases h : kv.1 = k
    · simp [jSet, h, jFind?_cons]
    · simp [jSet, h, jFind?_cons, ih]

theorem jHas_cons (kv : String × J) (l : Obj) (k : String) :
    jHas (kv :: l) k = (decide (kv.1 = k) || jHas l k) := by
  simp [jHas]

theorem jHas_iff_mem_keys (l : Obj) (k : String) :
    jHas l k = true ↔ k ∈ l.map Prod.fst := by
  induction l with
  | nil => simp [jHas]
  | cons kv rest ih =>
    simp only [jHas_cons, Bool.or_eq_true, decide_eq_true_eq, ih, List.map_cons,
      List.mem_cons]
    exact or_congr eq_comm Iff.rfl

theorem jFind?_nil (k : String) : jFind? [] k = none := rfl

theorem jFind?_jSet_ne (l : Obj) (k k' : String) (v : J) (h : k' ≠ k) :
    jFind? (jSet l k v) k' = jFind? l k' := by
  have hne : k ≠ k' := fun hh => h hh.symm
  induction l with
  | nil => simp [jSet, jFind?_cons, jFind?_nil, hne]
  | cons kv rest ih =>
    obtain ⟨kk, vv⟩ := kv
    by_cases hk : kk = k
    · subst hk
      simp [jSet, jFind?_cons, hne]
    · simp [jSet, hk, jFind?_cons, ih]

theorem keys_jSet (l : Obj) (k : String) (v : J) :
    (jSet l k v).map Prod.fst =
      if jHas l k then l.map Prod.fst else l.map Prod.fst ++ [k] := by
  induction l with
  | nil => simp [jSet, jHas]
  | cons kv rest ih =>
    obtain ⟨kk, vv⟩ := kv
    by_cases h : kk = k
    · simp [jSet, jHas_cons, h]
    · by_cases h2 : jHas rest k
      · simp [jSet, jHas_cons, h, h2, ih]
      · simp [jSet, jHas_cons, h, h2, ih]

theorem nodup_keys_jSet (l : Obj) (k : String) (v : J)
    (h : (l.map Prod.fst).Nodup) : ((jSet l k v).map Prod.fst).Nodup := by
  rw [keys_jSet]
  by_cases hk : jHas l k
  · simpa [hk] using h
  · have hnk : k ∉ l.map Prod.fst := by
      intro hm
      rw [← jHas_iff_mem_keys] at hm
      simp [hk] at hm
    simp [hk, List.nodup_append, h, hnk]

theorem jHas_false_find (l : Obj) (k : String) (h : jHas l k = false) :
    jFind? l k = none := by
  rw [jHas_eq_isSome] at h
  cases hf : jFind? l k <;> simp_all

/-! ## Reflexivity of structural equality -/

mutual
theorem jbeq_refl : ∀ a, jbeq a a = true
  | J.s v => by simp [jbeq]
  | J.i v => by simp [jbeq]
  | J.b v => by simp [jbeq]
  | J.null => by simp [jbeq]
  | J.arr xs => by simp [jbeq, jbeqL_refl xs]
  | J.obj kvs => by simp [jbeq, jbeqKV_refl kvs]
theorem jbeqL_refl : ∀ l, jbeqL l l = true
  | [] => by simp [jbeqL]
  | x :: xs => by simp [jbeqL, jbeq_refl x, jbeqL_refl xs]
theorem jbeqKV_refl : ∀ l, jbeqKV l l = true
  | [] => by simp [jbeqKV]
  | (k, v) :: xs => by simp [jbeqKV, jbeq_refl v, jbeqKV_refl xs]
end

theorem dumpsEq_refl (x : J) : dumpsEq x x = true := jbeq_refl (canon x)

/-! ## Counter lemmas (toward C9) -/

theorem lookupCount_cons (kv : String × Nat) (l : List (String × Nat)) (j : String) :
    lookupCount (kv :: l) j = if kv.1 = j then kv.2 else lookupCount l j := by
  by_cases h : kv.1 = j <;> simp [lookupCount, List.find?_cons, h]

theorem keys_bumpCount (c : List (String × Nat)) (k : String) :
    (bumpCount c k).map Prod.fst = c.map Prod.fst := by
  induction c with
  | nil => rfl
  | cons kv rest ih =>
    obtain ⟨kk, n⟩ := kv
    by_cases h : kk = k <;> simp [bumpCount, h, ih]

theorem lookupCount_bump_self (c : List (String × Nat)) (k : String)
    (hk : k ∈ c.map Prod.fst) : lookupCount (bumpCount c k) k = lookupCount c k + 1 := by
  induction c with
  | nil => simp at hk
  | cons kv rest ih =>
    obtain ⟨kk, n⟩ := kv
    by_cases h : kk = k
    · subst h
      simp [bumpCount, lookupCount_cons]
    · have hk' : k ∈ rest.map Prod.fst := by
        rw [List.map_cons] at hk
        rcases List.mem_cons.mp hk with h1 | h1
        · exact absurd h1.symm h
        · exact h1
      simp [bumpCount, h, lookupCount_cons, ih hk']

theorem lookupCount_bump_ne (c : List (String × Nat)) (k j : String) (h : j ≠ k) :
    lookupCount (bumpCount c k) j = lookupCount c j := by
  induction c with
  | nil => rfl
  | cons kv rest ih =>
    obtain ⟨kk, n⟩ := kv
    by_cases hkk : kk = k
    · subst hkk
      have hne : kk ≠ j := fun hh => h (by rw [← hh])
      simp [bumpCount, lookupCount_cons, hne]
    · simp [bumpCount, hkk, lookupCount_cons, ih]

theorem innerFold_cons (pi : Obj) (c : List (String × Nat)) (m : String) (ms : List String) :
    innerFold pi c (m :: ms) =
      innerFold pi (if jHas pi m then bumpCount (bumpCount c m) "total" else c) ms := rfl

/-- Behaviour of the inner method loop of `count_operations` on one path
item: the `total` entry grows by the number of present methods, a method
entry grows by one exactly when present, keys are unchanged. -/
theorem innerFold_spec (pi : Obj) (ms : List String) (c : List (String × Nat))
    (hms : ∀ m ∈ ms, m ∈ c.map Prod.fst ∧ m ≠ "total")
    (htot : "total" ∈ c.map Prod.fst) (hnd : ms.Nodup) :
    (lookupCount (innerFold pi c ms) "total"
      = lookupCount c "total" + (ms.filter (fun m => jHas pi m)).length) ∧
    (∀ j, j ∉ ms → j ≠ "total" → lookupCount (innerFold pi c ms) j = lookupCount c j) ∧
    (∀ j ∈ ms, lookupCount (innerFold pi c ms) j
      = lookupCount c j + (if jHas pi j then 1 else 0)) ∧
    (innerFold pi c ms).map Prod.fst = c.map Prod.fst := by
  induction ms generalizing c with
  | nil => simp [innerFold]
  | cons m rest ih =>
    rw [innerFold_cons]
    set c1 := if jHas pi m then bumpCount (bumpCount c m) "total" else c with hc1
    have hkeys1 : c1.map Prod.fst = c.map Prod.fst := by
      by_cases h : jHas pi m <;> simp [hc1, h, keys_bumpCount]
    obtain ⟨hm, hmt⟩ := hms m (by simp)
    have hms' : ∀ x ∈ rest, x ∈ c1.map Prod.fst ∧ x ≠ "total" := by
      intro x hx
      obtain ⟨h1, h2⟩ := hms x (by simp [hx])
      exact ⟨by rw [hkeys1]; exact h1, h2⟩
    have htot1 : "total" ∈ c1.map Prod.fst := by rw [hkeys1]; exact htot
    have hndr : rest.Nodup := (List.nodup_cons.mp hnd).2
    have hmr : m ∉ rest := (List.nodup_cons.mp hnd).1
    obtain ⟨ihT, ihN, ihI, ihK⟩ := ih c1 hms' htot1 hndr
    have htm : ("total" : String) ≠ m := fun hh => hmt hh.symm
    have hT1 : lookupCount c1 "total"
        = lookupCount c "total" + (if jHas pi m then 1 else 0) := by
      by_cases h : jHas pi m
      · rw [hc1]
        simp only [h, if_true]
        rw [lookupCount_bump_self _ _ (by rw [keys_bumpCount]; exact htot),
          lookupCount_bump_ne _ _ _ htm]
      · simp [hc1, h]
    have hM1 : lookupCount c1 m = lookupCount c m + (if jHas pi m then 1 else 0) := by
      by_cases h : jHas pi m
      · rw [hc1]
        simp only [h, if_true]
        rw [lookupCount_bump_ne _ _ _ hmt, lookupCount_bump_self _ _ hm]
      · simp [hc1, h]
    have hJ1 : ∀ j, j ≠ m → j ≠ "total" → lookupCount c1 j = lookupCount c j := by
      intro j hjm hjt
      by_cases h : jHas pi m
      · rw [hc1]
        simp only [h, if_true]
        rw [lookupCount_bump_ne _ _ _ hjt, lookupCount_bump_ne _ _ _ hjm]
      · simp [hc1, h]
    refine ⟨?_, ?_, ?_, ihK.trans hkeys1⟩
    · rw [ihT, hT1, List.filter_cons]
      by_cases h : jHas pi m <;> simp [h] <;> omega
    · intro j hj hjt
      have hjm : j ≠ m := fun hh => hj (by simp [hh])
      have hjr : j ∉ rest := fun hh => hj (by simp [hh])
      rw [ihN j hjr hjt, hJ1 j hjm hjt]
    · intro j hj
      rcases List.mem_cons.mp hj with h1 | h1
      · subst h1
        rw [ihN j hmr hmt, hM1]
      · obtain ⟨_, hjt⟩ := hms j (by simp [h1])
        have hjm : j ≠ m := fun hh => hmr (hh ▸ h1)
        rw [ihI j h1, hJ1 j hjm hjt]

/-- `get_operations` and the filter in `count_operations` see the same
method keys of a path item. -/
theorem length_filterMap_find (pi : Obj) (p : String) (ms : List String) :
    (ms.filterMap (fun m => (jFind? pi m).map (fun op => (p, m, op)))).length
      = (ms.filter (fun m => jHas pi m)).length := by
  induction ms with
  | nil => rfl
  | cons m rest ih =>
    by_cases h : jHas pi m
    · obtain ⟨v, hv⟩ : ∃ v, jFind? pi m = some v := by
        rw [jHas_eq_isSome] at h
        exact Option.isSome_iff_exists.mp h
      simp [List.filterMap_cons, List.filter_cons, hv, h, ih]
    · have hf := jHas_false_find pi m (by simpa using h)
      simp [List.filterMap_cons, List.filter_cons, hf, h, ih]

theorem length_opsOfPathItem (p : String) (item : J) :
    (opsOfPathItem p item).length =
      (match item with
       | J.obj pi => (HTTP_METHODS.filter (fun m => jHas pi m)).length
       | _ => 0) := by
  cases item <;> simp [opsOfPathItem, length_filterMap_find]

theorem sum_map_add (l : List α) (f g : α → Nat) :
    (l.map (fun x => f x + g x)).sum = (l.map f).sum + (l.map g).sum := by
  induction l with
  | nil => rfl
  | cons x xs ih => simp [ih]; omega

theorem sum_map_ite (l : List α) (p : α → Bool) :
    (l.map (fun x => if p x then (1 : Nat) else 0)).sum = (l.filter p).length := by
  induction l with
  | nil => rfl
  | cons x xs ih =>
    by_cases h : p x <;> simp [List.filter_cons, h, ih] <;> omega

/-- The outer fold of `count_operations`, relative to any counter dict with
the initial key set: `total` and the method-sum both advance by the number
of enumerated operations, and the key set is preserved. -/
theorem count_fold_invariant (ps : List (String × J)) (c : List (String × Nat))
    (hkeys : c.map Prod.fst = initCounts.map Prod.fst) :
    (lookupCount (ps.foldl (fun c q => countItem c q.2) c) "total"
      = lookupCount c "total" + (ps.flatMap (fun q => opsOfPathItem q.1 q.2)).length)
    ∧ ((ps.foldl (fun c q => countItem c q.2) c).map Prod.fst = initCounts.map Prod.fst)
    ∧ ((HTTP_METHODS.map (fun m =>
          lookupCount (ps.foldl (fun c q => countItem c q.2) c) m)).sum
        = (HTTP_METHODS.map (fun m => lookupCount c m)).sum
          + (ps.flatMap (fun q => opsOfPathItem q.1 q.2)).length) := by
  induction ps generalizing c with
  | nil => simp [hkeys]
  | cons q rest ih =>
    have hfold : (q :: rest).foldl (fun c q => countItem c q.2) c
        = rest.foldl (fun c q => countItem c q.2) (countItem c q.2) := rfl
    rw [hfold]
    have hmeth : ∀ m ∈ HTTP_METHODS, m ∈ c.map Prod.fst ∧ m ≠ "total" := by
      rw [hkeys]
      decide
    have htot : "total" ∈ c.map Prod.fst := by
      rw [hkeys]
      decide
    have hnd : HTTP_METHODS.Nodup := by decide
    have hstep :
        (lookupCount (countItem c q.2) "total"
          = lookupCount c "total" + (opsOfPathItem q.1 q.2).length)
        ∧ ((countItem c q.2).map Prod.fst = c.map Prod.fst)
        ∧ ((HTTP_METHODS.map (fun m => lookupCount (countItem c q.2) m)).sum
          = (HTTP_METHODS.map (fun m => lookupCount c m)).sum
            + (opsOfPathItem q.1 q.2).length) := by
      cases hq : q.2 with
      | obj pi =>
        obtain ⟨hT, _, hI, hK⟩ := innerFold_spec pi HTTP_METHODS c hmeth htot hnd
        refine ⟨?_, ?_, ?_⟩
        · rw [countItem, hT, length_opsOfPathItem]
        · rw [countItem, hK]
        · have hmap : HTTP_METHODS.map (fun m => lookupCount (innerFold pi c HTTP_METHODS) m)
              = HTTP_METHODS.map (fun m =>
                  lookupCount c m + (if jHas pi m then 1 else 0)) :=
            List.map_congr_left (fun m hm => hI m hm)
          rw [countItem, hmap, sum_map_add, sum_map_ite, length_opsOfPathItem]
      | s v => simp [countItem, opsOfPathItem]
      | i v => simp [countItem, opsOfPathItem]
      | b v => simp [countItem, opsOfPathItem]
      | null => simp [countItem, opsOfPathItem]
      | arr xs => simp [countItem, opsOfPathItem]
    obtain ⟨hsT, hsK, hsS⟩ := hstep
    obtain ⟨ihT, ihK, ihS⟩ := ih (countItem c q.2) (hsK.trans hkeys)
    refine ⟨?_, ihK, ?_⟩
    · rw [ihT, hsT, List.flatMap_cons, List.length_append]
      omega
    · rw [ihS, hsS, List.flatMap_cons, List.length_append]
      omega

/-- C9: for every spec mapping, `count_operations` and `get_operations`
succeed or crash together (they reject exactly the same non-dict `paths`
values and skip exactly the same non-mapping path items), and on success the
`total` entry of `count_operations(spec)` equals the length of
`get_operations(spec)` as well as the sum of the per-method counts in the
same result. -/
theorem c9_count_get_agree :
    ∀ spec : Obj,
      (count_operations spec).isSome = (get_operations spec).isSome ∧
      ∀ c ops, count_operations spec = some c → get_operations spec = some ops →
        lookupCount c "total" = ops.length ∧
        (HTTP_METHODS.map (fun m => lookupCount c m)).sum = lookupCount c "total" := by
  intro spec
  cases hp : getPathsOpt spec with
  | none => simp [count_operations, get_operations, hp]
  | some ps =>
    constructor
    · simp [count_operations, get_operations, hp]
    · intro c ops hc hops
      simp only [count_operations, get_operations, hp, Option.map_some',
        Option.some_inj] at hc hops
      subst hc
      subst hops
      obtain ⟨hT, hK, hS⟩ := count_fold_invariant ps initCounts rfl
      have h0 : lookupCount initCounts "total" = 0 := by decide
      have h1 : (HTTP_METHODS.map (fun m => lookupCount initCounts m)).sum = 0 := by decide
      exact ⟨by rw [hT, h0]; omega, by rw [hS, hT, h0, h1]⟩

/-- Witness for C9 at a concrete spec with one counted operation, one
skipped non-dict path item and one non-method key. -/
theorem c9_count_get_agree_witness :
    lookupCount [("get", 1), ("post", 0), ("put", 0), ("delete", 0), ("patch", 0),
        ("options", 0), ("head", 0), ("trace", 0), ("total", 1)] "total"
      = [("/p", "get", J.obj [])].length ∧
    (HTTP_METHODS.map (fun m =>
        lookupCount [("get", 1), ("post", 0), ("put", 0), ("delete", 0), ("patch", 0),
          ("options", 0), ("head", 0), ("trace", 0), ("total", 1)] m)).sum
      = lookupCount [("get", 1), ("post", 0), ("put", 0), ("delete", 0), ("patch", 0),
          ("options", 0), ("head", 0), ("trace", 0), ("total", 1)] "total" :=
  (c9_count_get_agree
      [("paths", J.obj [("/p", J.obj [("get", J.obj []), ("summary", J.s "x")]),
                        ("/q", J.s "bad")])]).2
    [("get", 1), ("post", 0), ("put", 0), ("delete", 0), ("patch", 0),
     ("options", 0), ("head", 0), ("trace", 0), ("total", 1)]
    [("/p", "get", J.obj [])] rfl rfl

/-! ## merge_components (toward C2 and C7) -/

theorem jFind?_of_mem_nodup (o : Obj) (k : String) (v : J)
    (h : (k, v) ∈ o) (hnd : (o.map Prod.fst).Nodup) : jFind? o k = some v := by
  induction o with
  | nil => simp at h
  | cons kv rest ih =>
    rw [List.map_cons, List.nodup_cons] at hnd
    rcases List.mem_cons.mp h with h1 | h1
    · subst h1
      simp [jFind?_cons]
    · have hk : kv.1 ≠ k := by
        intro hh
        exact hnd.1 (hh ▸ (List.mem_map_of_mem Prod.fst h1))
      simp [jFind?_cons, hk, ih h1 hnd.2]

/-- Merging a dict entry into a target that already holds a structurally
equal definition under the same name changes nothing. -/
theorem mergeCompEntry_self (strategy t : String) (C : Obj) (o : Obj)
    (hfind : jFind? C t = some (J.obj o)) (hnd : (o.map Prod.fst).Nodup)
    (cf : List (String × Nat)) :
    ∀ es : Obj, (∀ e ∈ es, e ∈ o) →
      es.foldlM (mergeCompEntry strategy t) (C, cf) = .ok (C, cf) := by
  intro es hes
  induction es with
  | nil => rfl
  | cons e rest ih =>
    have hmem : e ∈ o := hes e (by simp)
    have hfe : jFind? o e.1 = some e.2 := jFind?_of_mem_nodup o e.1 e.2 hmem hnd
    have hhas : jHas o e.1 = true := by
      rw [jHas_eq_isSome, hfe]
      rfl
    have hstep : mergeCompEntry strategy t (C, cf) e = .ok (C, cf) := by
      obtain ⟨k, v⟩ := e
      simp only [mergeCompEntry, hfind, hhas, hfe, Option.getD_some]
      simp [dumpsEq_refl]
    rw [List.foldlM_cons, hstep]
    exact ih (fun x hx => hes x (by simp [hx]))

/-- One component type of a self-merge is the identity. -/
theorem mergeCompType_self (strategy : String) (C : Obj) (cf : List (String × Nat))
    (t : String) (ht : t ∈ COMPONENT_TYPES) (hwf : WFComponents C) :
    mergeCompType (J.obj C) strategy (C, cf) t = .ok (C, cf) := by
  by_cases h : jHas C t
  · obtain ⟨v, hv⟩ : ∃ v, jFind? C t = some v := by
      rw [jHas_eq_isSome] at h
      exact Option.isSome_iff_exists.mp h
    obtain ⟨o, rfl, hnd⟩ := hwf t ht v hv
    simp only [mergeCompType, pyHasKey, h, hv, Option.getD_some, if_true]
    exact mergeCompEntry_self strategy t C o hv hnd cf o (fun e he => he)
  · simp [mergeCompType, pyHasKey, h]

theorem foldlM_id {σ ε α : Type} (f : σ → α → Except ε σ) (s : σ) (ts : List α)
    (h : ∀ t ∈ ts, f s t = .ok s) : ts.foldlM f s = .ok s := by
  induction ts with
  | nil => rfl
  | cons t rest ih =>
    rw [List.foldlM_cons, h t (by simp)]
    exact ih (fun x hx => h x (by simp [hx]))

/-- C7: merging any well-formed component mapping (a Python dict of dicts)
into itself, under any conflict policy, returns the target unchanged with a
zero conflict count for every component type and raises nothing. -/
theorem c7_merge_components_idempotent :
    ∀ (C : Obj) (strategy : String), WFComponents C →
      merge_components C (J.obj C) strategy = .ok (C, zeroConflicts) := by
  intro C strategy hwf
  unfold merge_components
  exact foldlM_id _ _ _ (fun t ht => mergeCompType_self strategy C zeroConflicts t ht hwf)

/-- Witness for C7: a one-schema component mapping self-merged under the
`error` policy. -/
theorem c7_merge_components_idempotent_witness :
    WFComponents [("schemas", J.obj [("A", J.s "x")])] ∧
    merge_components [("schemas", J.obj [("A", J.s "x")])]
      (J.obj [("schemas", J.obj [("A", J.s "x")])]) "error"
      = .ok ([("schemas", J.obj [("A", J.s "x")])], zeroConflicts) := by
  have hwf : WFComponents [("schemas", J.obj [("A", J.s "x")])] := by
    intro t ht v hv
    simp only [COMPONENT_TYPES, List.mem_cons, List.not_mem_nil, or_false] at ht
    rcases ht with rfl | rfl | rfl | rfl | rfl | rfl | rfl | rfl | rfl
    · rw [show jFind? [("schemas", J.obj [("A", J.s "x")])] "schemas"
          = some (J.obj [("A", J.s "x")]) from rfl] at hv
      cases hv
      exact ⟨[("A", J.s "x")], rfl, by simp⟩
    all_goals exact Option.noConfusion hv
  exact ⟨hwf, c7_merge_components_idempotent _ "error" hwf⟩

/-- C2: with target `{schemas: {A: X}}` and source `{schemas: {A: Y}}` where
X and Y differ structurally, `keep_first` keeps `A = X` with a schemas
conflict count of 1, `keep_last` ends with `A = Y` and the same count, and
`error` raises the `ValueError` before touching the conflicting entry (the
carried target state is unchanged). -/
theorem c2_conflict_policy :
    ∀ X Y : J, dumpsEq X Y = false →
      (merge_components [("schemas", J.obj [("A", X)])]
          (J.obj [("schemas", J.obj [("A", Y)])]) "keep_first"
        = .ok ([("schemas", J.obj [("A", X)])], bumpCount zeroConflicts "schemas")) ∧
      (merge_components [("schemas", J.obj [("A", X)])]
          (J.obj [("schemas", J.obj [("A", Y)])]) "keep_last"
        = .ok ([("schemas", J.obj [("A", Y)])], bumpCount zeroConflicts "schemas")) ∧
      (merge_components [("schemas", J.obj [("A", X)])]
          (J.obj [("schemas", J.obj [("A", Y)])]) "error"
        = .error (conflictMsg "schemas" "A", [("schemas", J.obj [("A", X)])])) ∧
      lookupCount (bumpCount zeroConflicts "schemas") "schemas" = 1 := by
  intro X Y hne
  refine ⟨?_, ?_, ?_, by decide⟩ <;>
    simp [merge_components, COMPONENT_TYPES, mergeCompType, mergeCompEntry,
      zeroConflicts, pyHasKey, jHas, jFind?, jSet, bumpCount, hne,
      List.foldlM_cons] <;> rfl

/-- Witness for C2 with the structurally different definitions `1` and `2`. -/
theorem c2_conflict_policy_witness :
    dumpsEq (J.i 1) (J.i 2) = false ∧
    (merge_components [("schemas", J.obj [("A", J.i 1)])]
        (J.obj [("schemas", J.obj [("A", J.i 2)])]) "keep_first"
      = .ok ([("schemas", J.obj [("A", J.i 1)])], bumpCount zeroConflicts "schemas")) ∧
    (merge_components [("schemas", J.obj [("A", J.i 1)])]
        (J.obj [("schemas", J.obj [("A", J.i 2)])]) "error"
      = .error (conflictMsg "schemas" "A", [("schemas", J.obj [("A", J.i 1)])])) :=
  ⟨rfl, (c2_conflict_policy (J.i 1) (J.i 2) rfl).1,
    (c2_conflict_policy (J.i 1) (J.i 2) rfl).2.2.1⟩

/-! ## Structure of a produced mini-spec (toward C4, C6, C1) -/

theorem jHas_append (l1 l2 : Obj) (k : String) :
    jHas (l1 ++ l2) k = (jHas l1 k || jHas l2 k) := by
  simp [jHas]

theorem miniCompsPart_keys (spec : Obj) (ic : Bool) (part : Obj)
    (h : miniCompsPart spec ic = some part) :
    ∀ k, jHas part k = true → k = "components" := by
  intro k hk
  unfold miniCompsPart at h
  cases ic with
  | false =>
    simp only [Bool.false_eq_true, if_false, Option.some.injEq] at h
    subst h
    simp [jHas] at hk
  | true =>
    simp only [if_true] at h
    cases he : extract_components spec with
    | none =>
      rw [he] at h
      exact absurd h (by simp)
    | some cc =>
      rw [he] at h
      simp only [Option.some.injEq] at h
      subst h
      simp [jHas] at hk
      exact hk.symm

theorem miniCopyPart_keys (spec : Obj) (key : String) (part : Obj)
    (h : miniCopyPart spec key = some part) :
    ∀ k, jHas part k = true → k = key := by
  intro k hk
  unfold miniCopyPart at h
  cases hf : jFind? spec key with
  | none =>
    rw [hf] at h
    simp only [Option.some.injEq] at h
    subst h
    simp [jHas] at hk
  | some v =>
    rw [hf] at h
    cases v <;> simp only [Option.some.injEq] at h <;> try exact absurd h (by simp)
    all_goals
      (subst h
       simp [jHas] at hk
       exact hk.symm)

theorem miniTagsPart_keys (spec : Obj) (eps : List (String × String × J)) (part : Obj)
    (h : miniTagsPart spec eps = some part) :
    ∀ k, jHas part k = true → k = "tags" := by
  intro k hk
  unfold miniTagsPart at h
  cases ht : jFind? spec "tags" with
  | none =>
    rw [ht] at h
    simp only [Option.some.injEq] at h
    subst h
    simp [jHas] at hk
  | some v =>
    rw [ht] at h
    simp only [Option.bind_eq_bind, Option.bind_eq_some, Option.some.injEq] at h
    obtain ⟨used, hused, h⟩ := h
    by_cases he : used.isEmpty
    · simp only [he, if_true, Option.some.injEq] at h
      subst h
      simp [jHas] at hk
    · simp only [he, Bool.false_eq_true, if_false, Option.bind_eq_bind,
        Option.bind_eq_some, Option.some.injEq] at h
      obtain ⟨kept, hkept, h⟩ := h
      subst h
      simp [jHas] at hk
      exact hk.symm

/-- Inversion of a successful `create_mini_spec`: the exact shape of the
produced mini-document. -/
theorem create_mini_spec_inv (sp : Splitter) (eps : List (String × String × J))
    (name : String) (ic : Bool) (mini : Obj)
    (h : create_mini_spec sp eps name ic = some mini) :
    ∃ (info0 rest : Obj) (pathsFilled : List (String × J)) (titleStr : String),
      miniInfoBase sp.spec = some info0 ∧
      addEndpoints eps [] = some pathsFilled ∧
      pyStrScalar ((jFind? info0 "title").getD (J.s "API")) = some titleStr ∧
      (∀ k, jHas rest k = true →
        k = "components" ∨ k = "servers" ∨ k = "security" ∨ k = "tags") ∧
      mini = [("openapi", (jFind? sp.spec "openapi").getD (J.s "3.1.0")),
              ("info", J.obj (jSet (jSet (jSet info0 "title"
                  (J.s (titleStr ++ " - " ++ name))) "x-split-part" (J.s name))
                  "x-split-timestamp" sp.mtime)),
              ("paths", J.obj pathsFilled)] ++ rest := by
  simp only [create_mini_spec, Option.bind_eq_bind, Option.bind_eq_some,
    Option.some.injEq] at h
  obtain ⟨info0, hinfo, compsPart, hcomps, serversPart, hservers, securityPart,
    hsecurity, tagsPart, htags, pathsFilled, hpaths, titleStr, htitle, hmini⟩ := h
  refine ⟨info0, compsPart ++ serversPart ++ securityPart ++ tagsPart,
    pathsFilled, titleStr, hinfo, hpaths, htitle, ?_, ?_⟩
  · intro k hk
    simp only [jHas_append, Bool.or_eq_true] at hk
    rcases hk with ((hk | hk) | hk) | hk
    · exact Or.inl (miniCompsPart_keys _ _ _ hcomps k hk)
    · exact Or.inr (Or.inl (miniCopyPart_keys _ _ _ hservers k hk))
    · exact Or.inr (Or.inr (Or.inl (miniCopyPart_keys _ _ _ hsecurity k hk)))
    · exact Or.inr (Or.inr (Or.inr (miniTagsPart_keys _ _ _ htags k hk)))
  · rw [← hmini]
    simp [List.append_assoc]

/-- C4 (as amended): each mini-document carries exactly
`spec.get('openapi', '3.1.0')`; the source's `swagger` key is never
consulted nor copied, and no `swagger` key appears in the mini-document. -/
theorem c4_mini_version :
    ∀ (sp : Splitter) (eps : List (String × String × J)) (name : String)
      (ic : Bool) (mini : Obj),
      create_mini_spec sp eps name ic = some mini →
      jFind? mini "openapi" = some ((jFind? sp.spec "openapi").getD (J.s "3.1.0")) ∧
      jHas mini "swagger" = false := by
  intro sp eps name ic mini h
  obtain ⟨info0, rest, pf, ts, _, _, _, hkeys, hmini⟩ :=
    create_mini_spec_inv sp eps name ic mini h
  subst hmini
  constructor
  · simp [jFind?_cons]
  · by_cases hr : jHas rest "swagger"
    · rcases hkeys _ hr with h1 | h1 | h1 | h1 <;> exact absurd h1 (by decide)
    · simp [jHas_append, jHas_cons, hr]

/-- C4 as stated is false: a source carrying only a `swagger` version
produces a mini-document with `openapi: "3.1.0"` and no `swagger` key at
all — the source's `swagger: "2.0"` scalar is not copied. -/
theorem c4_counterexample :
    (create_mini_spec ⟨[("swagger", J.s "2.0"),
        ("info", J.obj [("title", J.s "T"), ("version", J.s "1")]),
        ("paths", J.obj [("/p", J.obj [("get", J.obj [])])])], J.i 0⟩
        [("/p", "get", J.obj [])] "g" true).map
      (fun m => (jFind? m "openapi", jFind? m "swagger"))
      = some (some (J.s "3.1.0"), none) := rfl

/-- Witness for C4 on the empty source document. -/
theorem c4_mini_version_witness :
    create_mini_spec ⟨[], J.null⟩ [] "g" true
      = some [("openapi", J.s "3.1.0"),
              ("info", J.obj [("title", J.s "API - g"), ("version", J.s "1.0.0"),
                              ("x-split-part", J.s "g"), ("x-split-timestamp", J.null)]),
              ("paths", J.obj []), ("components", J.obj [])] ∧
    (jFind? [("openapi", J.s "3.1.0"),
              ("info", J.obj [("title", J.s "API - g"), ("version", J.s "1.0.0"),
                              ("x-split-part", J.s "g"), ("x-split-timestamp", J.null)]),
              ("paths", J.obj []), ("components", J.obj [])] "openapi"
        = some ((jFind? ([] : Obj) "openapi").getD (J.s "3.1.0")) ∧
      jHas [("openapi", J.s "3.1.0"),
              ("info", J.obj [("title", J.s "API - g"), ("version", J.s "1.0.0"),
                              ("x-split-part", J.s "g"), ("x-split-timestamp", J.null)]),
              ("paths", J.obj []), ("components", J.obj [])] "swagger" = false) :=
  ⟨rfl, c4_mini_version ⟨[], J.null⟩ [] "g" true _ rfl⟩

/-! ## Path-item merge (toward C3 and C1) -/

theorem jSet_jSet (l : Obj) (k : String) (v w : J) :
    jSet (jSet l k v) k w = jSet l k w := by
  induction l with
  | nil => simp [jSet]
  | cons kv rest ih =>
    obtain ⟨kk, vv⟩ := kv
    by_cases h : kk = k
    · subst h
      simp [jSet]
    · simp [jSet, h, ih]

theorem jSet_same (l : Obj) (k : String) (v : J) (h : jFind? l k = some v) :
    jSet l k v = l := by
  induction l with
  | nil => simp [jFind?_nil] at h
  | cons kv rest ih =>
    obtain ⟨kk, vv⟩ := kv
    rw [jFind?_cons] at h
    by_cases hk : kk = k
    · simp only [hk, if_true, Option.some.injEq] at h
      simp [jSet, hk, h]
    · simp only [hk, if_false] at h
      simp [jSet, hk, ih h]

theorem jHas_jSet (l : Obj) (k : String) (v : J) (j : String) :
    jHas (jSet l k v) j = (jHas l j || decide (j = k)) := by
  induction l with
  | nil => simp [jSet, jHas, eq_comm]
  | cons kv rest ih =>
    obtain ⟨kk, vv⟩ := kv
    by_cases h : kk = k
    · subst h
      by_cases hj : kk = j
      · subst hj
        simp [jSet, jHas_cons]
      · have hjk : j ≠ kk := fun hh => hj hh.symm
        simp [jSet, jHas_cons, hj, hjk]
    · simp [jSet, h, jHas_cons, ih]
      by_cases hj : kk = j <;> simp [hj]

theorem mem_jSet (l : Obj) (k : String) (v : J) (q : String × J)
    (h : q ∈ jSet l k v) : q ∈ l ∨ q = (k, v) := by
  induction l with
  | nil => simpa [jSet] using h
  | cons kv rest ih =>
    by_cases hk : kv.1 = k
    · rw [jSet] at h
      simp only [hk, if_true] at h
      rcases List.mem_cons.mp h with h1 | h1
      · exact Or.inr h1
      · exact Or.inl (List.mem_cons_of_mem _ h1)
    · rw [jSet] at h
      simp only [hk, if_false] at h
      rcases List.mem_cons.mp h with h1 | h1
      · exact Or.inl (by simp [h1])
      · rcases ih h1 with h2 | h2
        · exact Or.inl (List.mem_cons_of_mem _ h2)
        · exact Or.inr h2

theorem WFPaths_jSet (ps : List (String × J)) (p : String) (o : Obj)
    (h : WFPaths ps) : WFPaths (jSet ps p (J.obj o)) := by
  refine ⟨nodup_keys_jSet ps p (J.obj o) h.1, ?_⟩
  intro q hq
  rcases mem_jSet ps p (J.obj o) q hq with h1 | h1
  · exact h.2 q h1
  · exact ⟨o, by rw [h1]⟩

theorem jSet_fresh (l : Obj) (k : String) (v : J) (h : jHas l k = false) :
    jSet l k v = l ++ [(k, v)] := by
  induction l with
  | nil => simp [jSet]
  | cons kv rest ih =>
    rw [jHas_cons, Bool.or_eq_false_iff] at h
    have hk : kv.1 ≠ k := by simpa using h.1
    simp [jSet, hk, ih h.2]

theorem foldl_jSet_fresh (pi : Obj) :
    ∀ acc : Obj, (∀ q ∈ pi, jHas acc q.1 = false) → (pi.map Prod.fst).Nodup →
      pi.foldl (fun acc q => jSet acc q.1 q.2) acc = acc ++ pi := by
  induction pi with
  | nil => simp
  | cons q rest ih =>
    intro acc hfresh hnd
    rw [List.map_cons, List.nodup_cons] at hnd
    rw [List.foldl_cons, jSet_fresh acc q.1 q.2 (hfresh q (by simp)),
      ih (acc ++ [(q.1, q.2)]) ?_ hnd.2]
    · simp
    · intro x hx
      rw [jHas_append, Bool.or_eq_false_iff]
      refine ⟨hfresh x (by simp [hx]), ?_⟩
      have h1 : x.1 ≠ q.1 := by
        intro hh
        exact hnd.1 (hh ▸ List.mem_map_of_mem Prod.fst hx)
      have h2 : q.1 ≠ x.1 := fun hh => h1 hh.symm
      simp [jHas, h2]

theorem jFind?_foldl_jSet_of_not_mem (pi : Obj) (k : String) :
    ∀ acc : Obj, k ∉ pi.map Prod.fst →
      jFind? (pi.foldl (fun acc q => jSet acc q.1 q.2) acc) k = jFind? acc k := by
  induction pi with
  | nil => intro acc _; rfl
  | cons q rest ih =>
    intro acc hk
    rw [List.map_cons] at hk
    rw [List.foldl_cons, ih _ (fun hh => hk (List.mem_cons_of_mem _ hh)),
      jFind?_jSet_ne _ _ _ _ (fun hh => hk (by simp [hh]))]

/-- Every entry written into a dict by the overwrite fold is retrievable:
last-write-wins for the incoming entries (unique incoming keys). -/
theorem jFind?_foldl_jSet (pi : Obj) :
    ∀ e : Obj, (pi.map Prod.fst).Nodup →
      ∀ q ∈ pi, jFind? (pi.foldl (fun acc q => jSet acc q.1 q.2) e) q.1 = some q.2 := by
  induction pi with
  | nil => simp
  | cons x rest ih =>
    intro e hnd q hq
    rw [List.map_cons, List.nodup_cons] at hnd
    rcases List.mem_cons.mp hq with h1 | h1
    · subst h1
      rw [List.foldl_cons, jFind?_foldl_jSet_of_not_mem rest q.1 _ hnd.1,
        jFind?_jSet_self]
    · exact ih (jSet e x.1 x.2) hnd.2 q h1

theorem except_ok_bind {ε α β : Type} (a : α) (f : α → Except ε β) :
    (Except.ok a >>= f) = f a := rfl

theorem writeMethod_spec (st : MState) (p m : String) (op : J) (e : Obj)
    (he : jFind? st.1.paths p = some (J.obj e)) :
    writeMethod st p m op = .ok
      ({st.1 with paths := jSet st.1.paths p (J.obj (jSet e m op))},
       {st.2 with
          path_conflicts := st.2.path_conflicts + (if jHas e m then 1 else 0),
          operations_merged := st.2.operations_merged
            + (if HTTP_METHODS.contains m then 1 else 0)}) := by
  unfold writeMethod
  rw [he]
  by_cases h1 : jHas e m <;> by_cases h2 : m ∈ HTTP_METHODS <;> simp [h1, h2]

/-- The inner write loop of `merge_paths` on one path item: the target entry
accumulates every incoming key (overwriting), `path_conflicts` counts the
incoming keys already present — methods or not — and `operations_merged`
counts the incoming keys among the 8 HTTP methods. -/
theorem writeFold_spec (pi : Obj) (p : String) :
    ∀ (st : MState) (e : Obj), WFPaths st.1.paths →
      jFind? st.1.paths p = some (J.obj e) → (pi.map Prod.fst).Nodup →
      pi.foldlM (fun st q => writeMethod st p q.1 q.2) st = .ok
        ({st.1 with
            paths := jSet st.1.paths p (J.obj (pi.foldl (fun acc q => jSet acc q.1 q.2) e))},
         {st.2 with
            path_conflicts := st.2.path_conflicts + (pi.filter (fun q => jHas e q.1)).length,
            operations_merged :=
              st.2.operations_merged + (pi.filter (fun q => HTTP_METHODS.contains q.1)).length}) := by
  induction pi with
  | nil =>
    intro st e hWF he hnd
    simp only [List.foldlM_nil, List.foldl_nil, List.filter_nil, List.length_nil,
      Nat.add_zero, jSet_same _ _ _ he]
    rfl
  | cons x rest ih =>
    intro st e hWF he hnd
    rw [List.map_cons, List.nodup_cons] at hnd
    rw [List.foldlM_cons, writeMethod_spec st p x.1 x.2 e he, except_ok_bind]
    have hWF1 : WFPaths (jSet st.1.paths p (J.obj (jSet e x.1 x.2))) :=
      WFPaths_jSet _ _ _ hWF
    have he1 : jFind? (jSet st.1.paths p (J.obj (jSet e x.1 x.2))) p
        = some (J.obj (jSet e x.1 x.2)) := jFind?_jSet_self _ _ _
    rw [ih _ (jSet e x.1 x.2) hWF1 he1 hnd.2]
    have hfilter1 : rest.filter (fun q => jHas (jSet e x.1 x.2) q.1)
        = rest.filter (fun q => jHas e q.1) := by
      apply List.filter_congr
      intro q hq
      have hne : q.1 ≠ x.1 := by
        intro hh
        exact hnd.1 (hh ▸ List.mem_map_of_mem Prod.fst hq)
      simp [jHas_jSet, hne]
    simp only [jSet_jSet, hfilter1, List.foldl_cons, List.filter_cons]
    by_cases h1 : jHas e x.1 <;> by_cases h2 : x.1 ∈ HTTP_METHODS <;>
      simp [h1, h2, Except.ok.injEq, Prod.mk.injEq, MergedSpec.mk.injEq,
        Stats.mk.injEq] <;>
      and_intros <;> first | rfl | omega

/-- C3 (as amended): merging one dict path item of a source file: a path
absent from the target gets a fresh entry, counting toward `paths_merged`,
which ends up holding exactly the incoming item with no conflict counted;
for a path already present, every incoming key is written over the existing
entry (last-write-wins, independently of the component conflict policy),
`path_conflicts` grows by the number of incoming keys already present at
that path — duplicate keys of any kind, not only the 8 HTTP methods — and
`operations_merged` grows by the number of incoming HTTP-method keys. -/
theorem c3_merge_path_item :
    ∀ (st : MState) (p : String) (pi : Obj),
      WFPaths st.1.paths → (pi.map Prod.fst).Nodup →
      (jHas st.1.paths p = false →
        mergePathItem st p (J.obj pi) = .ok
          ({st.1 with paths := jSet st.1.paths p (J.obj pi)},
           {st.2 with
              paths_merged := st.2.paths_merged + 1,
              operations_merged :=
                st.2.operations_merged
                  + (pi.filter (fun q => HTTP_METHODS.contains q.1)).length})) ∧
      (∀ e : Obj, jFind? st.1.paths p = some (J.obj e) →
        mergePathItem st p (J.obj pi) = .ok
          ({st.1 with
              paths := jSet st.1.paths p (J.obj (pi.foldl (fun acc q => jSet acc q.1 q.2) e))},
           {st.2 with
              path_conflicts :=
                st.2.path_conflicts + (pi.filter (fun q => jHas e q.1)).length,
              operations_merged :=
                st.2.operations_merged
                  + (pi.filter (fun q => HTTP_METHODS.contains q.1)).length}) ∧
        ∀ q ∈ pi, jFind? (pi.foldl (fun acc q => jSet acc q.1 q.2) e) q.1 = some q.2) := by
  intro st p pi hWF hnd
  constructor
  · intro habs
    unfold mergePathItem
    simp only [habs, Bool.false_eq_true, if_false]
    have hWF1 : WFPaths (jSet st.1.paths p (J.obj [])) := WFPaths_jSet _ _ _ hWF
    have he1 : jFind? (jSet st.1.paths p (J.obj [])) p = some (J.obj []) :=
      jFind?_jSet_self _ _ _
    rw [writeFold_spec pi p _ [] hWF1 he1 hnd]
    have hfold : pi.foldl (fun acc q => jSet acc q.1 q.2) ([] : Obj) = pi := by
      rw [foldl_jSet_fresh pi [] (fun q _ => rfl) hnd]
      simp
    have hfilter : pi.filter (fun q => jHas ([] : Obj) q.1) = [] := by
      simp [jHas]
    simp [jSet_jSet, hfold, hfilter]
  · intro e he
    have hhas : jHas st.1.paths p = true := by
      rw [jHas_eq_isSome, he]
      rfl
    refine ⟨?_, jFind?_foldl_jSet pi e hnd⟩
    unfold mergePathItem
    simp only [hhas, if_true]
    exact writeFold_spec pi p st e hWF he hnd

/-- C3 as stated is false in one respect: `path_conflicts` is incremented
for any duplicate path-item key, not only for the 8 HTTP methods.  Merging
the same `parameters`-only path item twice yields one path conflict even
though no HTTP-method key was ever written (`operations_merged` stays 0). -/
theorem c3_counterexample :
    ((merge_paths [("paths", J.obj [("/p", J.obj [("parameters", J.arr [])])])]
        ((merge_paths [("paths", J.obj [("/p", J.obj [("parameters", J.arr [])])])]
          (initMerged, initStats)).toOption.getD (initMerged, initStats))).toOption.map
      (fun st => (st.2.path_conflicts, st.2.operations_merged)))
      = some (1, 0) := rfl

/-- Witness for C3 on the initial merger state and a one-method item. -/
theorem c3_merge_path_item_witness :
    WFPaths (initMerged, initStats).1.paths ∧
    ((([("get", J.obj [])] : Obj).map Prod.fst).Nodup) ∧
    jHas (initMerged, initStats).1.paths "/p" = false ∧
    mergePathItem (initMerged, initStats) "/p" (J.obj [("get", J.obj [])]) = .ok
      ({(initMerged, initStats).1 with
          paths := jSet (initMerged, initStats).1.paths "/p" (J.obj [("get", J.obj [])])},
       {(initMerged, initStats).2 with
          paths_merged := (initMerged, initStats).2.paths_merged + 1,
          operations_merged :=
            (initMerged, initStats).2.operations_merged
              + ((([("get", J.obj [])] : Obj)).filter
                  (fun q => HTTP_METHODS.contains q.1)).length}) := by
  have hWF : WFPaths (initMerged, initStats).1.paths := ⟨List.nodup_nil, by simp [initMerged]⟩
  have hnd : ((([("get", J.obj [])] : Obj)).map Prod.fst).Nodup := by simp
  exact ⟨hWF, hnd, rfl,
    (c3_merge_path_item (initMerged, initStats) "/p" [("get", J.obj [])] hWF hnd).1 rfl⟩

/-! ## Chunking lemmas (toward C5 and C1) -/

theorem chunksF_nil (n : Nat) : ∀ fuel, chunksF (α := α) n fuel [] = [] := by
  intro fuel
  cases fuel <;> rfl

theorem chunksF_irrel (n : Nat) :
    ∀ (f1 : Nat) (l : List α) (f2 : Nat), l.length ≤ f1 → l.length ≤ f2 →
      chunksF n f1 l = chunksF n f2 l := by
  intro f1
  induction f1 with
  | zero =>
    intro l f2 h1 h2
    have : l = [] := List.eq_nil_of_length_eq_zero (by omega)
    subst this
    rw [chunksF_nil, chunksF_nil]
  | succ g1 ih =>
    intro l f2 h1 h2
    cases l with
    | nil => rw [chunksF_nil, chunksF_nil]
    | cons x xs =>
      cases f2 with
      | zero => simp at h2
      | succ g2 =>
        simp only [List.length_cons] at h1 h2
        simp only [chunksF]
        congr 1
        apply ih (xs.drop (n - 1)) g2
        · simp only [List.length_drop]
          omega
        · simp only [List.length_drop]
          omega

theorem chunks_cons (n : Nat) (x : α) (xs : List α) :
    chunks n (x :: xs) = (x :: xs.take (n - 1)) :: chunks n (xs.drop (n - 1)) := by
  simp only [chunks, List.length_cons, chunksF]
  congr 1
  exact chunksF_irrel n xs.length (xs.drop (n - 1)) (xs.drop (n - 1)).length
    (by simp only [List.length_drop]; omega) (le_refl _)

theorem chunks_ne_nil (n : Nat) (hn : 1 ≤ n) (l : List α) (h : l ≠ []) :
    chunks n l = l.take n :: chunks n (l.drop n) := by
  cases l with
  | nil => exact absurd rfl h
  | cons x xs =>
    rw [chunks_cons]
    obtain ⟨m, rfl⟩ : ∃ m, n = m + 1 := ⟨n - 1, by omega⟩
    simp [List.take_cons, List.drop_succ_cons]

theorem chunks_flatten (n : Nat) (l : List α) : (chunks n l).flatten = l := by
  suffices h : ∀ (fuel : Nat) (l : List α), l.length ≤ fuel →
      (chunksF n fuel l).flatten = l from h l.length l (le_refl _)
  intro fuel
  induction fuel with
  | zero =>
    intro l h
    have : l = [] := List.eq_nil_of_length_eq_zero (by omega)
    subst this
    rfl
  | succ g ih =>
    intro l h
    cases l with
    | nil => rw [chunksF_nil]; rfl
    | cons x xs =>
      simp only [chunksF, List.flatten_cons]
      rw [ih (xs.drop (n - 1)) (by simp at h ⊢; omega)]
      simp [List.take_append_drop]

/-- The [30, 30, 15] chunk shape of a 75-element list. -/
theorem chunks_75_30 (ops : List α) (h : ops.length = 75) :
    (chunks 30 ops).map List.length = [30, 30, 15] := by
  have h30 : (1 : Nat) ≤ 30 := by omega
  have hne1 : ops ≠ [] := by intro hh; subst hh; simp at h
  have hne2 : ops.drop 30 ≠ [] := by
    intro hh
    have := congrArg List.length hh
    simp [h] at this
  have hne3 : (ops.drop 30).drop 30 ≠ [] := by
    intro hh
    have := congrArg List.length hh
    simp [h] at this
  have hnil : ((ops.drop 30).drop 30).drop 30 = [] := by
    apply List.eq_nil_of_length_eq_zero
    simp [h]
  rw [chunks_ne_nil 30 h30 ops hne1, chunks_ne_nil 30 h30 _ hne2,
    chunks_ne_nil 30 h30 _ hne3, hnil]
  simp [chunks, h]
  rfl

theorem mapM_option_fields {α β γ : Type} (f : α → Option β) (g : β → γ) (gg : α → γ)
    (hfg : ∀ a b, f a = some b → g b = gg a) :
    ∀ (l : List α) (l' : List β), l.mapM f = some l' → l'.map g = l.map gg := by
  intro l
  induction l with
  | nil =>
    intro l' h
    simp only [List.mapM_nil, Option.pure_def, Option.some.injEq] at h
    subst h
    rfl
  | cons a rest ih =>
    intro l' h
    simp only [List.mapM_cons, Option.pure_def, Option.bind_eq_bind,
      Option.bind_eq_some, Option.some.injEq] at h
    obtain ⟨b, hb, bs, hbs, hl'⟩ := h
    subst hl'
    simp only [List.map_cons, hfg a b hb, ih bs hbs]

/-- C5: for a source with exactly 75 operations and `operationsPerFile = 30`,
size-based split produces exactly 3 files holding 30, 30 and 15 operations,
named `spec_part001.json`, `spec_part002.json`, `spec_part003.json`. -/
theorem c5_size_boundary :
    ∀ (sp : Splitter) (ops : List (String × String × J)) (files : List SplitFile),
      get_operations sp.spec = some ops → ops.length = 75 →
      split_by_size sp 30 = some files →
      files.map SplitFile.name
          = ["spec_part001.json", "spec_part002.json", "spec_part003.json"] ∧
      files.map SplitFile.endpoint_count = [30, 30, 15] ∧
      files.length = 3 := by
  intro sp ops files hops hlen hsplit
  have hne : ops.isEmpty = false := by
    cases ops with
    | nil => simp at hlen
    | cons x xs => rfl
  rw [split_by_size, hops] at hsplit
  simp only [Option.bind_eq_bind, Option.some_bind, hne, Bool.false_eq_true, if_false,
    OfNat.ofNat_ne_zero, reduceIte] at hsplit
  have hlens : (chunks 30 ops).map List.length = [30, 30, 15] := chunks_75_30 ops hlen
  have hchunks3 : (chunks 30 ops).length = 3 := by
    have := congrArg List.length hlens
    simpa using this
  obtain ⟨c1, c2, c3, hc⟩ : ∃ c1 c2 c3, chunks 30 ops = [c1, c2, c3] := by
    cases hch : chunks 30 ops with
    | nil => rw [hch] at hchunks3; simp at hchunks3
    | cons a t1 =>
      cases t1 with
      | nil => rw [hch] at hchunks3; simp at hchunks3
      | cons b t2 =>
        cases t2 with
        | nil => rw [hch] at hchunks3; simp at hchunks3
        | cons c t3 =>
          cases t3 with
          | nil => exact ⟨a, b, c, rfl⟩
          | cons d t4 => rw [hch] at hchunks3; simp at hchunks3
  rw [hc] at hlens
  simp only [List.map_cons, List.map_nil, List.cons.injEq, and_true] at hlens
  obtain ⟨hl1, hl2, hl3⟩ := hlens
  rw [hc] at hsplit
  have hname := mapM_option_fields _ SplitFile.name
    (fun jc => "spec_part" ++ pad3 (jc.1 + 1) ++ ".json")
    (fun a b hb => by
      simp only [Option.map_eq_map, Option.map_eq_some'] at hb
      obtain ⟨mini, _, hmini⟩ := hb
      rw [← hmini]) _ files hsplit
  have hcount := mapM_option_fields _ SplitFile.endpoint_count
    (fun jc => jc.2.length)
    (fun a b hb => by
      simp only [Option.map_eq_map, Option.map_eq_some'] at hb
      obtain ⟨mini, _, hmini⟩ := hb
      rw [← hmini]) _ files hsplit
  have hflen : files.length = 3 := by
    have := congrArg List.length hname
    simpa using this
  refine ⟨?_, ?_, hflen⟩
  · rw [hname]
    simp only [List.enum, List.enumFrom, List.map_cons, List.map_nil]
    rfl
  · rw [hcount]
    simp [List.enum, List.enumFrom, hl1, hl2, hl3]

/-- Witness for C5 on the concrete 75-operation document. -/
theorem c5_size_boundary_witness :
    get_operations sp75.spec = some ((get_operations sp75.spec).getD []) ∧
    ((get_operations sp75.spec).getD []).length = 75 ∧
    split_by_size sp75 30 = some ((split_by_size sp75 30).getD []) ∧
    (((split_by_size sp75 30).getD []).map SplitFile.name
        = ["spec_part001.json", "spec_part002.json", "spec_part003.json"] ∧
      ((split_by_size sp75 30).getD []).map SplitFile.endpoint_count = [30, 30, 15] ∧
      ((split_by_size sp75 30).getD []).length = 3) :=
  ⟨rfl, rfl, rfl,
    c5_size_boundary sp75 ((get_operations sp75.spec).getD [])
      ((split_by_size sp75 30).getD []) rfl rfl rfl⟩

/-! ## Python split and the title suffix (toward C6) -/

theorem pySplitF_irrel (s0 : Char) (srest : List Char) :
    ∀ (f1 : Nat) (l : List Char) (f2 : Nat), l.length ≤ f1 → l.length ≤ f2 →
      pySplitF s0 srest f1 l = pySplitF s0 srest f2 l := by
  intro f1
  induction f1 with
  | zero =>
    intro l f2 h1 h2
    have : l = [] := List.eq_nil_of_length_eq_zero (by omega)
    subst this
    cases f2 <;> rfl
  | succ g1 ih =>
    intro l f2 h1 h2
    cases l with
    | nil => cases f2 <;> rfl
    | cons c rest =>
      cases f2 with
      | zero => simp at h2
      | succ g2 =>
        simp only [List.length_cons] at h1 h2
        simp only [pySplitF]
        by_cases h : (s0 :: srest).isPrefixOf (c :: rest) = true
        · simp only [h, if_true]
          congr 1
          apply ih _ _ <;> simp only [List.length_drop] <;> omega
        · rw [ih rest g2 (by omega) (by omega)]
          simp only [h, Bool.false_eq_true, if_false]

theorem pySplit_cons (s0 : Char) (srest : List Char) (c : Char) (rest : List Char) :
    pySplit s0 srest (c :: rest) =
      if (s0 :: srest).isPrefixOf (c :: rest) then
        [] :: pySplit s0 srest (rest.drop srest.length)
      else
        match pySplit s0 srest rest with
        | seg :: segs => (c :: seg) :: segs
        | [] => [[c]] := by
  simp only [pySplit, List.length_cons, pySplitF]
  by_cases h : (s0 :: srest).isPrefixOf (c :: rest) = true
  · simp only [h, if_true]
    congr 1
    exact pySplitF_irrel s0 srest rest.length _ _
      (by simp only [List.length_drop]; omega) (le_refl _)
  · simp only [h, Bool.false_eq_true, if_false]

theorem pySplit_ne_nil (s0 : Char) (srest : List Char) (l : List Char) :
    pySplit s0 srest l ≠ [] := by
  suffices h : ∀ (fuel : Nat) (l : List Char), pySplitF s0 srest fuel l ≠ [] from
    h l.length l
  intro fuel
  induction fuel with
  | zero =>
    intro l
    cases l <;> simp [pySplitF]
  | succ g ih =>
    intro l
    cases l with
    | nil => simp [pySplitF]
    | cons c rest =>
      simp only [pySplitF]
      by_cases h : (s0 :: srest).isPrefixOf (c :: rest) = true
      · simp [h]
      · simp only [h, if_false]
        cases hrec : pySplitF s0 srest g rest with
        | nil => simp
        | cons seg segs => simp

theorem containsSub_sep_append (sep t L : List Char) (hsep : sep ≠ []) :
    containsSub sep (t ++ sep ++ L) = true := by
  induction t with
  | nil =>
    cases sep with
    | nil => exact absurd rfl hsep
    | cons a as =>
      simp only [List.nil_append, List.cons_append, containsSub, Bool.or_eq_true]
      left
      rw [List.isPrefixOf_iff_prefix]
      exact ⟨L, by simp⟩
  | cons c t' ih =>
    simp only [List.cons_append, containsSub, Bool.or_eq_true]
    right
    exact ih

/-- The key fact behind the title round trip: splitting
`t ++ " - " ++ L` at `" - "` gives back `t` as the first segment, provided
`t` neither contains `" - "` nor ends in `" -"`. -/
theorem pySplit_head_of_clean :
    ∀ (t L : List Char),
      containsSub [' ', '-', ' '] t = false → ¬ ([' ', '-'] <:+ t) →
      (pySplit ' ' ['-', ' '] (t ++ [' ', '-', ' '] ++ L)).headD [] = t := by
  intro t
  induction t with
  | nil =>
    intro L h1 h2
    simp only [List.nil_append]
    rw [show (([' ', '-', ' '] ++ L : List Char)) = ' ' :: ('-' :: ' ' :: L) from rfl,
      pySplit_cons]
    have hp : (' ' :: ['-', ' ']).isPrefixOf (' ' :: '-' :: ' ' :: L) = true := by
      rw [List.isPrefixOf_iff_prefix]
      exact ⟨L, by simp⟩
    simp [hp]
  | cons c t' ih =>
    intro L h1 h2
    have h1' : containsSub [' ', '-', ' '] t' = false := by
      simp only [containsSub, Bool.or_eq_false_iff] at h1
      exact h1.2
    have h2' : ¬ ([' ', '-'] <:+ t') := fun hs => h2 (hs.trans (List.suffix_cons c t'))
    rw [List.append_assoc, List.cons_append, pySplit_cons]
    by_cases hb : ((' ' :: ['-', ' ']).isPrefixOf
        (c :: (t' ++ ([' ', '-', ' '] ++ L))) : Bool) = true
    · exfalso
      simp only [List.isPrefixOf, Bool.and_eq_true, beq_iff_eq] at hb
      obtain ⟨hc, hb2⟩ := hb
      subst hc
      cases t' with
      | nil => simp [List.isPrefixOf] at hb2
      | cons y t'' =>
        simp only [List.cons_append, List.isPrefixOf, Bool.and_eq_true, beq_iff_eq] at hb2
        obtain ⟨hy, hb3⟩ := hb2
        subst hy
        cases t'' with
        | nil =>
          exact h2 ⟨[], rfl⟩
        | cons z t''' =>
          simp only [List.cons_append, List.isPrefixOf, Bool.and_eq_true, beq_iff_eq,
            and_true] at hb3
          subst hb3
          simp [containsSub, List.isPrefixOf] at h1
    · simp only [hb, Bool.false_eq_true, if_false]
      have hne := pySplit_ne_nil ' ' ['-', ' '] (t' ++ ([' ', '-', ' '] ++ L))
      have hih := ih L h1' h2'
      rw [List.append_assoc] at hih
      cases hrec : pySplit ' ' ['-', ' '] (t' ++ ([' ', '-', ' '] ++ L)) with
      | nil => exact absurd hrec hne
      | cons seg segs =>
        show ((c :: seg) :: segs).headD [] = c :: t'
        rw [hrec] at hih
        simp only [List.headD_cons] at hih
        simp only [List.headD_cons, hih]

/-! ## Deletion lemmas (toward C6) -/

theorem jFind?_jDel_ne (l : Obj) (k j : String) (h : j ≠ k) :
    jFind? (jDel l k) j = jFind? l j := by
  induction l with
  | nil => rfl
  | cons kv rest ih =>
    by_cases hk : kv.1 = k
    · have hkj : k ≠ j := fun hh => h hh.symm
      simp [jDel, hk, jFind?_cons, hkj]
    · simp [jDel, hk, jFind?_cons, ih]

theorem jHas_jDel_self (l : Obj) (k : String)
    (hnd : (l.map Prod.fst).Nodup) : jHas (jDel l k) k = false := by
  induction l with
  | nil => rfl
  | cons kv rest ih =>
    rw [List.map_cons, List.nodup_cons] at hnd
    by_cases hk : kv.1 = k
    · simp only [jDel, hk, if_true]
      rw [← hk]
      cases hh : jHas rest kv.1
      · rfl
      · rw [jHas_iff_mem_keys] at hh
        exact absurd hh hnd.1
    · simp [jDel, hk, jHas_cons, ih hnd.2]

theorem nodup_keys_jDel (l : Obj) (k : String)
    (hnd : (l.map Prod.fst).Nodup) : ((jDel l k).map Prod.fst).Nodup := by
  induction l with
  | nil => simp [jDel]
  | cons kv rest ih =>
    rw [List.map_cons, List.nodup_cons] at hnd
    by_cases hk : kv.1 = k
    · simp [jDel, hk, hnd.2]
    · simp only [jDel, hk, if_false, List.map_cons, List.nodup_cons]
      refine ⟨?_, ih hnd.2⟩
      intro hmem
      -- keys of jDel are a subset of the original keys
      have : kv.1 ∈ rest.map Prod.fst := by
        clear ih hnd
        induction rest with
        | nil => simpa [jDel] using hmem
        | cons kv2 r2 ih2 =>
          by_cases hk2 : kv2.1 = k
          · simp only [jDel, hk2, if_true] at hmem
            exact List.mem_cons_of_mem _ hmem
          · simp only [jDel, hk2, if_false, List.map_cons, List.mem_cons] at hmem
            rcases hmem with h1 | h1
            · simp [h1]
            · exact List.mem_cons_of_mem _ (ih2 h1)
      exact hnd.1 this

theorem mem_keys_jDel (l : Obj) (k j : String)
    (h : j ∈ (jDel l k).map Prod.fst) : j ∈ l.map Prod.fst := by
  induction l with
  | nil => simpa [jDel] using h
  | cons kv rest ih =>
    by_cases hk : kv.1 = k
    · simp only [jDel, hk, if_true] at h
      exact List.mem_cons_of_mem _ h
    · simp only [jDel, hk, if_false, List.map_cons, List.mem_cons] at h
      rcases h with h1 | h1
      · simp [h1]
      · exact List.mem_cons_of_mem _ (ih h1)

/-- C6 (as amended): splitting a document whose `info.title` neither
contains `" - "` nor ends in `" -"` into a group labelled `L` produces a
mini-document whose `info.title` is `"{title} - {L}"` carrying the two
`x-split-*` stamps, and `merge_info` on that mini-document alone (first
file) reconstitutes the original title and strips both stamps. -/
theorem c6_title_round_trip :
    ∀ (sp : Splitter) (eps : List (String × String × J)) (L : String)
      (ic : Bool) (mini : Obj) (info0 : Obj) (t : String),
      jFind? sp.spec "info" = some (J.obj info0) →
      (info0.map Prod.fst).Nodup →
      jFind? info0 "title" = some (J.s t) →
      containsSub [' ', '-', ' '] t.data = false →
      ¬ ([' ', '-'] <:+ t.data) →
      create_mini_spec sp eps L ic = some mini →
      ∃ infoM infoF : Obj,
        jFind? mini "info" = some (J.obj infoM) ∧
        jFind? infoM "title" = some (J.s (t ++ " - " ++ L)) ∧
        jHas infoM "x-split-part" = true ∧
        jHas infoM "x-split-timestamp" = true ∧
        merge_info mini (initMerged, initStats)
          = .ok ({initMerged with info := J.obj infoF}, initStats) ∧
        jFind? infoF "title" = some (J.s t) ∧
        jHas infoF "x-split-part" = false ∧
        jHas infoF "x-split-timestamp" = false := by
  intro sp eps L ic mini info0 t hinfo hnd htitle hclean hsuffix hcreate
  obtain ⟨info0', rest, pf, ts, hbase, _, hts, hkeys, hmini⟩ :=
    create_mini_spec_inv sp eps L ic mini hcreate
  have hinfo0 : info0' = info0 := by
    unfold miniInfoBase at hbase
    rw [hinfo] at hbase
    exact (Option.some.injEq _ _ ▸ hbase).symm
  rw [hinfo0] at hmini hts
  have hts' : ts = t := by
    rw [htitle] at hts
    simpa [pyStrScalar] using hts.symm
  rw [hts'] at hmini
  set infoM := jSet (jSet (jSet info0 "title" (J.s (t ++ " - " ++ L)))
      "x-split-part" (J.s L)) "x-split-timestamp" sp.mtime with hInfoM
  have hfindInfo : jFind? mini "info" = some (J.obj infoM) := by
    rw [hmini]
    rfl
  have hndM : (infoM.map Prod.fst).Nodup := by
    rw [hInfoM]
    exact nodup_keys_jSet _ _ _ (nodup_keys_jSet _ _ _ (nodup_keys_jSet _ _ _ hnd))
  have hMtitle : jFind? infoM "title" = some (J.s (t ++ " - " ++ L)) := by
    rw [hInfoM, jFind?_jSet_ne _ _ _ _ (by decide), jFind?_jSet_ne _ _ _ _ (by decide),
      jFind?_jSet_self]
  have hMxsp : jFind? infoM "x-split-part" = some (J.s L) := by
    rw [hInfoM, jFind?_jSet_ne _ _ _ _ (by decide), jFind?_jSet_self]
  have hMxst : jFind? infoM "x-split-timestamp" = some sp.mtime := by
    rw [hInfoM, jFind?_jSet_self]
  have hDels : ∀ j, j ≠ "x-split-part" → j ≠ "x-split-timestamp" →
      jFind? (jDel (jDel infoM "x-split-part") "x-split-timestamp") j = jFind? infoM j := by
    intro j h1 h2
    rw [jFind?_jDel_ne _ _ _ h2, jFind?_jDel_ne _ _ _ h1]
  set infoD := jDel (jDel infoM "x-split-part") "x-split-timestamp" with hInfoD
  have hDtitle : jFind? infoD "title" = some (J.s (t ++ " - " ++ L)) := by
    rw [hInfoD, hDels "title" (by decide) (by decide), hMtitle]
  have hdata : (t ++ " - " ++ L).data = t.data ++ [' ', '-', ' '] ++ L.data := by
    simp [String.data_append]
  have hcontains : containsSub (" - ".data) ((t ++ " - " ++ L).data) = true := by
    rw [hdata]
    exact containsSub_sep_append [' ', '-', ' '] t.data L.data (by decide)
  have hhead : (pySplit ' ' ['-', ' '] ((t ++ " - " ++ L).data)).headD [] = t.data := by
    rw [hdata]
    exact pySplit_head_of_clean t.data L.data hclean hsuffix
  set infoF := jSet infoD "title" (J.s t) with hInfoF
  have hstrip : stripSplitTitle infoM = .ok infoF := by
    show stripTitleCore (jDel (jDel infoM "x-split-part") "x-split-timestamp") = .ok infoF
    rw [← hInfoD]
    unfold stripTitleCore
    rw [hDtitle]
    simp only [Option.getD_some, hcontains, if_true]
    rw [hhead]
  refine ⟨infoM, infoF, hfindInfo, hMtitle,
    by rw [jHas_eq_isSome, hMxsp]; rfl,
    by rw [jHas_eq_isSome, hMxst]; rfl, ?_, ?_, ?_, ?_⟩
  · simp only [merge_info, hfindInfo, hstrip, initStats, if_true]
  · rw [hInfoF, jFind?_jSet_self]
  · rw [jHas_eq_isSome]
    cases hfs : jFind? infoF "x-split-part" with
    | none => rfl
    | some v =>
      exfalso
      have hmem : "x-split-part" ∈ infoF.map Prod.fst := by
        rw [← jHas_iff_mem_keys, jHas_eq_isSome, hfs]
        rfl
      rw [hInfoF, keys_jSet] at hmem
      have hmem2 : "x-split-part" ∈ infoD.map Prod.fst := by
        by_cases hh : jHas infoD "title" = true
        · rw [if_pos hh] at hmem
          exact hmem
        · rw [if_neg hh] at hmem
          rcases List.mem_append.mp hmem with h1 | h1
          · exact h1
          · exact absurd h1 (by decide)
      have hmem3 : "x-split-part" ∈ (jDel infoM "x-split-part").map Prod.fst :=
        mem_keys_jDel _ _ _ hmem2
      rw [← jHas_iff_mem_keys, jHas_jDel_self infoM "x-split-part" hndM] at hmem3
      exact absurd hmem3 (by simp)
  · rw [jHas_eq_isSome]
    cases hfs : jFind? infoF "x-split-timestamp" with
    | none => rfl
    | some v =>
      exfalso
      have hmem : "x-split-timestamp" ∈ infoF.map Prod.fst := by
        rw [← jHas_iff_mem_keys, jHas_eq_isSome, hfs]
        rfl
      rw [hInfoF, keys_jSet] at hmem
      have hmem2 : "x-split-timestamp" ∈ infoD.map Prod.fst := by
        by_cases hh : jHas infoD "title" = true
        · rw [if_pos hh] at hmem
          exact hmem
        · rw [if_neg hh] at hmem
          rcases List.mem_append.mp hmem with h1 | h1
          · exact h1
          · exact absurd h1 (by decide)
      rw [hInfoD, ← jHas_iff_mem_keys,
        jHas_jDel_self _ "x-split-timestamp" (nodup_keys_jDel _ _ hndM)] at hmem2
      exact absurd hmem2 (by simp)

/-- C6 as stated is false in one corner: a title that contains no `" - "`
but ends in `" -"` (such as `"x -"`) is not reconstituted.  Splitting
appends `" - pets"`, producing `"x - - pets"`, and the merge truncates at
the FIRST `" - "` occurrence, yielding `"x"`, not `"x -"`. -/
theorem c6_counterexample :
    containsSub [' ', '-', ' '] ("x -" : String).data = false ∧
    ((create_mini_spec ⟨[("openapi", J.s "3.0.0"),
        ("info", J.obj [("title", J.s "x -"), ("version", J.s "1.0")]),
        ("paths", J.obj [])], J.i 0⟩ [] "pets" true).bind
      (fun mini => (merge_info mini (initMerged, initStats)).toOption)).map
      (fun st => st.1.info)
      = some (J.obj [("title", J.s "x"), ("version", J.s "1.0")]) ∧
    ("x" : String) ≠ "x -" :=
  ⟨rfl, rfl, by decide⟩

/-- Witness for C6 at the Pet Store document with label `pets`. -/
theorem c6_title_round_trip_witness :
    ∃ infoM infoF : Obj,
      jFind? [("openapi", J.s "3.0.0"),
              ("info", J.obj [("title", J.s "Pet Store - pets"), ("version", J.s "1.0"),
                              ("x-split-part", J.s "pets"), ("x-split-timestamp", J.i 0)]),
              ("paths", J.obj []), ("components", J.obj [])] "info" = some (J.obj infoM) ∧
      jFind? infoM "title" = some (J.s ("Pet Store" ++ " - " ++ "pets")) ∧
      jHas infoM "x-split-part" = true ∧
      jHas infoM "x-split-timestamp" = true ∧
      merge_info [("openapi", J.s "3.0.0"),
              ("info", J.obj [("title", J.s "Pet Store - pets"), ("version", J.s "1.0"),
                              ("x-split-part", J.s "pets"), ("x-split-timestamp", J.i 0)]),
              ("paths", J.obj []), ("components", J.obj [])] (initMerged, initStats)
        = .ok ({initMerged with info := J.obj infoF}, initStats) ∧
      jFind? infoF "title" = some (J.s "Pet Store") ∧
      jHas infoF "x-split-part" = false ∧
      jHas infoF "x-split-timestamp" = false :=
  c6_title_round_trip spPet [] "pets" true _
    [("title", J.s "Pet Store"), ("version", J.s "1.0")] "Pet Store"
    rfl (by decide) rfl rfl (by decide) rfl

theorem filterMap_methods_sublist (pi : Obj) (p : String) (ms : List String) :
    ((ms.filterMap (fun m => (jFind? pi m).map (fun op => (p, m, op)))).map
      (fun t => t.2.1)).Sublist ms := by
  induction ms with
  | nil => simp
  | cons m rest ih =>
    cases hf : jFind? pi m with
    | none =>
      simp only [List.filterMap_cons, hf, Option.map_none']
      exact ih.cons m
    | some v =>
      simp only [List.filterMap_cons, hf, Option.map_some', List.map_cons]
      exact ih.cons₂ m

/-- With unique keys, first-occurrence lookup is invariant under
permutation of the dict entries. -/
theorem jFind?_perm (l1 l2 : Obj) (h : l1.Perm l2) :
    (l1.map Prod.fst).Nodup → ∀ k, jFind? l1 k = jFind? l2 k := by
  induction h with
  | nil => intro _ k; rfl
  | cons x h ih =>
    intro hnd k
    rw [List.map_cons, List.nodup_cons] at hnd
    rw [jFind?_cons, jFind?_cons, ih hnd.2 k]
  | swap x y l =>
    intro hnd k
    have hxy : y.1 ≠ x.1 := by
      rw [List.map_cons, List.map_cons, List.nodup_cons] at hnd
      exact fun hh => hnd.1 (by simp [hh])
    by_cases h1 : y.1 = k
    · have h2 : x.1 ≠ k := fun hh => hxy (h1.trans hh.symm)
      simp [jFind?_cons, h1, h2]
    · by_cases h2 : x.1 = k <;> simp [jFind?_cons, h1, h2]
  | trans h1 h2 ih1 ih2 =>
    intro hnd k
    have hnd2 := ((h1.map Prod.fst).nodup_iff).mp hnd
    rw [ih1 hnd k, ih2 hnd2 k]

/-- C8: `get_operations` enumerates `(path, method, operation)` triples by
iterating `paths` in document order (the flat-map shape), emitting each path
item's methods as a subsequence of the fixed canonical method list — hence
independent of the item's own insertion order (permutation invariance for
unique keys) — and skipping non-mapping path items without failing. -/
theorem c8_get_operations_order :
    ∀ (spec : Obj) (ps : List (String × J)), getPathsOpt spec = some ps →
      (get_operations spec = some (ps.flatMap (fun q => opsOfPathItem q.1 q.2))) ∧
      (∀ (p : String) (item : J),
        ((opsOfPathItem p item).map (fun t => t.2.1)).Sublist HTTP_METHODS) ∧
      (∀ (p : String) (pi pi' : Obj), pi.Perm pi' → (pi.map Prod.fst).Nodup →
        opsOfPathItem p (J.obj pi) = opsOfPathItem p (J.obj pi')) ∧
      (∀ (p : String) (item : J), (∀ o, item ≠ J.obj o) → opsOfPathItem p item = []) := by
  intro spec ps hp
  refine ⟨by simp [get_operations, hp], ?_, ?_, ?_⟩
  · intro p item
    cases item with
    | obj pi => exact filterMap_methods_sublist pi p HTTP_METHODS
    | s v => simp [opsOfPathItem]
    | i v => simp [opsOfPathItem]
    | b v => simp [opsOfPathItem]
    | null => simp [opsOfPathItem]
    | arr xs => simp [opsOfPathItem]
  · intro p pi pi' hperm hnd
    simp only [opsOfPathItem]
    exact List.filterMap_congr (fun m _ => by rw [jFind?_perm pi pi' hperm hnd m])
  · intro p item h
    cases item with
    | obj o => exact absurd rfl (h o)
    | s v => rfl
    | i v => rfl
    | b v => rfl
    | null => rfl
    | arr xs => rfl

/-- Witness for C8 at a spec whose path item lists `post` before `get`:
the enumeration nevertheless yields `get` first. -/
theorem c8_get_operations_order_witness :
    get_operations [("paths", J.obj [("/u", J.obj [("post", J.i 1), ("get", J.i 2)])])]
      = some ([("/u", J.obj [("post", J.i 1), ("get", J.i 2)])].flatMap
          (fun q => opsOfPathItem q.1 q.2)) ∧
    opsOfPathItem "/u" (J.obj [("post", J.i 1), ("get", J.i 2)])
      = [("/u", "get", J.i 2), ("/u", "post", J.i 1)] :=
  ⟨(c8_get_operations_order
      [("paths", J.obj [("/u", J.obj [("post", J.i 1), ("get", J.i 2)])])]
      [("/u", J.obj [("post", J.i 1), ("get", J.i 2)])] rfl).1,
   rfl⟩

/-! ## Pair membership (toward C1) -/

theorem jFind?_mem (ps : Obj) (q : String) (v : J) (h : jFind? ps q = some v) :
    (q, v) ∈ ps := by
  unfold jFind? at h
  cases hf : ps.find? (fun kv => kv.1 = q) with
  | none =>
    rw [hf] at h
    cases h
  | some kv =>
    rw [hf] at h
    simp only [Option.map_some', Option.some.injEq] at h
    have h1 : kv.1 = q := by simpa using List.find?_some hf
    have h2 : kv ∈ ps := List.mem_of_find?_eq_some hf
    have h3 : kv = (q, v) := by
      obtain ⟨a, b⟩ := kv
      simp only at h1 h
      rw [h1, h]
    exact h3 ▸ h2

theorem hasPair_nil (q r : String) : ¬ hasPair [] q r := by
  rintro ⟨pi, hmem, -⟩
  simp at hmem

theorem hasPair_cons (x : String × J) (ps : List (String × J)) (q r : String) :
    hasPair (x :: ps) q r ↔
      (∃ pi, x = (q, J.obj pi) ∧ jHas pi r = true) ∨ hasPair ps q r := by
  constructor
  · rintro ⟨pi, hmem, hr⟩
    rcases List.mem_cons.mp hmem with h1 | h1
    · exact Or.inl ⟨pi, h1.symm, hr⟩
    · exact Or.inr ⟨pi, h1, hr⟩
  · rintro (⟨pi, hx, hr⟩ | ⟨pi, hmem, hr⟩)
    · exact ⟨pi, by simp [hx], hr⟩
    · exact ⟨pi, List.mem_cons_of_mem _ hmem, hr⟩

theorem hasPair_iff_find (ps : List (String × J)) (q r : String)
    (hnd : (ps.map Prod.fst).Nodup) :
    hasPair ps q r ↔ ∃ e, jFind? ps q = some (J.obj e) ∧ jHas e r = true := by
  constructor
  · rintro ⟨pi, hmem, hr⟩
    exact ⟨pi, jFind?_of_mem_nodup ps q (J.obj pi) hmem hnd, hr⟩
  · rintro ⟨e, hfind, hr⟩
    exact ⟨e, jFind?_mem ps q (J.obj e) hfind, hr⟩

theorem opPairs_mem (ps : List (String × J)) (q r : String) :
    (q, r) ∈ opPairs ps ↔ r ∈ HTTP_METHODS ∧ hasPair ps q r := by
  unfold opPairs
  rw [List.mem_flatMap]
  constructor
  · rintro ⟨x, hx, hqr⟩
    obtain ⟨p, v⟩ := x
    cases v with
    | s v => simp at hqr
    | i v => simp at hqr
    | b v => simp at hqr
    | null => simp at hqr
    | arr xs => simp at hqr
    | obj pi =>
      simp only [List.mem_map, List.mem_filter] at hqr
      obtain ⟨mm, ⟨hmHM, hHas⟩, heq⟩ := hqr
      rw [Prod.mk.injEq] at heq
      exact ⟨heq.2 ▸ hmHM, pi, heq.1 ▸ hx, heq.2 ▸ hHas⟩
  · rintro ⟨hrHM, pi, hmem, hr⟩
    refine ⟨(q, J.obj pi), hmem, ?_⟩
    simp only [List.mem_map, List.mem_filter]
    exact ⟨r, ⟨hrHM, hr⟩, rfl⟩

theorem opPairs_mem_keys (ps : List (String × J)) (q r : String)
    (h : (q, r) ∈ opPairs ps) : q ∈ ps.map Prod.fst := by
  obtain ⟨-, pi, hmem, -⟩ := (opPairs_mem ps q r).mp h
  exact List.mem_map_of_mem Prod.fst hmem

theorem opPairs_cons (x : String × J) (ps : List (String × J)) :
    opPairs (x :: ps) =
      (match x.2 with
       | J.obj pi => (HTTP_METHODS.filter (fun m => jHas pi m)).map (fun m => (x.1, m))
       | _ => []) ++ opPairs ps := rfl

theorem opPairs_nodup (ps : List (String × J)) (h : (ps.map Prod.fst).Nodup) :
    (opPairs ps).Nodup := by
  induction ps with
  | nil => exact List.nodup_nil
  | cons x rest ih =>
    rw [List.map_cons, List.nodup_cons] at h
    rw [opPairs_cons]
    refine List.Nodup.append ?_ (ih h.2) ?_
    · obtain ⟨p, v⟩ := x
      cases v with
      | s v => exact List.nodup_nil
      | i v => exact List.nodup_nil
      | b v => exact List.nodup_nil
      | null => exact List.nodup_nil
      | arr xs => exact List.nodup_nil
      | obj pi =>
        refine List.Nodup.map ?_ (List.Nodup.filter _ (by decide))
        intro a b hab
        exact congrArg Prod.snd hab
    · intro pr h1 h2
      obtain ⟨p, v⟩ := x
      have hp : pr.1 = p := by
        cases v with
        | s v => simp at h1
        | i v => simp at h1
        | b v => simp at h1
        | null => simp at h1
        | arr xs => simp at h1
        | obj pi =>
          simp only [List.mem_map] at h1
          obtain ⟨m, -, hm⟩ := h1
          rw [← hm]
      obtain ⟨q, r⟩ := pr
      have hk := opPairs_mem_keys rest q r h2
      simp only at hp
      exact h.1 (hp ▸ hk)

theorem epPairs_nil : epPairs [] = [] := rfl

theorem epPairs_mem (eps : List (String × String × J)) (q r : String) :
    (q, r) ∈ epPairs eps ↔ ∃ op, (q, r, op) ∈ eps := by
  unfold epPairs
  rw [List.mem_map]
  constructor
  · rintro ⟨t, ht, heq⟩
    obtain ⟨p, m, op⟩ := t
    simp only [Prod.mk.injEq] at heq
    exact ⟨op, by rw [heq.1, heq.2] at ht; exact ht⟩
  · rintro ⟨op, hop⟩
    exact ⟨(q, r, op), hop, rfl⟩

theorem except_error_ne_ok {ε α : Type} (e : ε) (a : α) :
    (Except.error e : Except ε α) ≠ Except.ok a := fun h => Except.noConfusion h

theorem except_bind_eq_ok {ε α β : Type} (x : Except ε α) (f : α → Except ε β) (b : β) :
    (x >>= f) = .ok b ↔ ∃ a, x = .ok a ∧ f a = .ok b := by
  cases x with
  | error e =>
    constructor
    · intro h
      cases h
    · rintro ⟨a, ha, -⟩
      cases ha
  | ok a =>
    rw [except_ok_bind]
    constructor
    · intro h
      exact ⟨a, rfl, h⟩
    · rintro ⟨a2, ha, hf⟩
      cases ha
      exact hf

theorem mapM_option_forall2 {α β : Type} (f : α → Option β) :
    ∀ (l : List α) (l' : List β), l.mapM f = some l' →
      List.Forall₂ (fun a b => f a = some b) l l' := by
  intro l
  induction l with
  | nil =>
    intro l' h
    simp only [List.mapM_nil, Option.pure_def, Option.some.injEq] at h
    subst h
    exact List.Forall₂.nil
  | cons a rest ih =>
    intro l' h
    simp only [List.mapM_cons, Option.pure_def, Option.bind_eq_bind,
      Option.bind_eq_some, Option.some.injEq] at h
    obtain ⟨b, hb, bs, hbs, hl'⟩ := h
    subst hl'
    exact List.Forall₂.cons hb (ih bs hbs)

/-! ## Building the mini-spec paths dict (toward C1) -/

theorem WFItems_nil : WFItems [] := ⟨List.nodup_nil, by simp⟩

theorem WFItems_jSet_obj (ps : List (String × J)) (p : String) (pi : Obj)
    (h : WFItems ps) (hpi : (pi.map Prod.fst).Nodup) :
    WFItems (jSet ps p (J.obj pi)) := by
  refine ⟨nodup_keys_jSet ps p _ h.1, ?_⟩
  intro q hq
  rcases mem_jSet ps p (J.obj pi) q hq with h1 | h1
  · exact h.2 q h1
  · refine ⟨pi, ?_, hpi⟩
    rw [h1]

theorem hasPair_append (l1 l2 : List (String × J)) (q r : String) :
    hasPair (l1 ++ l2) q r ↔ hasPair l1 q r ∨ hasPair l2 q r := by
  constructor
  · rintro ⟨pi, hmem, hr⟩
    rcases List.mem_append.mp hmem with h1 | h1
    · exact Or.inl ⟨pi, h1, hr⟩
    · exact Or.inr ⟨pi, h1, hr⟩
  · rintro (⟨pi, hmem, hr⟩ | ⟨pi, hmem, hr⟩)
    · exact ⟨pi, List.mem_append_left _ hmem, hr⟩
    · exact ⟨pi, List.mem_append_right _ hmem, hr⟩

theorem hasPair_jSet_obj (ps : List (String × J)) (p : String) (pi : Obj)
    (hnd : (ps.map Prod.fst).Nodup) (q r : String) :
    hasPair (jSet ps p (J.obj pi)) q r ↔
      (q = p ∧ jHas pi r = true) ∨ (q ≠ p ∧ hasPair ps q r) := by
  by_cases hq : q = p
  · subst hq
    rw [hasPair_iff_find _ _ _ (nodup_keys_jSet _ _ _ hnd)]
    constructor
    · rintro ⟨e, hfind, hr⟩
      rw [jFind?_jSet_self] at hfind
      simp only [Option.some.injEq, J.obj.injEq] at hfind
      subst hfind
      exact Or.inl ⟨rfl, hr⟩
    · rintro (⟨-, hr⟩ | ⟨hne, -⟩)
      · exact ⟨pi, jFind?_jSet_self _ _ _, hr⟩
      · exact absurd rfl hne
  · rw [hasPair_iff_find _ _ _ (nodup_keys_jSet _ _ _ hnd),
      jFind?_jSet_ne _ _ _ _ hq, ← hasPair_iff_find _ _ _ hnd]
    simp [hq]

theorem addEndpoints_cons_inv (p m : String) (op : J)
    (rest : List (String × String × J)) (ps0 pf : List (String × J))
    (h : addEndpoints ((p, m, op) :: rest) ps0 = some pf) :
    ∃ pi0, jFind? (if jHas ps0 p then ps0 else jSet ps0 p (J.obj [])) p
        = some (J.obj pi0) ∧
      addEndpoints rest
        (jSet (if jHas ps0 p then ps0 else jSet ps0 p (J.obj [])) p
          (J.obj (jSet pi0 m op))) = some pf := by
  rw [addEndpoints] at h
  split at h
  case h_1 pi heq => exact ⟨pi, heq, h⟩
  case h_2 hne => cases h

theorem addEndpoints_pairs (eps : List (String × String × J)) :
    ∀ (ps0 pf : List (String × J)), WFItems ps0 →
      addEndpoints eps ps0 = some pf →
      WFItems pf ∧
      (∀ q r, hasPair pf q r ↔ hasPair ps0 q r ∨ (q, r) ∈ epPairs eps) := by
  induction eps with
  | nil =>
    intro ps0 pf hWF h
    simp only [addEndpoints, Option.some.injEq] at h
    subst h
    refine ⟨hWF, fun q r => ?_⟩
    simp [epPairs]
  | cons t rest ih =>
    intro ps0 pf hWF h
    obtain ⟨p, m, op⟩ := t
    obtain ⟨pi0, hfind, h⟩ := addEndpoints_cons_inv p m op rest ps0 pf h
    set ps1 := if jHas ps0 p then ps0 else jSet ps0 p (J.obj []) with hps1
    have hWF1 : WFItems ps1 := by
      rw [hps1]
      by_cases hh : jHas ps0 p
      · simpa [hh] using hWF
      · simp only [hh, Bool.false_eq_true, if_false]
        exact WFItems_jSet_obj ps0 p [] hWF List.nodup_nil
    have hpair1 : ∀ q r, hasPair ps1 q r ↔ hasPair ps0 q r := by
      intro q r
      rw [hps1]
      by_cases hh : jHas ps0 p
      · simp [hh]
      · simp only [hh, Bool.false_eq_true, if_false]
        rw [jSet_fresh ps0 p (J.obj []) (by simpa using hh), hasPair_append]
        constructor
        · rintro (h1 | ⟨pi, hmem, hr⟩)
          · exact h1
          · simp only [List.mem_singleton, Prod.mk.injEq, J.obj.injEq] at hmem
            obtain ⟨-, h2⟩ := hmem
            rw [h2] at hr
            simp [jHas] at hr
        · exact Or.inl
    have hpi0nd : (pi0.map Prod.fst).Nodup := by
      obtain ⟨pi', heq, hnd'⟩ := hWF1.2 (p, J.obj pi0) (jFind?_mem _ _ _ hfind)
      simp only [J.obj.injEq] at heq
      rw [heq]
      exact hnd'
    have hWF2 : WFItems (jSet ps1 p (J.obj (jSet pi0 m op))) :=
      WFItems_jSet_obj ps1 p _ hWF1 (nodup_keys_jSet _ _ _ hpi0nd)
    obtain ⟨hWFpf, hiff⟩ := ih _ pf hWF2 h
    refine ⟨hWFpf, fun q r => ?_⟩
    rw [hiff q r, hasPair_jSet_obj ps1 p _ hWF1.1 q r]
    have hmem1 : hasPair ps1 p r ↔ jHas pi0 r = true := by
      rw [hasPair_iff_find _ _ _ hWF1.1]
      constructor
      · rintro ⟨e, hf, hr⟩
        rw [hfind] at hf
        simp only [Option.some.injEq, J.obj.injEq] at hf
        rw [hf]
        exact hr
      · intro hr
        exact ⟨pi0, hfind, hr⟩
    constructor
    · rintro ((⟨hqp, hr⟩ | ⟨hqp, hps1⟩) | hrest)
      · subst hqp
        rw [jHas_jSet] at hr
        rcases Bool.or_eq_true_iff.mp hr with h1 | h1
        · exact Or.inl ((hpair1 q r).mp ((hmem1).mpr h1))
        · have : r = m := by simpa using h1
          subst this
          exact Or.inr (List.mem_cons_self _ _)
      · exact Or.inl ((hpair1 q r).mp hps1)
      · exact Or.inr (List.mem_cons_of_mem _ hrest)
    · rintro (hps0 | hcons)
      · by_cases hqp : q = p
        · subst hqp
          refine Or.inl (Or.inl ⟨rfl, ?_⟩)
          rw [jHas_jSet]
          exact Bool.or_eq_true_iff.mpr (Or.inl (hmem1.mp ((hpair1 q r).mpr hps0)))
        · exact Or.inl (Or.inr ⟨hqp, (hpair1 q r).mpr hps0⟩)
      · rcases List.mem_cons.mp hcons with h1 | h1
        · simp only [epPairs, Prod.mk.injEq] at h1
          refine Or.inl (Or.inl ⟨h1.1, ?_⟩)
          rw [jHas_jSet, h1.2]
          simp
        · exact Or.inr h1

/-! ## Tracking paths through the merge (toward C1) -/

theorem WFPaths_of_WFItems (ps : List (String × J)) (h : WFItems ps) : WFPaths ps := by
  refine ⟨h.1, ?_⟩
  intro q hq
  obtain ⟨pi, hpi, -⟩ := h.2 q hq
  exact ⟨pi, hpi⟩

theorem nodup_keys_foldl_jSet (pi : Obj) :
    ∀ e : Obj, (e.map Prod.fst).Nodup →
      ((pi.foldl (fun acc q => jSet acc q.1 q.2) e).map Prod.fst).Nodup := by
  induction pi with
  | nil => intro e he; exact he
  | cons x rest ih =>
    intro e he
    rw [List.foldl_cons]
    exact ih _ (nodup_keys_jSet _ _ _ he)

theorem jHas_foldl_jSet (pi : Obj) :
    ∀ (e : Obj) (r : String),
      jHas (pi.foldl (fun acc q => jSet acc q.1 q.2) e) r
        = (jHas e r || jHas pi r) := by
  induction pi with
  | nil => intro e r; simp [jHas]
  | cons x rest ih =>
    intro e r
    rw [List.foldl_cons, ih, jHas_jSet, jHas_cons]
    by_cases hx : r = x.1
    · subst hx
      simp
    · have hx2 : ¬ x.1 = r := fun hh => hx hh.symm
      simp [hx, hx2, Bool.or_assoc]

theorem jHas_of_hasPair (ps : List (String × J)) (q r : String)
    (h : hasPair ps q r) : jHas ps q = true := by
  obtain ⟨pi, hmem, -⟩ := h
  rw [jHas_iff_mem_keys]
  exact List.mem_map_of_mem Prod.fst hmem

theorem mergePathItem_pairs (st st' : MState) (p : String) (item : J)
    (hWF : WFItems st.1.paths)
    (hitem : ∀ pi, item = J.obj pi → (pi.map Prod.fst).Nodup)
    (hok : mergePathItem st p item = .ok st') :
    WFItems st'.1.paths ∧
    (∀ q r, hasPair st'.1.paths q r ↔
      hasPair st.1.paths q r ∨ (q = p ∧ ∃ pi, item = J.obj pi ∧ jHas pi r = true)) := by
  cases item with
  | obj pi =>
    have hnd : (pi.map Prod.fst).Nodup := hitem pi rfl
    by_cases hhas : jHas st.1.paths p
    · obtain ⟨v, hv⟩ : ∃ v, jFind? st.1.paths p = some v := by
        rw [jHas_eq_isSome] at hhas
        exact Option.isSome_iff_exists.mp hhas
      obtain ⟨e0, he0, he0nd⟩ := hWF.2 (p, v) (jFind?_mem _ _ _ hv)
      simp only at he0
      rw [he0] at hv
      have hfold := writeFold_spec pi p st e0 (WFPaths_of_WFItems _ hWF) hv hnd
      unfold mergePathItem at hok
      simp only [hhas, if_true] at hok
      rw [hfold] at hok
      have hX := Except.ok.inj hok
      have hpaths : st'.1.paths
          = jSet st.1.paths p (J.obj (pi.foldl (fun acc q => jSet acc q.1 q.2) e0)) := by
        rw [← hX]
      have hPp : ∀ r, hasPair st.1.paths p r ↔ jHas e0 r = true := by
        intro r
        rw [hasPair_iff_find _ _ _ hWF.1]
        constructor
        · rintro ⟨e, hf, hr⟩
          rw [hv] at hf
          simp only [Option.some.injEq, J.obj.injEq] at hf
          rw [hf]
          exact hr
        · intro hr
          exact ⟨e0, hv, hr⟩
      constructor
      · rw [hpaths]
        exact WFItems_jSet_obj _ _ _ hWF (nodup_keys_foldl_jSet pi e0 he0nd)
      · intro q r
        rw [hpaths, hasPair_jSet_obj _ _ _ hWF.1, jHas_foldl_jSet]
        constructor
        · rintro (⟨hqp, hor⟩ | ⟨hqp, hp⟩)
          · subst hqp
            rcases Bool.or_eq_true_iff.mp hor with h1 | h1
            · exact Or.inl ((hPp r).mpr h1)
            · exact Or.inr ⟨rfl, pi, rfl, h1⟩
          · exact Or.inl hp
        · rintro (hp | ⟨hqp, pi2, hpi2, hr⟩)
          · by_cases hqp : q = p
            · subst hqp
              exact Or.inl ⟨rfl, Bool.or_eq_true_iff.mpr (Or.inl ((hPp r).mp hp))⟩
            · exact Or.inr ⟨hqp, hp⟩
          · subst hqp
            simp only [J.obj.injEq] at hpi2
            subst hpi2
            exact Or.inl ⟨rfl, Bool.or_eq_true_iff.mpr (Or.inr hr)⟩
    · have hfv : jFind? (jSet st.1.paths p (J.obj [])) p = some (J.obj []) :=
        jFind?_jSet_self _ _ _
      have hWF1 : WFItems (jSet st.1.paths p (J.obj [])) :=
        WFItems_jSet_obj _ _ _ hWF List.nodup_nil
      have hfold := writeFold_spec pi p
        ({st.1 with paths := jSet st.1.paths p (J.obj [])},
         {st.2 with paths_merged := st.2.paths_merged + 1})
        [] (WFPaths_of_WFItems _ hWF1) hfv hnd
      unfold mergePathItem at hok
      simp only [hhas, Bool.false_eq_true, if_false] at hok
      rw [hfold] at hok
      have hX := Except.ok.inj hok
      have hpaths : st'.1.paths
          = jSet st.1.paths p (J.obj (pi.foldl (fun acc q => jSet acc q.1 q.2) [])) := by
        rw [← hX]
        exact jSet_jSet _ _ _ _
      constructor
      · rw [hpaths]
        exact WFItems_jSet_obj _ _ _ hWF (nodup_keys_foldl_jSet pi [] List.nodup_nil)
      · intro q r
        rw [hpaths, hasPair_jSet_obj _ _ _ hWF.1, jHas_foldl_jSet]
        have hstp : ¬ hasPair st.1.paths p r := fun hp => hhas (jHas_of_hasPair _ _ _ hp)
        constructor
        · rintro (⟨hqp, hor⟩ | ⟨hqp, hp⟩)
          · subst hqp
            rcases Bool.or_eq_true_iff.mp hor with h1 | h1
            · simp [jHas] at h1
            · exact Or.inr ⟨rfl, pi, rfl, h1⟩
          · exact Or.inl hp
        · rintro (hp | ⟨hqp, pi2, hpi2, hr⟩)
          · by_cases hqp : q = p
            · exact absurd (hqp ▸ hp) hstp
            · exact Or.inr ⟨hqp, hp⟩
          · subst hqp
            simp only [J.obj.injEq] at hpi2
            subst hpi2
            exact Or.inl ⟨rfl, Bool.or_eq_true_iff.mpr (Or.inr hr)⟩
  | s v =>
    cases hok
    exact ⟨hWF, fun q r => by simp⟩
  | i v =>
    cases hok
    exact ⟨hWF, fun q r => by simp⟩
  | b v =>
    cases hok
    exact ⟨hWF, fun q r => by simp⟩
  | null =>
    cases hok
    exact ⟨hWF, fun q r => by simp⟩
  | arr xs =>
    cases hok
    exact ⟨hWF, fun q r => by simp⟩

theorem foldl_mergePathItem_pairs (ps' : List (String × J))
    (hitems : ∀ x ∈ ps', ∀ pi, x.2 = J.obj pi → (pi.map Prod.fst).Nodup) :
    ∀ (st st' : MState), WFItems st.1.paths →
      ps'.foldlM (fun st q => mergePathItem st q.1 q.2) st = .ok st' →
      WFItems st'.1.paths ∧
      ∀ q r, hasPair st'.1.paths q r ↔ hasPair st.1.paths q r ∨ hasPair ps' q r := by
  induction ps' with
  | nil =>
    intro st st' hWF hok
    simp only [List.foldlM_nil] at hok
    have hX := Except.ok.inj hok
    subst hX
    refine ⟨hWF, fun q r => ?_⟩
    simp [hasPair_nil]
  | cons x rest ih =>
    intro st st' hWF hok
    rw [List.foldlM_cons, except_bind_eq_ok] at hok
    obtain ⟨stA, hA, hrest⟩ := hok
    obtain ⟨hWFA, hpairsA⟩ := mergePathItem_pairs st stA x.1 x.2 hWF
      (fun pi hpi => hitems x (List.mem_cons_self _ _) pi hpi) hA
    obtain ⟨hWF', hpairs'⟩ := ih
      (fun y hy pi hpi => hitems y (List.mem_cons_of_mem _ hy) pi hpi)
      stA st' hWFA hrest
    refine ⟨hWF', fun q r => ?_⟩
    rw [hpairs' q r, hpairsA q r, hasPair_cons]
    obtain ⟨p, v⟩ := x
    constructor
    · rintro ((hst | ⟨hqp, pi, hv, hr⟩) | hrest2)
      · exact Or.inl hst
      · subst hqp
        simp only at hv
        exact Or.inr (Or.inl ⟨pi, by rw [hv], hr⟩)
      · exact Or.inr (Or.inr hrest2)
    · rintro (hst | (⟨pi, hx, hr⟩ | hrest2))
      · exact Or.inl (Or.inl hst)
      · simp only [Prod.mk.injEq] at hx
        exact Or.inl (Or.inr ⟨hx.1.symm, pi, by simp [hx.2], hr⟩)
      · exact Or.inr hrest2

theorem merge_paths_pairs (spec : Obj) (ps' : List (String × J)) (st st' : MState)
    (hfind : jFind? spec "paths" = some (J.obj ps'))
    (hitems : ∀ x ∈ ps', ∀ pi, x.2 = J.obj pi → (pi.map Prod.fst).Nodup)
    (hWF : WFItems st.1.paths)
    (hok : merge_paths spec st = .ok st') :
    WFItems st'.1.paths ∧
    ∀ q r, hasPair st'.1.paths q r ↔ hasPair st.1.paths q r ∨ hasPair ps' q r := by
  unfold merge_paths at hok
  split at hok
  case h_1 heq => rw [heq] at hfind; cases hfind
  case h_2 ps2 heq =>
    rw [heq] at hfind
    simp only [Option.some.injEq, J.obj.injEq] at hfind
    subst hfind
    exact foldl_mergePathItem_pairs ps2 hitems st st' hWF hok
  case h_3 => cases hok

theorem merge_info_paths (spec : Obj) (st st' : MState)
    (h : merge_info spec st = .ok st') : st'.1.paths = st.1.paths := by
  unfold merge_info at h
  repeat' split at h
  all_goals first | (cases h; rfl) | cases h

theorem merge_root_properties_paths (spec : Obj) (st st' : MState)
    (h : merge_root_properties spec st = .ok st') : st'.1.paths = st.1.paths := by
  unfold merge_root_properties at h
  repeat' split at h
  all_goals first | (cases h; rfl) | cases h

theorem merger_merge_components_paths (spec : Obj) (strategy : String) (st st' : MState)
    (h : merger_merge_components spec strategy st = .ok st') :
    st'.1.paths = st.1.paths := by
  unfold merger_merge_components at h
  split at h
  case h_1 =>
    cases h
    rfl
  case h_2 src heq =>
    split at h
    case h_1 => cases h
    case h_2 tc heq2 =>
      cases h
      rfl

theorem versionCopy_paths (st : MState) (spec : Obj) :
    (versionCopy st spec).1.paths = st.1.paths := by
  unfold versionCopy
  repeat' split
  all_goals rfl

theorem clean_merged_spec_paths (m : MergedSpec) :
    (clean_merged_spec m).paths = m.paths := by
  unfold clean_merged_spec
  split
  · rfl
  · rename_i comps heq
    show (if (comps.filter (fun tc => jTruthy tc.2)).isEmpty = true then
        ({m with components := none} : MergedSpec)
      else {m with components := some (comps.filter (fun tc => jTruthy tc.2))}).paths
      = m.paths
    split <;> rfl

theorem processSpec_pairs (strategy : String) (spec : Obj) (st st' : MState)
    (ps' : List (String × J))
    (hfindp : jFind? spec "paths" = some (J.obj ps'))
    (hitems : ∀ x ∈ ps', ∀ pi, x.2 = J.obj pi → (pi.map Prod.fst).Nodup)
    (hWF : WFItems st.1.paths)
    (hok : processSpec strategy st spec = .ok st') :
    WFItems st'.1.paths ∧
    ∀ q r, hasPair st'.1.paths q r ↔ hasPair st.1.paths q r ∨ hasPair ps' q r := by
  unfold processSpec at hok
  split at hok
  case h_1 => cases hok
  case h_2 st1 heq1 =>
  split at hok
  case h_1 => cases hok
  case h_2 st2 heq2 =>
  split at hok
  case h_1 => cases hok
  case h_2 st3 heq3 =>
  split at hok
  case h_1 => cases hok
  case h_2 st4 heq4 =>
  have hp1 : st1.1.paths = st.1.paths := by
    rw [merge_info_paths spec _ st1 heq1, versionCopy_paths]
  have hp2 : st2.1.paths = st.1.paths := by
    rw [merge_root_properties_paths spec st1 st2 heq2, hp1]
  have hp3 : st3.1.paths = st.1.paths := by
    rw [merger_merge_components_paths spec strategy st2 st3 heq3, hp2]
  have hWF3 : WFItems st3.1.paths := by
    rw [hp3]
    exact hWF
  obtain ⟨hWF4, hpairs4⟩ := merge_paths_pairs spec ps' st3 st4 hfindp hitems hWF3 heq4
  have hX := Except.ok.inj hok
  have hpaths : st'.1.paths = st4.1.paths := by rw [← hX]
  rw [hpaths]
  refine ⟨hWF4, fun q r => ?_⟩
  rw [hpairs4 q r, hp3]

theorem fold_processSpec_pairs (strategy : String) :
    ∀ {minis : List Obj} {pfs : List (List (String × J))},
      List.Forall₂ (fun (mini : Obj) (pf : List (String × J)) =>
        jFind? mini "paths" = some (J.obj pf) ∧
        ∀ x ∈ pf, ∀ pi, x.2 = J.obj pi → (pi.map Prod.fst).Nodup) minis pfs →
      ∀ (st st' : MState), WFItems st.1.paths →
        minis.foldlM (fun st mini => processSpec strategy st mini) st = .ok st' →
        WFItems st'.1.paths ∧
        ∀ q r, hasPair st'.1.paths q r ↔
          hasPair st.1.paths q r ∨ ∃ pf ∈ pfs, hasPair pf q r := by
  intro minis pfs hfa
  induction hfa with
  | nil =>
    intro st st' hWF hok
    simp only [List.foldlM_nil] at hok
    have hX := Except.ok.inj hok
    subst hX
    refine ⟨hWF, fun q r => ?_⟩
    simp
  | cons hx hrest ih =>
    intro st st' hWF hok
    rw [List.foldlM_cons, except_bind_eq_ok] at hok
    obtain ⟨stA, hA, hfold⟩ := hok
    obtain ⟨hWFA, hpairsA⟩ := processSpec_pairs strategy _ st stA _ hx.1 hx.2 hWF hA
    obtain ⟨hWF', hpairs'⟩ := ih stA st' hWFA hfold
    refine ⟨hWF', fun q r => ?_⟩
    rw [hpairs' q r, hpairsA q r]
    constructor
    · rintro ((hst | hpf) | ⟨pf, hpfmem, hp⟩)
      · exact Or.inl hst
      · exact Or.inr ⟨_, List.mem_cons_self _ _, hpf⟩
      · exact Or.inr ⟨pf, List.mem_cons_of_mem _ hpfmem, hp⟩
    · rintro (hst | ⟨pf, hpfmem, hp⟩)
      · exact Or.inl (Or.inl hst)
      · rcases List.mem_cons.mp hpfmem with h1 | h1
        · subst h1
          exact Or.inl (Or.inr hp)
        · exact Or.inr ⟨pf, h1, hp⟩

theorem foldlM_loads_map_ok (strategy : String) :
    ∀ (minis : List Obj) (st : MState),
      (minis.map Except.ok).foldlM (fun (st : MState) (load : Except String Obj) =>
        match load with
        | .error _ => Except.ok st
        | .ok spec => processSpec strategy st spec) st
      = minis.foldlM (fun st mini => processSpec strategy st mini) st := by
  intro minis
  induction minis with
  | nil => intro st; rfl
  | cons a rest ih =>
    intro st
    rw [List.map_cons, List.foldlM_cons, List.foldlM_cons]
    show (processSpec strategy st a >>= fun s =>
        (rest.map Except.ok).foldlM (fun (st : MState) (load : Except String Obj) =>
          match load with
          | .error _ => Except.ok st
          | .ok spec => processSpec strategy st spec) s)
      = (processSpec strategy st a >>= fun s =>
          rest.foldlM (fun st mini => processSpec strategy st mini) s)
    cases hp : processSpec strategy st a with
    | error e => rfl
    | ok s2 =>
      rw [except_ok_bind, except_ok_bind, ih s2]

theorem merge_all_pairs (strategy : String) (minis : List Obj)
    (pfs : List (List (String × J))) (m : MergedSpec) (stt : Stats)
    (hfa : List.Forall₂ (fun (mini : Obj) (pf : List (String × J)) =>
      jFind? mini "paths" = some (J.obj pf) ∧
      ∀ x ∈ pf, ∀ pi, x.2 = J.obj pi → (pi.map Prod.fst).Nodup) minis pfs)
    (hok : merge_all_specs (minis.map Except.ok) strategy = .ok (m, stt)) :
    WFItems m.paths ∧
    ∀ q r, hasPair m.paths q r ↔ ∃ pf ∈ pfs, hasPair pf q r := by
  cases minis with
  | nil => cases hok
  | cons a rest =>
    have h1 : merge_all_specs ((a :: rest).map Except.ok) strategy =
        (((a :: rest).map Except.ok).foldlM (fun (st : MState) (load : Except String Obj) =>
          match load with
          | .error _ => Except.ok st
          | .ok spec => processSpec strategy st spec) (initMerged, initStats)) >>=
          (fun st => Except.ok (clean_merged_spec st.1, st.2)) := rfl
    rw [h1, foldlM_loads_map_ok, except_bind_eq_ok] at hok
    obtain ⟨stf, hfold, hfin⟩ := hok
    have hWFinit : WFItems (initMerged, initStats).1.paths := WFItems_nil
    obtain ⟨hWFf, hpairsf⟩ :=
      fold_processSpec_pairs strategy hfa (initMerged, initStats) stf hWFinit hfold
    have hfin2 := Except.ok.inj hfin
    have hm : m = clean_merged_spec stf.1 := (congrArg Prod.fst hfin2).symm
    have hmp : m.paths = stf.1.paths := by rw [hm, clean_merged_spec_paths]
    rw [hmp]
    refine ⟨hWFf, fun q r => ?_⟩
    rw [hpairsf q r]
    have hinit : ¬ hasPair (initMerged, initStats).1.paths q r := hasPair_nil q r
    constructor
    · rintro (h2 | h2)
      · exact absurd h2 hinit
      · exact h2
    · exact Or.inr

/-! ## From produced files back to endpoint groups (toward C1) -/

theorem mini_paths_find (sp : Splitter) (eps : List (String × String × J))
    (name : String) (ic : Bool) (mini : Obj)
    (h : create_mini_spec sp eps name ic = some mini) :
    ∃ pf, jFind? mini "paths" = some (J.obj pf) ∧ addEndpoints eps [] = some pf := by
  obtain ⟨info0, rest, pf, ts, -, hadd, -, -, hmini⟩ :=
    create_mini_spec_inv sp eps name ic mini h
  refine ⟨pf, ?_, hadd⟩
  subst hmini
  rfl

theorem WFItems_hitems (pf : List (String × J)) (h : WFItems pf) :
    ∀ x ∈ pf, ∀ pi, x.2 = J.obj pi → (pi.map Prod.fst).Nodup := by
  intro x hx pi hpi
  obtain ⟨pi2, hpi2, hnd⟩ := h.2 x hx
  rw [hpi] at hpi2
  simp only [J.obj.injEq] at hpi2
  rw [hpi2]
  exact hnd

theorem mini_file_pf (sp : Splitter) (eps : List (String × String × J))
    (name : String) (ic : Bool) (mini : Obj)
    (h : create_mini_spec sp eps name ic = some mini) :
    ∃ pf, (jFind? mini "paths" = some (J.obj pf) ∧
      ∀ x ∈ pf, ∀ pi, x.2 = J.obj pi → (pi.map Prod.fst).Nodup) ∧
      ∀ q r, hasPair pf q r ↔ (q, r) ∈ epPairs eps := by
  obtain ⟨pf, hfind, hadd⟩ := mini_paths_find sp eps name ic mini h
  obtain ⟨hWFpf, hiff⟩ := addEndpoints_pairs eps [] pf WFItems_nil hadd
  refine ⟨pf, ⟨hfind, WFItems_hitems pf hWFpf⟩, fun q r => ?_⟩
  rw [hiff q r]
  constructor
  · rintro (h1 | h1)
    · exact absurd h1 (hasPair_nil q r)
    · exact h1
  · exact Or.inr

theorem forall2_exists_list {α β γ : Type} {R : α → β → Prop} {S : β → γ → Prop}
    {T : α → γ → Prop}
    (hcomp : ∀ a b, R a b → ∃ c, S b c ∧ T a c) :
    ∀ {l1 : List α} {l2 : List β}, List.Forall₂ R l1 l2 →
      ∃ l3, List.Forall₂ S l2 l3 ∧ List.Forall₂ T l1 l3 := by
  intro l1 l2 hfa
  induction hfa with
  | nil => exact ⟨[], List.Forall₂.nil, List.Forall₂.nil⟩
  | cons hx hrest ih =>
    obtain ⟨l3, h1, h2⟩ := ih
    obtain ⟨c, hS, hT⟩ := hcomp _ _ hx
    exact ⟨c :: l3, List.Forall₂.cons hS h1, List.Forall₂.cons hT h2⟩

theorem forall2_union_iff {α β : Type} {P : α → Prop} {Q : β → Prop} :
    ∀ {l1 : List α} {l2 : List β}, List.Forall₂ (fun a b => (Q b ↔ P a)) l1 l2 →
      ((∃ b ∈ l2, Q b) ↔ ∃ a ∈ l1, P a) := by
  intro l1 l2 hfa
  induction hfa with
  | nil => simp
  | cons hx hrest ih =>
    constructor
    · rintro ⟨b, hb, hQ⟩
      rcases List.mem_cons.mp hb with h1 | h1
      · subst h1
        exact ⟨_, List.mem_cons_self _ _, hx.mp hQ⟩
      · obtain ⟨a, ha, hP⟩ := ih.mp ⟨b, h1, hQ⟩
        exact ⟨a, List.mem_cons_of_mem _ ha, hP⟩
    · rintro ⟨a, ha, hP⟩
      rcases List.mem_cons.mp ha with h1 | h1
      · subst h1
        exact ⟨_, List.mem_cons_self _ _, hx.mpr hP⟩
      · obtain ⟨b, hb, hQ⟩ := ih.mpr ⟨a, h1, hP⟩
        exact ⟨b, List.mem_cons_of_mem _ hb, hQ⟩

theorem exists_mem_enum {α : Type} (l : List α) (P : α → Prop) :
    (∃ jc ∈ l.enum, P jc.2) ↔ ∃ c ∈ l, P c := by
  constructor
  · rintro ⟨jc, hmem, hp⟩
    refine ⟨jc.2, ?_, hp⟩
    rw [← List.enum_map_snd l]
    exact List.mem_map_of_mem Prod.snd hmem
  · rintro ⟨c, hc, hp⟩
    rw [← List.enum_map_snd l] at hc
    obtain ⟨jc, hjc, hsnd⟩ := List.mem_map.mp hc
    exact ⟨jc, hjc, hsnd ▸ hp⟩

theorem pairs_filterMap (pi : Obj) (p : String) (ms : List String) :
    (ms.filterMap (fun m => (jFind? pi m).map (fun op => (p, m, op)))).map
        (fun t => (t.1, t.2.1))
      = (ms.filter (fun m => jHas pi m)).map (fun m => (p, m)) := by
  induction ms with
  | nil => rfl
  | cons mm rest ih =>
    rw [List.filterMap_cons, List.filter_cons]
    cases hf : jFind? pi mm with
    | none =>
      have hh : jHas pi mm = false := by
        rw [jHas_eq_isSome, hf]
        rfl
      simp only [hh, Option.map_none', Bool.false_eq_true, if_false]
      exact ih
    | some v =>
      have hh : jHas pi mm = true := by
        rw [jHas_eq_isSome, hf]
        rfl
      simp only [hh, Option.map_some', if_true, List.map_cons]
      rw [ih]

theorem epPairs_append (l1 l2 : List (String × String × J)) :
    epPairs (l1 ++ l2) = epPairs l1 ++ epPairs l2 := List.map_append _ _ _

theorem epPairs_opsOfPathItem (p : String) (item : J) :
    epPairs (opsOfPathItem p item)
      = match item with
        | J.obj pi => (HTTP_METHODS.filter (fun m => jHas pi m)).map (fun m => (p, m))
        | _ => [] := by
  cases item with
  | obj pi => exact pairs_filterMap pi p HTTP_METHODS
  | s v => rfl
  | i v => rfl
  | b v => rfl
  | null => rfl
  | arr xs => rfl

theorem epPairs_ops (ps : List (String × J)) :
    epPairs (ps.flatMap (fun q => opsOfPathItem q.1 q.2)) = opPairs ps := by
  induction ps with
  | nil => rfl
  | cons x rest ih =>
    rw [List.flatMap_cons, epPairs_append, ih, opPairs_cons]
    congr 1
    exact epPairs_opsOfPathItem x.1 x.2

theorem mem_epPairs_chunks (n : Nat) (ops : List (String × String × J))
    (x : String × String) :
    (∃ c ∈ chunks n ops, x ∈ epPairs c) ↔ x ∈ epPairs ops := by
  conv_rhs => rw [← chunks_flatten n ops]
  constructor
  · rintro ⟨c, hc, hx⟩
    unfold epPairs at hx ⊢
    rw [List.mem_map] at hx ⊢
    obtain ⟨t, ht, hproj⟩ := hx
    exact ⟨t, List.mem_flatten.mpr ⟨c, hc, ht⟩, hproj⟩
  · intro hx
    unfold epPairs at hx
    rw [List.mem_map] at hx
    obtain ⟨t, ht, hproj⟩ := hx
    obtain ⟨c, hc, htc⟩ := List.mem_flatten.mp ht
    exact ⟨c, hc, List.mem_map.mpr ⟨t, htc, hproj⟩⟩

theorem split_by_size_inv (sp : Splitter) (n : Nat) (files : List SplitFile)
    (ops : List (String × String × J))
    (hops : get_operations sp.spec = some ops)
    (hne : ops.isEmpty = false) (hn0 : ¬ n = 0)
    (h : split_by_size sp n = some files) :
    List.Forall₂ (fun (jc : Nat × List (String × String × J)) (f : SplitFile) =>
        create_mini_spec sp jc.2 ("Part " ++ toString (jc.1 + 1)) true = some f.mini)
      (chunks n ops).enum files := by
  unfold split_by_size at h
  rw [hops] at h
  simp only [Option.bind_eq_bind, Option.some_bind, hne, Bool.false_eq_true,
    if_false, hn0] at h
  refine List.Forall₂.imp ?_ (mapM_option_forall2 _ _ _ h)
  rintro jc f hjf
  simp only [Option.map_eq_map, Option.map_eq_some'] at hjf
  obtain ⟨mini, hmini, hf⟩ := hjf
  rw [← hf]
  exact hmini

theorem size_round_trip (sp : Splitter) (n : Nat) (ps : List (String × J))
    (files : List SplitFile) (strategy : String) (m : MergedSpec) (stt : Stats)
    (hps : getPathsOpt sp.spec = some ps)
    (hnd : (ps.map Prod.fst).Nodup)
    (hn : 1 ≤ n)
    (hsplit : split_by_size sp n = some files)
    (hmerge : merge_all_specs (files.map (fun f => Except.ok f.mini)) strategy
      = .ok (m, stt)) :
    (opPairs m.paths).Perm (opPairsOfSpec sp.spec) := by
  have hops : get_operations sp.spec
      = some (ps.flatMap (fun q => opsOfPathItem q.1 q.2)) := by
    unfold get_operations
    rw [hps]
    rfl
  set ops := ps.flatMap (fun q => opsOfPathItem q.1 q.2) with hopsdef
  cases hie : ops.isEmpty with
  | true =>
    have hfiles : files = [] := by
      unfold split_by_size at hsplit
      rw [hops] at hsplit
      simp only [Option.bind_eq_bind, Option.some_bind, hie, if_true,
        Option.some.injEq] at hsplit
      exact hsplit.symm
    rw [hfiles] at hmerge
    cases hmerge
  | false =>
    have hn0 : ¬ n = 0 := by omega
    have hfa0 := split_by_size_inv sp n files ops hops hie hn0 hsplit
    obtain ⟨pfs, hS, hT⟩ := forall2_exists_list
      (S := fun (f : SplitFile) (pf : List (String × J)) =>
        jFind? f.mini "paths" = some (J.obj pf) ∧
        ∀ x ∈ pf, ∀ pi, x.2 = J.obj pi → (pi.map Prod.fst).Nodup)
      (T := fun (jc : Nat × List (String × String × J)) pf =>
        ∀ q r, hasPair pf q r ↔ (q, r) ∈ epPairs jc.2)
      (fun jc f hR => mini_file_pf sp jc.2 _ true f.mini hR)
      hfa0
    have hfa' : List.Forall₂ (fun (mini : Obj) (pf : List (String × J)) =>
        jFind? mini "paths" = some (J.obj pf) ∧
        ∀ x ∈ pf, ∀ pi, x.2 = J.obj pi → (pi.map Prod.fst).Nodup)
        (files.map SplitFile.mini) pfs := by
      rw [List.forall₂_map_left_iff]
      exact hS
    have hmerge' : merge_all_specs ((files.map SplitFile.mini).map Except.ok) strategy
        = .ok (m, stt) := by
      rw [List.map_map]
      exact hmerge
    obtain ⟨hWFm, hpairs⟩ := merge_all_pairs strategy _ pfs m stt hfa' hmerge'
    have hchain : ∀ q r, hasPair m.paths q r ↔ (q, r) ∈ opPairs ps := by
      intro q r
      rw [hpairs q r]
      have hu := forall2_union_iff (List.Forall₂.imp (fun jc pf hT2 => hT2 q r) hT)
      rw [hu, exists_mem_enum (chunks n ops) (fun c => (q, r) ∈ epPairs c),
        mem_epPairs_chunks n ops (q, r),
        show epPairs ops = opPairs ps from epPairs_ops ps]
    have hnd1 : (opPairs m.paths).Nodup := opPairs_nodup _ hWFm.1
    have hnd2 : (opPairs ps).Nodup := opPairs_nodup _ hnd
    have hOP : opPairsOfSpec sp.spec = opPairs ps := by
      unfold opPairsOfSpec
      rw [hps]
      rfl
    rw [hOP, List.perm_ext_iff_of_nodup hnd1 hnd2]
    rintro ⟨q, r⟩
    rw [opPairs_mem m.paths, hchain q r]
    constructor
    · rintro ⟨-, h2⟩
      exact h2
    · intro h2
      exact ⟨((opPairs_mem ps q r).mp h2).1, h2⟩

/-! ## The path-prefix grouping (toward C1) -/

theorem addToGroup_mem {α : Type} :
    ∀ (gs : List (String × List α)) (k : String) (x y : α),
      (∃ g ∈ addToGroup gs k x, y ∈ g.2) ↔ (∃ g ∈ gs, y ∈ g.2) ∨ y = x := by
  intro gs
  induction gs with
  | nil =>
    intro k x y
    simp [addToGroup]
  | cons g rest ih =>
    intro k x y
    rw [addToGroup]
    by_cases hk : g.1 = k
    · rw [if_pos hk]
      constructor
      · rintro ⟨g', hg', hy⟩
        rcases List.mem_cons.mp hg' with h1 | h1
        · subst h1
          rcases List.mem_append.mp hy with h2 | h2
          · exact Or.inl ⟨g, List.mem_cons_self _ _, h2⟩
          · exact Or.inr (List.mem_singleton.mp h2)
        · exact Or.inl ⟨g', List.mem_cons_of_mem _ h1, hy⟩
      · rintro (⟨g', hg', hy⟩ | hyx)
        · rcases List.mem_cons.mp hg' with h1 | h1
          · subst h1
            exact ⟨(k, g'.2 ++ [x]), List.mem_cons_self _ _, List.mem_append_left _ hy⟩
          · exact ⟨g', List.mem_cons_of_mem _ h1, hy⟩
        · subst hyx
          exact ⟨(k, g.2 ++ [y]), List.mem_cons_self _ _,
            List.mem_append_right _ (List.mem_singleton.mpr rfl)⟩
    · rw [if_neg hk]
      constructor
      · rintro ⟨g', hg', hy⟩
        rcases List.mem_cons.mp hg' with h1 | h1
        · subst h1
          exact Or.inl ⟨g', List.mem_cons_self _ _, hy⟩
        · rcases (ih k x y).mp ⟨g', h1, hy⟩ with h2 | h2
          · obtain ⟨g2, hg2, hy2⟩ := h2
            exact Or.inl ⟨g2, List.mem_cons_of_mem _ hg2, hy2⟩
          · exact Or.inr h2
      · rintro (⟨g', hg', hy⟩ | hyx)
        · rcases List.mem_cons.mp hg' with h1 | h1
          · subst h1
            exact ⟨g', List.mem_cons_self _ _, hy⟩
          · obtain ⟨g2, hg2, hy2⟩ := (ih k x y).mpr (Or.inl ⟨g', h1, hy⟩)
            exact ⟨g2, List.mem_cons_of_mem _ hg2, hy2⟩
        · obtain ⟨g2, hg2, hy2⟩ := (ih k x y).mpr (Or.inr hyx)
          exact ⟨g2, List.mem_cons_of_mem _ hg2, hy2⟩

theorem methodFold_mem (pi : Obj) (p lbl : String) :
    ∀ (ms : List String) (gs : List (String × List (String × String × J)))
      (y : String × String × J),
      (∃ g ∈ ms.foldl (fun gs m =>
          match jFind? pi m with
          | some (J.obj okvs) => addToGroup gs lbl (p, m, J.obj okvs)
          | _ => gs) gs, y ∈ g.2) ↔
        (∃ g ∈ gs, y ∈ g.2) ∨
          ∃ mth ∈ ms, ∃ okvs, jFind? pi mth = some (J.obj okvs)
            ∧ y = (p, mth, J.obj okvs) := by
  intro ms
  induction ms with
  | nil =>
    intro gs y
    simp
  | cons mth rest ih =>
    intro gs y
    rw [List.foldl_cons, List.exists_mem_cons_iff]
    cases hf : jFind? pi mth with
    | none =>
      simp only [hf]
      rw [ih]
      constructor
      · rintro (h1 | h1)
        · exact Or.inl h1
        · exact Or.inr (Or.inr h1)
      · rintro (h1 | h1 | h1)
        · exact Or.inl h1
        · obtain ⟨okvs, hok, -⟩ := h1
          cases hok
        · exact Or.inr h1
    | some v =>
      cases v with
      | obj okvs =>
        simp only [hf]
        rw [ih, addToGroup_mem]
        constructor
        · rintro ((h1 | h1) | h1)
          · exact Or.inl h1
          · exact Or.inr (Or.inl ⟨okvs, rfl, h1⟩)
          · exact Or.inr (Or.inr h1)
        · rintro (h1 | h1 | h1)
          · exact Or.inl (Or.inl h1)
          · obtain ⟨okvs2, hok, hy⟩ := h1
            simp only [Option.some.injEq, J.obj.injEq] at hok
            subst hok
            exact Or.inl (Or.inr hy)
          · exact Or.inr h1
      | s w =>
        simp only [hf]
        rw [ih]
        constructor
        · rintro (h1 | h1)
          · exact Or.inl h1
          · exact Or.inr (Or.inr h1)
        · rintro (h1 | h1 | h1)
          · exact Or.inl h1
          · obtain ⟨okvs, hok, -⟩ := h1
            cases hok
          · exact Or.inr h1
      | i w =>
        simp only [hf]
        rw [ih]
        constructor
        · rintro (h1 | h1)
          · exact Or.inl h1
          · exact Or.inr (Or.inr h1)
        · rintro (h1 | h1 | h1)
          · exact Or.inl h1
          · obtain ⟨okvs, hok, -⟩ := h1
            cases hok
          · exact Or.inr h1
      | b w =>
        simp only [hf]
        rw [ih]
        constructor
        · rintro (h1 | h1)
          · exact Or.inl h1
          · exact Or.inr (Or.inr h1)
        · rintro (h1 | h1 | h1)
          · exact Or.inl h1
          · obtain ⟨okvs, hok, -⟩ := h1
            cases hok
          · exact Or.inr h1
      | null =>
        simp only [hf]
        rw [ih]
        constructor
        · rintro (h1 | h1)
          · exact Or.inl h1
          · exact Or.inr (Or.inr h1)
        · rintro (h1 | h1 | h1)
          · exact Or.inl h1
          · obtain ⟨okvs, hok, -⟩ := h1
            cases hok
          · exact Or.inr h1
      | arr xs =>
        simp only [hf]
        rw [ih]
        constructor
        · rintro (h1 | h1)
          · exact Or.inl h1
          · exact Or.inr (Or.inr h1)
        · rintro (h1 | h1 | h1)
          · exact Or.inl h1
          · obtain ⟨okvs, hok, -⟩ := h1
            cases hok
          · exact Or.inr h1

theorem groupByPfx_mem (ps : List (String × J)) (y : String × String × J) :
    (∃ g ∈ groupByPfx ps, y ∈ g.2) ↔
      ∃ pp, ∃ pi : Obj, (pp, J.obj pi) ∈ ps ∧ ∃ mth ∈ HTTP_METHODS, ∃ okvs,
        jFind? pi mth = some (J.obj okvs) ∧ y = (pp, mth, J.obj okvs) := by
  suffices h : ∀ (l : List (String × J)) (gs : List (String × List (String × String × J))),
      (∃ g ∈ l.foldl (fun gs q =>
          match q.2 with
          | J.obj pi =>
            HTTP_METHODS.foldl (fun gs m =>
              match jFind? pi m with
              | some (J.obj okvs) => addToGroup gs (pfxOf q.1) (q.1, m, J.obj okvs)
              | _ => gs) gs
          | _ => gs) gs, y ∈ g.2) ↔
        (∃ g ∈ gs, y ∈ g.2) ∨
          ∃ pp, ∃ pi : Obj, (pp, J.obj pi) ∈ l ∧ ∃ mth ∈ HTTP_METHODS, ∃ okvs,
            jFind? pi mth = some (J.obj okvs) ∧ y = (pp, mth, J.obj okvs) by
    have h2 := h ps []
    unfold groupByPfx
    rw [h2]
    simp
  intro l
  induction l with
  | nil =>
    intro gs
    simp
  | cons x rest ih =>
    intro gs
    obtain ⟨pp0, v⟩ := x
    have hsplitRHS : ∀ (P : String → Obj → Prop),
        (∃ pp, ∃ pi : Obj, (pp, J.obj pi) ∈ (pp0, v) :: rest ∧ P pp pi) ↔
          ((∃ pi : Obj, v = J.obj pi ∧ P pp0 pi) ∨
            ∃ pp, ∃ pi : Obj, (pp, J.obj pi) ∈ rest ∧ P pp pi) := by
      intro P
      constructor
      · rintro ⟨pp, pi, hmem, hP⟩
        rcases List.mem_cons.mp hmem with h1 | h1
        · simp only [Prod.mk.injEq] at h1
          exact Or.inl ⟨pi, h1.2.symm, h1.1 ▸ hP⟩
        · exact Or.inr ⟨pp, pi, h1, hP⟩
      · rintro (⟨pi, hv, hP⟩ | ⟨pp, pi, hmem, hP⟩)
        · exact ⟨pp0, pi, by simp [hv], hP⟩
        · exact ⟨pp, pi, List.mem_cons_of_mem _ hmem, hP⟩
    cases v with
    | obj pi =>
      simp only [List.foldl_cons]
      rw [ih, methodFold_mem, hsplitRHS]
      constructor
      · rintro ((h1 | h1) | h1)
        · exact Or.inl h1
        · exact Or.inr (Or.inl ⟨pi, rfl, h1⟩)
        · exact Or.inr (Or.inr h1)
      · rintro (h1 | h1 | h1)
        · exact Or.inl (Or.inl h1)
        · obtain ⟨pi2, hv, hP⟩ := h1
          simp only [J.obj.injEq] at hv
          subst hv
          exact Or.inl (Or.inr hP)
        · exact Or.inr h1
    | s w =>
      simp only [List.foldl_cons]
      rw [ih, hsplitRHS]
      constructor
      · rintro (h1 | h1)
        · exact Or.inl h1
        · exact Or.inr (Or.inr h1)
      · rintro (h1 | h1 | h1)
        · exact Or.inl h1
        · obtain ⟨pi, hv, -⟩ := h1
          cases hv
        · exact Or.inr h1
    | i w =>
      simp only [List.foldl_cons]
      rw [ih, hsplitRHS]
      constructor
      · rintro (h1 | h1)
        · exact Or.inl h1
        · exact Or.inr (Or.inr h1)
      · rintro (h1 | h1 | h1)
        · exact Or.inl h1
        · obtain ⟨pi, hv, -⟩ := h1
          cases hv
        · exact Or.inr h1
    | b w =>
      simp only [List.foldl_cons]
      rw [ih, hsplitRHS]
      constructor
      · rintro (h1 | h1)
        · exact Or.inl h1
        · exact Or.inr (Or.inr h1)
      · rintro (h1 | h1 | h1)
        · exact Or.inl h1
        · obtain ⟨pi, hv, -⟩ := h1
          cases hv
        · exact Or.inr h1
    | null =>
      simp only [List.foldl_cons]
      rw [ih, hsplitRHS]
      constructor
      · rintro (h1 | h1)
        · exact Or.inl h1
        · exact Or.inr (Or.inr h1)
      · rintro (h1 | h1 | h1)
        · exact Or.inl h1
        · obtain ⟨pi, hv, -⟩ := h1
          cases hv
        · exact Or.inr h1
    | arr xs =>
      simp only [List.foldl_cons]
      rw [ih, hsplitRHS]
      constructor
      · rintro (h1 | h1)
        · exact Or.inl h1
        · exact Or.inr (Or.inr h1)
      · rintro (h1 | h1 | h1)
        · exact Or.inl h1
        · obtain ⟨pi, hv, -⟩ := h1
          cases hv
        · exact Or.inr h1

theorem assocSet_fresh {α : Type} :
    ∀ (l : List (String × α)) (k : String) (v : α),
      k ∉ l.map Prod.fst → assocSet l k v = l ++ [(k, v)] := by
  intro l
  induction l with
  | nil => intro k v _; rfl
  | cons g rest ih =>
    intro k v h
    rw [List.map_cons, List.mem_cons] at h
    push_neg at h
    rw [assocSet, if_neg (fun hh => h.1 hh.symm), ih k v h.2, List.cons_append]

theorem foldl_assocSet_fresh {α : Type} :
    ∀ (ents : List (String × α)) (l : List (String × α)),
      (∀ e ∈ ents, e.1 ∉ l.map Prod.fst) → (ents.map Prod.fst).Nodup →
      ents.foldl (fun fg e => assocSet fg e.1 e.2) l = l ++ ents := by
  intro ents
  induction ents with
  | nil =>
    intro l _ _
    simp
  | cons e rest ih =>
    intro l hfresh hnd
    rw [List.map_cons, List.nodup_cons] at hnd
    rw [List.foldl_cons, assocSet_fresh l e.1 e.2 (hfresh e (List.mem_cons_self _ _)),
      ih (l ++ [(e.1, e.2)]) ?_ hnd.2]
    · simp
    · intro x hx
      rw [List.map_append, List.mem_append]
      rintro (h1 | h1)
      · exact hfresh x (List.mem_cons_of_mem _ hx) h1
      · simp only [List.map_cons, List.map_nil, List.mem_singleton] at h1
        exact hnd.1 (h1 ▸ List.mem_map_of_mem Prod.fst hx)

theorem genEntries_cons {α : Type} (maxPF : Nat) (g : String × List α)
    (rest : List (String × List α)) :
    genEntries maxPF (g :: rest)
      = (if g.2.length > maxPF then
          ((chunks maxPF g.2).enum).map (fun jc =>
            (g.1 ++ "_part" ++ toString (jc.1 + 1), jc.2))
        else [g]) ++ genEntries maxPF rest := by
  unfold genEntries
  rw [List.flatMap_cons]

theorem finalGroups_aux {α : Type} (maxPF : Nat) :
    ∀ (grouped : List (String × List α)) (acc : List (String × List α)),
      (∀ e ∈ genEntries maxPF grouped, e.1 ∉ acc.map Prod.fst) →
      ((genEntries maxPF grouped).map Prod.fst).Nodup →
      grouped.foldl (fun fg g =>
        if g.2.length > maxPF then
          ((chunks maxPF g.2).enum).foldl (fun fg jc =>
            assocSet fg (g.1 ++ "_part" ++ toString (jc.1 + 1)) jc.2) fg
        else assocSet fg g.1 g.2) acc
      = acc ++ genEntries maxPF grouped := by
  intro grouped
  induction grouped with
  | nil =>
    intro acc _ _
    simp [genEntries]
  | cons g rest ih =>
    intro acc hfresh hnd
    rw [genEntries_cons] at hfresh hnd
    rw [List.map_append, List.nodup_append] at hnd
    obtain ⟨hnd1, hnd2, hdisj⟩ := hnd
    rw [List.foldl_cons]
    by_cases hlen : g.2.length > maxPF
    · rw [if_pos hlen]
      rw [if_pos hlen] at hnd1 hdisj hfresh
      have hconv : ((chunks maxPF g.2).enum).foldl (fun fg jc =>
          assocSet fg (g.1 ++ "_part" ++ toString (jc.1 + 1)) jc.2) acc
          = (((chunks maxPF g.2).enum).map (fun jc =>
              (g.1 ++ "_part" ++ toString (jc.1 + 1), jc.2))).foldl
              (fun fg e => assocSet fg e.1 e.2) acc := by
        rw [List.foldl_map]
      rw [hconv, foldl_assocSet_fresh _ acc ?_ ?_]
      · rw [ih (acc ++ ((chunks maxPF g.2).enum).map (fun jc =>
            (g.1 ++ "_part" ++ toString (jc.1 + 1), jc.2))) ?_ hnd2,
          genEntries_cons, if_pos hlen, List.append_assoc]
        intro e he
        rw [List.map_append, List.mem_append]
        rintro (h1 | h1)
        · exact hfresh e (List.mem_append_right _ he) h1
        · exact hdisj h1 (List.mem_map_of_mem Prod.fst he)
      · intro e he
        exact hfresh e (List.mem_append_left _ he)
      · exact hnd1
    · rw [if_neg hlen]
      rw [if_neg hlen] at hnd1 hdisj hfresh
      rw [assocSet_fresh acc g.1 g.2 (hfresh (g.1, g.2) (List.mem_append_left _
        (List.mem_singleton.mpr rfl)))]
      rw [ih (acc ++ [(g.1, g.2)]) ?_ hnd2, genEntries_cons, if_neg hlen,
        List.append_assoc]
      intro e he
      rw [List.map_append, List.mem_append]
      rintro (h1 | h1)
      · exact hfresh e (List.mem_append_right _ he) h1
      · simp only [List.map_cons, List.map_nil, List.mem_singleton] at h1
        refine hdisj ?_ (List.mem_map_of_mem Prod.fst he)
        simp [h1]

theorem finalGroups_eq_genEntries {α : Type} (maxPF : Nat)
    (grouped : List (String × List α))
    (hnd : ((genEntries maxPF grouped).map Prod.fst).Nodup) :
    finalGroups maxPF grouped = genEntries maxPF grouped := by
  have h := finalGroups_aux maxPF grouped [] (by simp) hnd
  unfold finalGroups
  rw [h]
  simp

theorem genEntries_mem_union {α : Type} (maxPF : Nat)
    (grouped : List (String × List α)) (y : α) :
    (∃ g ∈ genEntries maxPF grouped, y ∈ g.2) ↔ ∃ g ∈ grouped, y ∈ g.2 := by
  induction grouped with
  | nil => simp [genEntries]
  | cons g rest ih =>
    rw [genEntries_cons]
    constructor
    · rintro ⟨g', hg', hy⟩
      rcases List.mem_append.mp hg' with h1 | h1
      · refine ⟨g, List.mem_cons_self _ _, ?_⟩
        by_cases hlen : g.2.length > maxPF
        · rw [if_pos hlen] at h1
          obtain ⟨jc, hjc, hmap⟩ := List.mem_map.mp h1
          have hy2 : y ∈ jc.2 := by
            rw [← hmap] at hy
            exact hy
          have hc : jc.2 ∈ chunks maxPF g.2 := by
            rw [← List.enum_map_snd (chunks maxPF g.2)]
            exact List.mem_map_of_mem Prod.snd hjc
          rw [← chunks_flatten maxPF g.2]
          exact List.mem_flatten.mpr ⟨jc.2, hc, hy2⟩
        · rw [if_neg hlen] at h1
          rw [List.mem_singleton.mp h1] at hy
          exact hy
      · obtain ⟨g2, hg2, hy2⟩ := ih.mp ⟨g', h1, hy⟩
        exact ⟨g2, List.mem_cons_of_mem _ hg2, hy2⟩
    · rintro ⟨g', hg', hy⟩
      rcases List.mem_cons.mp hg' with h1 | h1
      · subst h1
        by_cases hlen : g'.2.length > maxPF
        · rw [← chunks_flatten maxPF g'.2] at hy
          obtain ⟨c, hc, hyc⟩ := List.mem_flatten.mp hy
          rw [← List.enum_map_snd (chunks maxPF g'.2)] at hc
          obtain ⟨jc, hjc, hsnd⟩ := List.mem_map.mp hc
          refine ⟨(g'.1 ++ "_part" ++ toString (jc.1 + 1), jc.2),
            List.mem_append_left _ ?_, ?_⟩
          · rw [if_pos hlen]
            exact List.mem_map_of_mem _ hjc
          · rw [hsnd]
            exact hyc
        · exact ⟨g', List.mem_append_left _ (by rw [if_neg hlen]; simp), hy⟩
      · obtain ⟨g2, hg2, hy2⟩ := ih.mpr ⟨g', h1, hy⟩
        exact ⟨g2, List.mem_append_right _ hg2, hy2⟩

theorem group_endpoints_inv (sp : Splitter) (maxPF : Nat) (ps : List (String × J))
    (grouped : List (String × List (String × String × J)))
    (hps : getPathsOpt sp.spec = some ps) (hn : 1 ≤ maxPF)
    (h : group_endpoints_by_path_prefix sp maxPF = some grouped) :
    grouped = finalGroups maxPF (groupByPfx ps) := by
  unfold group_endpoints_by_path_prefix at h
  rw [hps] at h
  have h0 : (maxPF == 0) = false := by
    rw [beq_eq_false_iff_ne]
    omega
  simp only [Option.bind_eq_bind, Option.some_bind, h0, Bool.false_and,
    Bool.false_eq_true, if_false, Option.some.injEq] at h
  exact h.symm

theorem split_by_path_prefix_inv (sp : Splitter) (maxPF : Nat)
    (grouped : List (String × List (String × String × J))) (files : List SplitFile)
    (hg : group_endpoints_by_path_prefix sp maxPF = some grouped)
    (hgne : grouped.isEmpty = false)
    (h : split_by_path_prefix sp maxPF = some files) :
    List.Forall₂ (fun (g : String × List (String × String × J)) (f : SplitFile) =>
      create_mini_spec sp g.2 g.1 true = some f.mini) grouped files := by
  unfold split_by_path_prefix at h
  rw [hg] at h
  simp only [Option.bind_eq_bind, Option.some_bind, hgne, Bool.false_eq_true,
    if_false] at h
  refine List.Forall₂.imp ?_ (mapM_option_forall2 _ _ _ h)
  rintro g f hjf
  simp only [Option.map_eq_map, Option.map_eq_some'] at hjf
  obtain ⟨mini, hmini, hf⟩ := hjf
  rw [← hf]
  exact hmini

theorem prefix_round_trip (sp : Splitter) (maxPF : Nat) (ps : List (String × J))
    (files : List SplitFile) (strategy : String) (m : MergedSpec) (stt : Stats)
    (hps : getPathsOpt sp.spec = some ps)
    (hnd : (ps.map Prod.fst).Nodup)
    (hn : 1 ≤ maxPF)
    (hdictops : ∀ x ∈ ps, ∀ pi, x.2 = J.obj pi → ∀ mth ∈ HTTP_METHODS, ∀ v,
      jFind? pi mth = some v → ∃ o, v = J.obj o)
    (hlbl : ((genEntries maxPF (groupByPfx ps)).map Prod.fst).Nodup)
    (hsplit : split_by_path_prefix sp maxPF = some files)
    (hmerge : merge_all_specs (files.map (fun f => Except.ok f.mini)) strategy
      = .ok (m, stt)) :
    (opPairs m.paths).Perm (opPairsOfSpec sp.spec) := by
  obtain ⟨grouped, hg⟩ : ∃ grouped,
      group_endpoints_by_path_prefix sp maxPF = some grouped := by
    unfold split_by_path_prefix at hsplit
    cases hge : group_endpoints_by_path_prefix sp maxPF with
    | none =>
      rw [hge] at hsplit
      cases hsplit
    | some g => exact ⟨g, rfl⟩
  have hgrouped : grouped = finalGroups maxPF (groupByPfx ps) :=
    group_endpoints_inv sp maxPF ps grouped hps hn hg
  cases hgne : grouped.isEmpty with
  | true =>
    have hfiles : files = [] := by
      unfold split_by_path_prefix at hsplit
      rw [hg] at hsplit
      simp only [Option.bind_eq_bind, Option.some_bind, hgne, if_true,
        Option.some.injEq] at hsplit
      exact hsplit.symm
    rw [hfiles] at hmerge
    cases hmerge
  | false =>
    have hfa0 := split_by_path_prefix_inv sp maxPF grouped files hg hgne hsplit
    obtain ⟨pfs, hS, hT⟩ := forall2_exists_list
      (S := fun (f : SplitFile) (pf : List (String × J)) =>
        jFind? f.mini "paths" = some (J.obj pf) ∧
        ∀ x ∈ pf, ∀ pi, x.2 = J.obj pi → (pi.map Prod.fst).Nodup)
      (T := fun (g : String × List (String × String × J)) pf =>
        ∀ q r, hasPair pf q r ↔ (q, r) ∈ epPairs g.2)
      (fun g f hR => mini_file_pf sp g.2 g.1 true f.mini hR)
      hfa0
    have hfa' : List.Forall₂ (fun (mini : Obj) (pf : List (String × J)) =>
        jFind? mini "paths" = some (J.obj pf) ∧
        ∀ x ∈ pf, ∀ pi, x.2 = J.obj pi → (pi.map Prod.fst).Nodup)
        (files.map SplitFile.mini) pfs := by
      rw [List.forall₂_map_left_iff]
      exact hS
    have hmerge' : merge_all_specs ((files.map SplitFile.mini).map Except.ok) strategy
        = .ok (m, stt) := by
      rw [List.map_map]
      exact hmerge
    obtain ⟨hWFm, hpairs⟩ := merge_all_pairs strategy _ pfs m stt hfa' hmerge'
    have hchain : ∀ q r, hasPair m.paths q r ↔ (q, r) ∈ opPairs ps := by
      intro q r
      rw [hpairs q r]
      have hu := forall2_union_iff (List.Forall₂.imp (fun g pf hT2 => hT2 q r) hT)
      rw [hu]
      have hmid : (∃ g ∈ genEntries maxPF (groupByPfx ps), (q, r) ∈ epPairs g.2)
          ↔ ∃ op, ∃ g ∈ groupByPfx ps, (q, r, op) ∈ g.2 := by
        constructor
        · rintro ⟨g, hgm, hqr⟩
          obtain ⟨op, hop⟩ := (epPairs_mem g.2 q r).mp hqr
          obtain ⟨g2, hg2, hin⟩ :=
            (genEntries_mem_union maxPF (groupByPfx ps) (q, r, op)).mp ⟨g, hgm, hop⟩
          exact ⟨op, g2, hg2, hin⟩
        · rintro ⟨op, g, hgm, hin⟩
          obtain ⟨g2, hg2, hin2⟩ :=
            (genEntries_mem_union maxPF (groupByPfx ps) (q, r, op)).mpr ⟨g, hgm, hin⟩
          exact ⟨g2, hg2, (epPairs_mem g2.2 q r).mpr ⟨op, hin2⟩⟩
      have hend : (∃ op, ∃ g ∈ groupByPfx ps, (q, r, op) ∈ g.2)
          ↔ (q, r) ∈ opPairs ps := by
        rw [opPairs_mem]
        constructor
        · rintro ⟨op, hgp⟩
          obtain ⟨pp, pi, hmem, mth, hmth, okvs, hfind, heq⟩ :=
            (groupByPfx_mem ps (q, r, op)).mp ⟨_, hgp.choose_spec.1, hgp.choose_spec.2⟩
          obtain ⟨h1, h2, h3⟩ : q = pp ∧ r = mth ∧ op = J.obj okvs := by
            simpa using heq
          subst h1
          subst h2
          refine ⟨hmth, pi, hmem, ?_⟩
          rw [jHas_eq_isSome, hfind]
          rfl
        · rintro ⟨hrHM, pi, hmem, hr⟩
          obtain ⟨v, hv⟩ : ∃ v, jFind? pi r = some v := by
            rw [jHas_eq_isSome] at hr
            exact Option.isSome_iff_exists.mp hr
          obtain ⟨okvs, hokvs⟩ := hdictops (q, J.obj pi) hmem pi rfl r hrHM v hv
          subst hokvs
          exact ⟨J.obj okvs, (groupByPfx_mem ps (q, r, J.obj okvs)).mpr
            ⟨q, pi, hmem, r, hrHM, okvs, hv, rfl⟩⟩
      rw [hgrouped, finalGroups_eq_genEntries maxPF (groupByPfx ps) hlbl, hmid, hend]
    have hnd1 : (opPairs m.paths).Nodup := opPairs_nodup _ hWFm.1
    have hnd2 : (opPairs ps).Nodup := opPairs_nodup _ hnd
    have hOP : opPairsOfSpec sp.spec = opPairs ps := by
      unfold opPairsOfSpec
      rw [hps]
      rfl
    rw [hOP, List.perm_ext_iff_of_nodup hnd1 hnd2]
    rintro ⟨q, r⟩
    rw [opPairs_mem m.paths, hchain q r]
    constructor
    · rintro ⟨-, h2⟩
      exact h2
    · intro h2
      exact ⟨((opPairs_mem ps q r).mp h2).1, h2⟩

/-- C1 (as amended): splitting and then merging is round-trip complete for
the size strategy on any document (unique path keys), and for the
path-prefix strategy on documents whose method operations are all dicts and
whose generated group labels are pairwise distinct: the merged document's
multiset of `(path, method)` pairs over the 8 HTTP methods equals the
source's exactly — no operation lost, none duplicated.  (The path-prefix
strategy silently drops operations whose value is not a dict, and a group
label colliding with a `{prefix}_part{K}` chunk name overwrites that chunk,
so both amendments are necessary.) -/
theorem c1_round_trip :
    (∀ (sp : Splitter) (n : Nat) (ps : List (String × J)) (files : List SplitFile)
        (strategy : String) (m : MergedSpec) (stt : Stats),
      1 ≤ n →
      getPathsOpt sp.spec = some ps →
      (ps.map Prod.fst).Nodup →
      split_by_size sp n = some files →
      merge_all_specs (files.map (fun f => Except.ok f.mini)) strategy = .ok (m, stt) →
      (opPairs m.paths).Perm (opPairsOfSpec sp.spec)) ∧
    (∀ (sp : Splitter) (maxPF : Nat) (ps : List (String × J)) (files : List SplitFile)
        (strategy : String) (m : MergedSpec) (stt : Stats),
      1 ≤ maxPF →
      getPathsOpt sp.spec = some ps →
      (ps.map Prod.fst).Nodup →
      (∀ x ∈ ps, ∀ pi, x.2 = J.obj pi → ∀ mth ∈ HTTP_METHODS, ∀ v,
        jFind? pi mth = some v → ∃ o, v = J.obj o) →
      ((genEntries maxPF (groupByPfx ps)).map Prod.fst).Nodup →
      split_by_path_prefix sp maxPF = some files →
      merge_all_specs (files.map (fun f => Except.ok f.mini)) strategy = .ok (m, stt) →
      (opPairs m.paths).Perm (opPairsOfSpec sp.spec)) :=
  ⟨fun sp n ps files strategy m stt hn hps hnd hsplit hmerge =>
      size_round_trip sp n ps files strategy m stt hps hnd hn hsplit hmerge,
   fun sp maxPF ps files strategy m stt hn hps hnd hdict hlbl hsplit hmerge =>
      prefix_round_trip sp maxPF ps files strategy m stt hps hnd hn hdict hlbl
        hsplit hmerge⟩

/-- C1 as stated is false for the path-prefix strategy on two counts.
First, an operation whose value is not a dict is silently dropped by the
grouping (the size strategy keeps it): a document with `get: "bad"` and an
ordinary `post` round-trips to `post` alone.  Second, the `{prefix}_part{K}`
chunk names are plain dict keys, so a prefix group named like an earlier
chunk overwrites it: with `max_per_file = 1`, paths `/a` (2 ops) and
`/a_part1` lose `(/a, get)`. -/
theorem c1_counterexample :
    ((( split_by_path_prefix ⟨[("openapi", J.s "3.0.0"),
          ("info", J.obj [("title", J.s "T"), ("version", J.s "1")]),
          ("paths", J.obj [("/p", J.obj [("get", J.s "bad"), ("post", J.obj [])])])],
        J.i 0⟩ 50).bind (fun files =>
        (merge_all_specs (files.map (fun f => Except.ok f.mini))
          "keep_first").toOption)).map (fun st => opPairs st.1.paths)
        = some [("/p", "post")] ∧
      opPairsOfSpec [("openapi", J.s "3.0.0"),
          ("info", J.obj [("title", J.s "T"), ("version", J.s "1")]),
          ("paths", J.obj [("/p", J.obj [("get", J.s "bad"), ("post", J.obj [])])])]
        = [("/p", "get"), ("/p", "post")] ∧
      ¬ ([("/p", "post")] : List (String × String)).Perm
          [("/p", "get"), ("/p", "post")]) ∧
    ((( split_by_path_prefix ⟨[("openapi", J.s "3.0.0"),
          ("info", J.obj [("title", J.s "T"), ("version", J.s "1")]),
          ("paths", J.obj
            [("/a", J.obj [("get", J.obj []), ("post", J.obj [])]),
             ("/a_part1", J.obj [("get", J.obj [])])])],
        J.i 0⟩ 1).bind (fun files =>
        (merge_all_specs (files.map (fun f => Except.ok f.mini))
          "keep_first").toOption)).map (fun st => opPairs st.1.paths)
        = some [("/a_part1", "get"), ("/a", "post")] ∧
      opPairsOfSpec [("openapi", J.s "3.0.0"),
          ("info", J.obj [("title", J.s "T"), ("version", J.s "1")]),
          ("paths", J.obj
            [("/a", J.obj [("get", J.obj []), ("post", J.obj [])]),
             ("/a_part1", J.obj [("get", J.obj [])])])]
        = [("/a", "get"), ("/a", "post"), ("/a_part1", "get")] ∧
      ¬ ([("/a_part1", "get"), ("/a", "post")] : List (String × String)).Perm
          [("/a", "get"), ("/a", "post"), ("/a_part1", "get")]) :=
  ⟨⟨rfl, rfl, by decide⟩, ⟨rfl, rfl, by decide⟩⟩

/-- Witness for C1: both branches at a one-operation document. -/
theorem c1_round_trip_witness :
    ((1 : Nat) ≤ 1 ∧
      getPathsOpt ([("openapi", J.s "3.0.0"),
          ("info", J.obj [("title", J.s "W"), ("version", J.s "1")]),
          ("paths", J.obj [("/p", J.obj [("get", J.obj [])])])] : Obj)
        = some [("/p", J.obj [("get", J.obj [])])] ∧
      split_by_size ⟨[("openapi", J.s "3.0.0"),
          ("info", J.obj [("title", J.s "W"), ("version", J.s "1")]),
          ("paths", J.obj [("/p", J.obj [("get", J.obj [])])])], J.i 0⟩ 1
        = some ((split_by_size ⟨[("openapi", J.s "3.0.0"),
            ("info", J.obj [("title", J.s "W"), ("version", J.s "1")]),
            ("paths", J.obj [("/p", J.obj [("get", J.obj [])])])], J.i 0⟩ 1).getD []) ∧
      (opPairs ((merge_all_specs
          (((split_by_size ⟨[("openapi", J.s "3.0.0"),
              ("info", J.obj [("title", J.s "W"), ("version", J.s "1")]),
              ("paths", J.obj [("/p", J.obj [("get", J.obj [])])])], J.i 0⟩ 1).getD
            []).map (fun f => Except.ok f.mini)) "keep_first").toOption.getD
          (initMerged, initStats)).1.paths).Perm
        (opPairsOfSpec [("openapi", J.s "3.0.0"),
          ("info", J.obj [("title", J.s "W"), ("version", J.s "1")]),
          ("paths", J.obj [("/p", J.obj [("get", J.obj [])])])])) ∧
    (opPairs ((merge_all_specs
          ((( split_by_path_prefix ⟨[("openapi", J.s "3.0.0"),
              ("info", J.obj [("title", J.s "W"), ("version", J.s "1")]),
              ("paths", J.obj [("/p", J.obj [("get", J.obj [])])])], J.i 0⟩ 1).getD
            []).map (fun f => Except.ok f.mini)) "keep_first").toOption.getD
          (initMerged, initStats)).1.paths).Perm
        (opPairsOfSpec [("openapi", J.s "3.0.0"),
          ("info", J.obj [("title", J.s "W"), ("version", J.s "1")]),
          ("paths", J.obj [("/p", J.obj [("get", J.obj [])])])]) :=
  ⟨⟨Nat.le_refl 1, rfl, rfl,
    c1_round_trip.1 ⟨[("openapi", J.s "3.0.0"),
        ("info", J.obj [("title", J.s "W"), ("version", J.s "1")]),
        ("paths", J.obj [("/p", J.obj [("get", J.obj [])])])], J.i 0⟩ 1
      [("/p", J.obj [("get", J.obj [])])] _ "keep_first" _ _
      (Nat.le_refl 1) rfl (by decide) rfl rfl⟩,
   c1_round_trip.2 ⟨[("openapi", J.s "3.0.0"),
        ("info", J.obj [("title", J.s "W"), ("version", J.s "1")]),
        ("paths", J.obj [("/p", J.obj [("get", J.obj [])])])], J.i 0⟩ 1
      [("/p", J.obj [("get", J.obj [])])] _ "keep_first" _ _
      (Nat.le_refl 1) rfl (by decide)
      (by
        intro x hx pi hpi mth hmth v hv
        rw [List.mem_singleton] at hx
        subst hx
        simp only [J.obj.injEq] at hpi
        subst hpi
        by_cases hm : mth = "get"
        · subst hm
          refine ⟨[], ?_⟩
          have hfv : jFind? [("get", J.obj [])] "get" = some (J.obj []) := rfl
          rw [hfv] at hv
          exact (Option.some.inj hv).symm
        · have hnone : jFind? [("get", J.obj [])] mth = none := by
            rw [jFind?_cons, if_neg (fun hh => hm hh.symm), jFind?_nil]
          rw [hnone] at hv
          cases hv)
      (by decide) rfl rfl⟩

/-! ## C10: skeleton invariant of merge_all -/

/-- C10: when at least one candidate file exists but every file fails to
load, `merge_all` completes without raising: the merged document is the
initial skeleton (info title `Merged API`, version `1.0.0`, empty paths,
the empty components dict dropped by the cleanup — `openapi`, `info` and
`paths` fields present by construction) and the returned statistics carry
`files_processed = 0`. -/
theorem c10_all_failed_loads (loads : List (Except String Obj)) (strategy : String)
    (hne : loads ≠ [])
    (hfail : ∀ l ∈ loads, ∃ e, l = Except.error e) :
    merge_all_specs loads strategy =
      Except.ok ({initMerged with components := none}, initStats) := by
  have hfold : ∀ (ls : List (Except String Obj)) (st : MState),
      (∀ l ∈ ls, ∃ e, l = Except.error e) →
      ls.foldlM (fun st load =>
        match load with
        | .error _ => Except.ok st
        | .ok spec => processSpec strategy st spec) st = Except.ok st := by
    intro ls
    induction ls with
    | nil =>
      intro st _
      rfl
    | cons l rest ih =>
      intro st h
      obtain ⟨e, he⟩ := h l (List.mem_cons_self _ _)
      subst he
      rw [List.foldlM_cons]
      show (rest.foldlM _ st) = Except.ok st
      exact ih st (fun x hx => h x (List.mem_cons_of_mem _ hx))
  match loads, hne, hfail with
  | l :: rest, _, hfail =>
    have h1 : merge_all_specs (l :: rest) strategy =
        ((l :: rest).foldlM (fun st load =>
          match load with
          | .error _ => Except.ok st
          | .ok spec => processSpec strategy st spec) (initMerged, initStats)) >>=
          (fun st => Except.ok (clean_merged_spec st.1, st.2)) := rfl
    rw [h1, hfold _ _ hfail, except_ok_bind]
    rfl

/-- Witness for C10 on a single unloadable file. -/
theorem c10_all_failed_loads_witness :
    ([Except.error "boom"] : List (Except String Obj)) ≠ [] ∧
    merge_all_specs [Except.error "boom"] "keep_first" =
      Except.ok ({initMerged with components := none}, initStats) :=
  ⟨List.cons_ne_nil _ _,
   c10_all_failed_loads [Except.error "boom"] "keep_first" (List.cons_ne_nil _ _)
     (fun l hl => ⟨"boom", List.mem_singleton.mp hl⟩)⟩

end OpenAPI
